import Mathlib

/-!
Verification of the u-routing vehicle-routing core against its specification.

Shallow embedding conventions:
* Rust `f64` values are modelled as exact rationals `ℚ` (all arithmetic in the
  routing core is +, -, *, max and comparisons, which are exact); where the
  code distinguishes non-finite values (`TimeWindow::new`) an explicit `F64`
  surrogate type is used.
* `i32` demands and capacities are modelled as `ℤ`, `usize` ids and indices
  as `ℕ`.
* Rust `Vec` becomes `List`; out-of-range reads use `getD` with default `0`
  (the code only reads in bounds under the stated hypotheses).
* `f64::INFINITY` in the split DP cost arrays becomes `Option ℚ` with `none`
  playing the role of infinity.
* Euclidean distances (`Customer::distance_to`) need `Real.sqrt`, so the
  matrix builder `from_customers` produces a real-valued matrix; all routing
  algorithms take an arbitrary rational matrix, exactly as the code takes an
  arbitrary `DistanceMatrix`.
-/

namespace URouting

/-- Surrogate for Rust `f64` inputs in the places where the code tests
finiteness: a finite rational value or one of the non-finite IEEE values. -/
inductive F64 where
  | finite (val : ℚ)
  | nan
  | posInf
  | negInf
deriving DecidableEq

/-- `f64::is_finite`. -/
def F64.isFinite : F64 → Bool
  | .finite _ => true
  | _ => false

/-- IEEE comparison `a > b`: false whenever either side is NaN. -/
def F64.fgt : F64 → F64 → Bool
  | .finite a, .finite b => decide (a > b)
  | .finite _, .negInf => true
  | .posInf, .finite _ => true
  | .posInf, .negInf => true
  | _, _ => false

/-- `TimeWindow` from `src/models/customer.rs`: a validated window always
holds two finite values, modelled as rationals. -/
structure TimeWindow where
  ready : ℚ
  due : ℚ
deriving DecidableEq

/-- `TimeWindow::new`: `None` if `ready > due` or either value is non-finite. -/
def TimeWindow.new (ready due : F64) : Option TimeWindow :=
  if ready.isFinite = false ∨ due.isFinite = false ∨ F64.fgt ready due = true then
    none
  else
    match ready, due with
    | .finite r, .finite d => some ⟨r, d⟩
    | _, _ => none

/-- `TimeWindow::contains`. -/
def TimeWindow.contains (w : TimeWindow) (time : ℚ) : Bool :=
  decide (time ≥ w.ready) && decide (time ≤ w.due)

/-- `TimeWindow::waiting_time`. -/
def TimeWindow.waiting_time (w : TimeWindow) (arrival : ℚ) : ℚ :=
  if arrival < w.ready then w.ready - arrival else 0

/-- `TimeWindow::is_violated`. -/
def TimeWindow.is_violated (w : TimeWindow) (arrival : ℚ) : Bool :=
  decide (arrival > w.due)

/-- `Customer` from `src/models/customer.rs`. -/
structure Customer where
  id : ℕ
  x : ℚ
  y : ℚ
  demand : ℤ
  service_duration : ℚ
  time_window : Option TimeWindow
deriving DecidableEq

/-- `Customer::new`. -/
def Customer.new (id : ℕ) (x y : ℚ) (demand : ℤ) (service_duration : ℚ) : Customer :=
  ⟨id, x, y, demand, service_duration, none⟩

/-- `Customer::depot`. -/
def Customer.depot (x y : ℚ) : Customer :=
  Customer.new 0 x y 0 0

/-- `Customer::with_time_window`. -/
def Customer.with_time_window (c : Customer) (tw : TimeWindow) : Customer :=
  ⟨c.id, c.x, c.y, c.demand, c.service_duration, some tw⟩

/-- `Customer::distance_to`: Euclidean distance, hence real-valued. -/
noncomputable def Customer.distance_to (a b : Customer) : ℝ :=
  Real.sqrt (((a.x - b.x) * (a.x - b.x) + (a.y - b.y) * (a.y - b.y) : ℚ) : ℝ)

/-- `DistanceMatrix` from `src/distance/matrix.rs`: dense row-major storage.
Rational entries; all routing algorithms consume this form. -/
structure DistanceMatrix where
  data : List ℚ
  size : ℕ
deriving DecidableEq

/-- `DistanceMatrix::new`: all-zero matrix. -/
def DistanceMatrix.new (size : ℕ) : DistanceMatrix :=
  ⟨List.replicate (size * size) 0, size⟩

/-- `DistanceMatrix::from_data`. -/
def DistanceMatrix.from_data (size : ℕ) (data : List ℚ) : Option DistanceMatrix :=
  if data.length ≠ size * size then none else some ⟨data, size⟩

/-- `DistanceMatrix::get` (row-major lookup). -/
def DistanceMatrix.get (m : DistanceMatrix) (i j : ℕ) : ℚ :=
  m.data.getD (i * m.size + j) 0

/-- `DistanceMatrix::set`. -/
def DistanceMatrix.set (m : DistanceMatrix) (i j : ℕ) (v : ℚ) : DistanceMatrix :=
  ⟨m.data.set (i * m.size + j) v, m.size⟩

/-- Real-valued dense matrix, the result type of the Euclidean builder. -/
structure DistanceMatrixR where
  data : List ℝ
  size : ℕ

/-- All-zero real matrix (`DistanceMatrix::new` step of the builder). -/
noncomputable def DistanceMatrixR.new (size : ℕ) : DistanceMatrixR :=
  ⟨List.replicate (size * size) 0, size⟩

/-- Row-major lookup on the real matrix. -/
noncomputable def DistanceMatrixR.get (m : DistanceMatrixR) (i j : ℕ) : ℝ :=
  m.data.getD (i * m.size + j) 0

/-- Entry update on the real matrix. -/
noncomputable def DistanceMatrixR.set (m : DistanceMatrixR) (i j : ℕ) (v : ℝ) : DistanceMatrixR :=
  ⟨m.data.set (i * m.size + j) v, m.size⟩

/-- Default customer used to totalise list indexing (`customers[cid]` panics
out of bounds in Rust; under the stated hypotheses all reads are in bounds). -/
def dfltCustomer : Customer := Customer.depot 0 0

/-- `DistanceMatrix::from_customers`: for each `i < j` compute the Euclidean
distance once and store it at both `(i,j)` and `(j,i)`. -/
noncomputable def DistanceMatrix.from_customers (customers : List Customer) : DistanceMatrixR :=
  let n := customers.length
  (List.range n).foldl
    (fun dm i =>
      (List.range' (i + 1) (n - (i + 1))).foldl
        (fun dm2 j =>
          let d := (customers.getD i dfltCustomer).distance_to (customers.getD j dfltCustomer)
          (dm2.set i j d).set j i d)
        dm)
    (DistanceMatrixR.new n)

/-- The strict-improvement threshold `1e-10` used throughout the local search. -/
def eps : ℚ := 1 / 10 ^ 10

/- ### Generic list helpers -/

/-- `Vehicle` from `src/models/vehicle.rs`. -/
structure Vehicle where
  id : ℕ
  capacity : ℤ
  depot_id : ℕ
  cost_per_distance : ℚ
  fixed_cost : ℚ
  max_distance : Option ℚ
  max_duration : Option ℚ
deriving DecidableEq

/-- `Vehicle::new`: defaults depot 0, unit cost, no fixed cost, no limits. -/
def Vehicle.new (id : ℕ) (capacity : ℤ) : Vehicle :=
  ⟨id, capacity, 0, 1, 0, none, none⟩

/-- `Visit` from `src/models/route.rs`. -/
structure Visit where
  customer_id : ℕ
  arrival_time : ℚ
  departure_time : ℚ
  load_after : ℤ
deriving DecidableEq

/-- `Route` from `src/models/route.rs`. -/
structure Route where
  vehicle_id : ℕ
  visits : List Visit
  total_distance : ℚ
  total_duration : ℚ
  total_load : ℤ
deriving DecidableEq

/-- `Route::new`. -/
def Route.new (vehicle_id : ℕ) : Route :=
  ⟨vehicle_id, [], 0, 0, 0⟩

/-- `Route::push_visit`: appends the visit and caches its `load_after` as the
route's total load. -/
def Route.push_visit (r : Route) (v : Visit) : Route :=
  ⟨r.vehicle_id, r.visits ++ [v], r.total_distance, r.total_duration, v.load_after⟩

/-- `Route::customer_ids`. -/
def Route.customer_ids (r : Route) : List ℕ :=
  r.visits.map Visit.customer_id

/-- `Route::len`. -/
def Route.len (r : Route) : ℕ :=
  r.visits.length

/-- `Route::set_total_distance`. -/
def Route.set_total_distance (r : Route) (d : ℚ) : Route :=
  ⟨r.vehicle_id, r.visits, d, r.total_duration, r.total_load⟩

/-- `Route::set_total_duration`. -/
def Route.set_total_duration (r : Route) (d : ℚ) : Route :=
  ⟨r.vehicle_id, r.visits, r.total_distance, d, r.total_load⟩

/-- `ViolationType` from `src/models/solution.rs`. -/
inductive ViolationType where
  | capacityExceeded (route_index : ℕ) (load capacity : ℤ)
  | timeWindowViolated (customer_id : ℕ) (arrival due : ℚ)
  | maxDistanceExceeded (route_index : ℕ) (distance max_distance : ℚ)
  | maxDurationExceeded (route_index : ℕ) (duration max_duration : ℚ)
deriving DecidableEq

/-- Loop state of `RouteEvaluator::build_route`. -/
structure BuildState where
  route : Route
  violations : List ViolationType
  current_time : ℚ
  current_load : ℤ
  total_distance : ℚ
  prev : ℕ

/-- One iteration of the `for &cid in customer_ids` loop in `build_route`. -/
def buildStep (customers : List Customer) (distances : DistanceMatrix)
    (st : BuildState) (cid : ℕ) : BuildState :=
  let travel := distances.get st.prev cid
  let total_distance := st.total_distance + travel
  let arrival := st.current_time + travel
  let customer := customers.getD cid dfltCustomer
  let violations :=
    match customer.time_window with
    | some tw =>
        if tw.is_violated arrival then
          st.violations ++ [ViolationType.timeWindowViolated cid arrival tw.due]
        else st.violations
    | none => st.violations
  let service_start :=
    match customer.time_window with
    | some tw => arrival + tw.waiting_time arrival
    | none => arrival
  let departure := service_start + customer.service_duration
  let current_load := st.current_load + customer.demand
  let route := st.route.push_visit ⟨cid, arrival, departure, current_load⟩
  ⟨route, violations, departure, current_load, total_distance, cid⟩

/-- `RouteEvaluator::build_route` from `src/evaluation/evaluator.rs`. -/
def build_route (customers : List Customer) (distances : DistanceMatrix)
    (vehicle : Vehicle) (customer_ids : List ℕ) : Route × List ViolationType :=
  let depot_id := vehicle.depot_id
  let st0 : BuildState := ⟨Route.new vehicle.id, [], 0, 0, 0, depot_id⟩
  let st := customer_ids.foldl (buildStep customers distances) st0
  let return_travel := distances.get st.prev depot_id
  let total_distance := st.total_distance + return_travel
  let total_duration := st.current_time + return_travel
  let route := (st.route.set_total_distance total_distance).set_total_duration total_duration
  let violations := st.violations ++
    (if st.current_load > vehicle.capacity then
      [ViolationType.capacityExceeded 0 st.current_load vehicle.capacity] else []) ++
    (match vehicle.max_distance with
     | some max_d =>
        if total_distance > max_d then
          [ViolationType.maxDistanceExceeded 0 total_distance max_d] else []
     | none => []) ++
    (match vehicle.max_duration with
     | some max_t =>
        if total_duration > max_t then
          [ViolationType.maxDurationExceeded 0 total_duration max_t] else []
     | none => [])
  (route, violations)

theorem getD_replicate_zero (k idx : ℕ) : (List.replicate k (0 : ℚ)).getD idx 0 = 0 := by
  rcases lt_or_ge idx k with h | h
  · simp [List.getD, List.getElem?_replicate, h]
  · simp [List.getD, List.getElem?_eq_none, h]

theorem getD_replicate_zeroR (k idx : ℕ) : (List.replicate k (0 : ℝ)).getD idx 0 = 0 := by
  rcases lt_or_ge idx k with h | h
  · simp [List.getD, List.getElem?_replicate, h]
  · simp [List.getD, List.getElem?_eq_none, h]

theorem getD_set_ne {α : Type} (l : List α) (n m : ℕ) (v d : α) (h : n ≠ m) :
    (l.set n v).getD m d = l.getD m d := by
  simp [List.getD, List.getElem?_set_ne h]

theorem getD_set_self {α : Type} (l : List α) (n : ℕ) (v d : α)
    (h : n < l.length) : (l.set n v).getD n d = v := by
  simp [List.getD, List.getElem?_set_self, h]

theorem set_oob {α : Type} (l : List α) (n : ℕ) (v : α) (h : l.length ≤ n) :
    l.set n v = l := by
  induction l generalizing n with
  | nil => rfl
  | cons a t ih =>
    cases n with
    | zero => simp at h
    | succ k =>
      simp only [List.set]
      rw [ih k (by simpa using h)]

theorem foldl_preserve {α β : Type} (f : β → α → β) (P : β → Prop) (l : List α)
    (h : ∀ b a, a ∈ l → P b → P (f b a)) (b0 : β) (h0 : P b0) : P (l.foldl f b0) := by
  induction l generalizing b0 with
  | nil => exact h0
  | cons a t ih =>
    exact ih (fun b x hx hb => h b x (List.mem_cons_of_mem a hx) hb)
      (f b0 a) (h b0 a (List.mem_cons_self a t) h0)

/-- Unique decomposition of row-major indices. -/
theorem rowmajor_inj {n i j k l : ℕ} (hj : j < n) (hl : l < n)
    (h : i * n + j = k * n + l) : i = k ∧ j = l := by
  have hik : i = k := by
    rcases Nat.lt_trichotomy i k with hlt | heq | hgt
    · exfalso
      have : i * n + j < k * n + l := by
        calc i * n + j < i * n + n := by omega
        _ = (i + 1) * n := by ring
        _ ≤ k * n := Nat.mul_le_mul_right n hlt
        _ ≤ k * n + l := Nat.le_add_right _ _
      omega
    · exact heq
    · exfalso
      have : k * n + l < i * n + j := by
        calc k * n + l < k * n + n := by omega
        _ = (k + 1) * n := by ring
        _ ≤ i * n := Nat.mul_le_mul_right n hgt
        _ ≤ i * n + j := Nat.le_add_right _ _
      omega
  subst hik
  omega

/- ### C8 support: matrix invariants -/

/-- Invariant carried through the Euclidean builder: well-formed shape, zero
diagonal, and exact symmetry of all in-bounds entries. -/
def MatInvR (n : ℕ) (m : DistanceMatrixR) : Prop :=
  m.size = n ∧ m.data.length = n * n ∧ (∀ k, m.get k k = 0) ∧
    ∀ a b, a < n → b < n → m.get a b = m.get b a

theorem getR_set_inbounds (m : DistanceMatrixR) (i j x y : ℕ) (v : ℝ)
    (hlen : m.data.length = m.size * m.size)
    (hi : i < m.size) (hj : j < m.size) (hx : x < m.size) (hy : y < m.size) :
    (m.set i j v).get x y = if x = i ∧ y = j then v else m.get x y := by
  show ((m.data).set (i * m.size + j) v).getD (x * m.size + y) 0 = _
  by_cases hc : x = i ∧ y = j
  · obtain ⟨rfl, rfl⟩ := hc
    rw [if_pos ⟨rfl, rfl⟩]
    apply getD_set_self
    rw [hlen]
    calc x * m.size + y < x * m.size + m.size := by omega
    _ = (x + 1) * m.size := by ring
    _ ≤ m.size * m.size := Nat.mul_le_mul_right _ hx
  · rw [if_neg hc]
    have hne : i * m.size + j ≠ x * m.size + y := by
      intro hcon
      obtain ⟨h1, h2⟩ := rowmajor_inj hj hy hcon
      exact hc ⟨h1.symm, h2.symm⟩
    rw [getD_set_ne _ _ _ _ _ hne]
    rfl

theorem getR_set_diag_oob (m : DistanceMatrixR) (i j k : ℕ) (v : ℝ)
    (hlen : m.data.length = m.size * m.size)
    (hi : i < m.size) (hj : j < m.size) (hk : m.size ≤ k) :
    (m.set i j v).get k k = m.get k k := by
  show ((m.data).set (i * m.size + j) v).getD (k * m.size + k) 0 = _
  have hwe : i * m.size + j < m.size * m.size := by
    calc i * m.size + j < i * m.size + m.size := by omega
    _ = (i + 1) * m.size := by ring
    _ ≤ m.size * m.size := Nat.mul_le_mul_right _ hi
  have hrr : m.size * m.size ≤ k * m.size + k := by
    have : m.size * m.size ≤ k * m.size := Nat.mul_le_mul_right _ hk
    omega
  rw [getD_set_ne _ _ _ _ _ (by omega)]
  rfl

theorem matInvR_new (n : ℕ) : MatInvR n (DistanceMatrixR.new n) := by
  refine ⟨rfl, by simp [DistanceMatrixR.new], ?_, ?_⟩
  · intro k
    simp [DistanceMatrixR.get, DistanceMatrixR.new, getD_replicate_zeroR]
  · intro a b _ _
    simp [DistanceMatrixR.get, DistanceMatrixR.new, getD_replicate_zeroR]

theorem matInvR_pairset (n i j : ℕ) (d : ℝ) (hi : i < n) (hj : j < n) (hij : i ≠ j)
    (m : DistanceMatrixR) (h : MatInvR n m) : MatInvR n ((m.set i j d).set j i d) := by
  obtain ⟨hsz, hlen, hdiag, hsym⟩ := h
  have hsz1 : (m.set i j d).size = n := hsz
  have hlen1 : (m.set i j d).data.length = (m.set i j d).size * (m.set i j d).size := by
    simp [DistanceMatrixR.set]
    rw [hsz, hlen]
  have hsz2 : ((m.set i j d).set j i d).size = n := hsz
  have hlen2 : ((m.set i j d).set j i d).data.length = n * n := by
    simp [DistanceMatrixR.set]
    rw [hlen]
  have hlen0 : m.data.length = m.size * m.size := by rw [hsz, hlen]
  have hi' : i < m.size := by rw [hsz]; exact hi
  have hj' : j < m.size := by rw [hsz]; exact hj
  have hi1 : i < (m.set i j d).size := by rw [hsz1]; exact hi
  have hj1 : j < (m.set i j d).size := by rw [hsz1]; exact hj
  -- value of an arbitrary in-bounds read after the paired update
  have hread : ∀ x y : ℕ, x < n → y < n →
      ((m.set i j d).set j i d).get x y =
        if x = j ∧ y = i then d else if x = i ∧ y = j then d else m.get x y := by
    intro x y hx hy
    have hx1 : x < (m.set i j d).size := by rw [hsz1]; exact hx
    have hy1 : y < (m.set i j d).size := by rw [hsz1]; exact hy
    rw [getR_set_inbounds (m.set i j d) j i x y d hlen1 hj1 hi1 hx1 hy1]
    by_cases h1 : x = j ∧ y = i
    · rw [if_pos h1, if_pos h1]
    · rw [if_neg h1, if_neg h1]
      rw [getR_set_inbounds m i j x y d hlen0 hi' hj' (by rw [hsz]; exact hx)
        (by rw [hsz]; exact hy)]
  refine ⟨hsz2, hlen2, ?_, ?_⟩
  · intro k
    by_cases hk : k < n
    · rw [hread k k hk hk]
      rw [if_neg (by rintro ⟨rfl, rfl⟩; exact hij rfl), if_neg (by rintro ⟨rfl, rfl⟩; exact hij rfl)]
      exact hdiag k
    · push_neg at hk
      rw [getR_set_diag_oob (m.set i j d) j i k d hlen1 hj1 hi1 (by rw [hsz1]; exact hk)]
      rw [getR_set_diag_oob m i j k d hlen0 hi' hj' (by rw [hsz]; exact hk)]
      exact hdiag k
  · intro a b ha hb
    rw [hread a b ha hb, hread b a hb ha]
    by_cases h1 : a = j ∧ b = i
    · obtain ⟨ha1, hb1⟩ := h1
      rw [if_pos ⟨ha1, hb1⟩, if_neg (by rintro ⟨hc1, hc2⟩; exact hij (by omega)),
        if_pos ⟨hb1, ha1⟩]
    · rw [if_neg h1]
      by_cases h2 : a = i ∧ b = j
      · obtain ⟨ha2, hb2⟩ := h2
        rw [if_pos ⟨ha2, hb2⟩, if_pos ⟨hb2, ha2⟩]
      · rw [if_neg h2, if_neg (fun hc => h2 ⟨hc.2, hc.1⟩), if_neg (fun hc => h1 ⟨hc.2, hc.1⟩)]
        exact hsym a b ha hb

theorem matInvR_from_customers (customers : List Customer) :
    MatInvR customers.length (DistanceMatrix.from_customers customers) := by
  unfold DistanceMatrix.from_customers
  apply foldl_preserve
  · intro dm i hi hdm
    have hi' : i < customers.length := List.mem_range.mp hi
    apply foldl_preserve
    · intro dm2 j hj hdm2
      have hj' := List.mem_range'_1.mp hj
      exact matInvR_pairset customers.length i j _ hi' (by omega) (by omega) dm2 hdm2
    · exact hdm
  · exact matInvR_new customers.length

/-- C8 — counterexample. The claim quantifies over matrices obtained through
`new`, `from_customers`, `from_data` and any sequence of `set` calls; a single
`set(0, 0, 5)` on a fresh 2×2 matrix makes `get(0, 0)` return 5, not 0. -/
theorem C8_counterexample :
    ((DistanceMatrix.new 2).set 0 0 5).get 0 0 = 5 ∧ (5 : ℚ) ≠ 0 := by
  constructor
  · decide
  · norm_num

/-- C8 (amended) — the zero-diagonal property holds for matrices built by
`new` and `from_customers`, and is preserved by `set` calls with distinct
in-bounds coordinates on a well-formed matrix; a `from_customers` matrix is
exactly symmetric on all in-bounds entries (hence within the 1e-10 tolerance). -/
theorem C8_matrix_diag_and_symmetry :
    (∀ n i : ℕ, (DistanceMatrix.new n).get i i = 0) ∧
    (∀ (m : DistanceMatrix) (i j k : ℕ) (v : ℚ),
      m.data.length = m.size * m.size → j < m.size → i ≠ j →
      (m.set i j v).get k k = m.get k k) ∧
    (∀ (customers : List Customer) (i : ℕ), i < customers.length →
      (DistanceMatrix.from_customers customers).get i i = 0) ∧
    (∀ (customers : List Customer) (i j : ℕ),
      i < customers.length → j < customers.length →
      |(DistanceMatrix.from_customers customers).get i j -
        (DistanceMatrix.from_customers customers).get j i| ≤ ((eps : ℚ) : ℝ)) := by
  refine ⟨?_, ?_, ?_, ?_⟩
  · intro n i
    simp [DistanceMatrix.get, DistanceMatrix.new, getD_replicate_zero]
  · intro m i j k v hlen hj hij
    by_cases hi : i < m.size
    · by_cases hk : k < m.size
      · have hne : i * m.size + j ≠ k * m.size + k := by
          intro hcon
          obtain ⟨h1, h2⟩ := rowmajor_inj hj hk hcon
          exact hij (h1.trans h2.symm)
        show ((m.data).set (i * m.size + j) v).getD (k * m.size + k) 0 = m.get k k
        rw [getD_set_ne _ _ _ _ _ hne]
        rfl
      · push_neg at hk
        have hwe : i * m.size + j < m.size * m.size := by
          calc i * m.size + j < i * m.size + m.size := by omega
          _ = (i + 1) * m.size := by ring
          _ ≤ m.size * m.size := Nat.mul_le_mul_right m.size hi
        have hrr : m.size * m.size ≤ k * m.size + k := by
          have : m.size * m.size ≤ k * m.size := Nat.mul_le_mul_right m.size hk
          omega
        show ((m.data).set (i * m.size + j) v).getD (k * m.size + k) 0 = m.get k k
        rw [getD_set_ne _ _ _ _ _ (by omega)]
        rfl
    · push_neg at hi
      have hoob : m.data.length ≤ i * m.size + j := by
        rw [hlen]
        have : m.size * m.size ≤ i * m.size := Nat.mul_le_mul_right m.size hi
        omega
      show ((m.data).set (i * m.size + j) v).getD (k * m.size + k) 0 = m.get k k
      rw [set_oob _ _ _ hoob]
      rfl
  · intro customers i hi
    exact (matInvR_from_customers customers).2.2.1 i
  · intro customers i j hi hj
    rw [(matInvR_from_customers customers).2.2.2 i j hi hj]
    rw [sub_self, abs_zero]
    norm_num [eps]

/-- C8 witness: the amended theorem applied at concrete inputs. -/
theorem C8_matrix_diag_and_symmetry_witness :
    (((⟨[0, 1, 2, 0], 2⟩ : DistanceMatrix).set 0 1 5).get 1 1 =
      (⟨[0, 1, 2, 0], 2⟩ : DistanceMatrix).get 1 1) ∧
    ((DistanceMatrix.from_customers [Customer.depot 0 0, Customer.new 1 3 4 10 5]).get 1 1 = 0) ∧
    (|(DistanceMatrix.from_customers [Customer.depot 0 0, Customer.new 1 3 4 10 5]).get 0 1 -
      (DistanceMatrix.from_customers [Customer.depot 0 0, Customer.new 1 3 4 10 5]).get 1 0| ≤
      ((eps : ℚ) : ℝ)) := by
  refine ⟨?_, ?_, ?_⟩
  · exact C8_matrix_diag_and_symmetry.2.1 ⟨[0, 1, 2, 0], 2⟩ 0 1 1 5 (by decide) (by decide)
      (by decide)
  · exact C8_matrix_diag_and_symmetry.2.2.1 [Customer.depot 0 0, Customer.new 1 3 4 10 5] 1
      (by decide)
  · exact C8_matrix_diag_and_symmetry.2.2.2 [Customer.depot 0 0, Customer.new 1 3 4 10 5] 0 1
      (by decide) (by decide)

/-- C7 — `TimeWindow::new` fails exactly on non-finite endpoints or
`ready > due`, and on any window `contains`, `waiting_time`, `is_violated`
have their specified characterizations. -/
theorem C7_time_window_contract :
    (∀ ready due : F64,
      TimeWindow.new ready due = none ↔
        ready.isFinite = false ∨ due.isFinite = false ∨
          ∃ r d : ℚ, ready = F64.finite r ∧ due = F64.finite d ∧ r > d) ∧
    (∀ (w : TimeWindow) (t : ℚ),
      (w.contains t = true ↔ w.ready ≤ t ∧ t ≤ w.due) ∧
      w.waiting_time t = max 0 (w.ready - t) ∧
      (w.is_violated t = true ↔ t > w.due)) := by
  constructor
  · intro ready due
    cases ready with
    | finite r =>
      cases due with
      | finite d =>
        by_cases h : r > d
        · simp [TimeWindow.new, F64.isFinite, F64.fgt, h]
        · simp [TimeWindow.new, F64.isFinite, F64.fgt, h]
      | nan => simp [TimeWindow.new, F64.isFinite, F64.fgt]
      | posInf => simp [TimeWindow.new, F64.isFinite, F64.fgt]
      | negInf => simp [TimeWindow.new, F64.isFinite, F64.fgt]
    | nan => simp [TimeWindow.new, F64.isFinite]
    | posInf =>
      cases due with
      | finite d => simp [TimeWindow.new, F64.isFinite, F64.fgt]
      | nan => simp [TimeWindow.new, F64.isFinite, F64.fgt]
      | posInf => simp [TimeWindow.new, F64.isFinite, F64.fgt]
      | negInf => simp [TimeWindow.new, F64.isFinite, F64.fgt]
    | negInf => simp [TimeWindow.new, F64.isFinite]
  · intro w t
    refine ⟨?_, ?_, ?_⟩
    · simp [TimeWindow.contains, and_comm]
    · unfold TimeWindow.waiting_time
      by_cases h : t < w.ready
      · rw [if_pos h, max_eq_right (by linarith)]
      · rw [if_neg h, max_eq_left (by push_neg at h; linarith)]
    · simp [TimeWindow.is_violated]

/- ### C3 support: evaluator invariants -/

/-- Default visit used to totalise indexed reads in statements. -/
def dfltVisit : Visit := ⟨0, 0, 0, 0⟩

/-- Demand of the customer a visit serves. -/
def visitDemand (customers : List Customer) (v : Visit) : ℤ :=
  (customers.getD v.customer_id dfltCustomer).demand

/-- Service duration of the customer a visit serves. -/
def visitService (customers : List Customer) (v : Visit) : ℚ :=
  (customers.getD v.customer_id dfltCustomer).service_duration

theorem getD_append_lt {α : Type} (l l2 : List α) (k : ℕ) (d : α)
    (h : k < l.length) : (l ++ l2).getD k d = l.getD k d := by
  simp [List.getD, List.getElem?_append, h]

theorem getD_append_len {α : Type} (l : List α) (v d : α) :
    (l ++ [v]).getD l.length d = v := by
  simp [List.getD]

theorem waiting_time_nonneg (w : TimeWindow) (t : ℚ) : 0 ≤ w.waiting_time t := by
  unfold TimeWindow.waiting_time
  by_cases h : t < w.ready
  · rw [if_pos h]
    linarith
  · rw [if_neg h]

/-- All the invariants `build_route` maintains along its loop. -/
def EvalInv (customers : List Customer) (dm : DistanceMatrix) (st : BuildState) : Prop :=
  st.current_load = (st.route.visits.map (visitDemand customers)).sum ∧
  st.route.total_load = st.current_load ∧
  (∀ k, k + 1 < st.route.visits.length →
    (st.route.visits.getD (k + 1) dfltVisit).arrival_time =
      (st.route.visits.getD k dfltVisit).departure_time +
        dm.get (st.route.visits.getD k dfltVisit).customer_id
          (st.route.visits.getD (k + 1) dfltVisit).customer_id) ∧
  (∀ k, k < st.route.visits.length →
    (st.route.visits.getD k dfltVisit).departure_time ≥
      (st.route.visits.getD k dfltVisit).arrival_time +
        visitService customers (st.route.visits.getD k dfltVisit)) ∧
  (∀ k, k < st.route.visits.length →
    (st.route.visits.getD k dfltVisit).load_after =
      ((st.route.visits.take (k + 1)).map (visitDemand customers)).sum) ∧
  (st.route.visits = [] ∨
    (st.current_time =
        (st.route.visits.getD (st.route.visits.length - 1) dfltVisit).departure_time ∧
      st.prev = (st.route.visits.getD (st.route.visits.length - 1) dfltVisit).customer_id))

theorem evalInv_step (customers : List Customer) (dm : DistanceMatrix)
    (st : BuildState) (cid : ℕ) (h : EvalInv customers dm st) :
    EvalInv customers dm (buildStep customers dm st cid) := by
  obtain ⟨hload, hcache, hchain, hserv, hpref, hlast⟩ := h
  set vs := st.route.visits with hvs
  set travel := dm.get st.prev cid with htravel
  set arrival := st.current_time + travel with harr
  set customer := customers.getD cid dfltCustomer with hcust
  set service_start :=
    (match customer.time_window with
     | some tw => arrival + tw.waiting_time arrival
     | none => arrival) with hss
  set departure := service_start + customer.service_duration with hdep
  set load2 := st.current_load + customer.demand with hload2
  set v := (⟨cid, arrival, departure, load2⟩ : Visit) with hv
  have hvisits : (buildStep customers dm st cid).route.visits = vs ++ [v] := rfl
  have hload3 : (buildStep customers dm st cid).current_load = load2 := rfl
  have htl : (buildStep customers dm st cid).route.total_load = v.load_after := rfl
  have hct : (buildStep customers dm st cid).current_time = departure := rfl
  have hpv : (buildStep customers dm st cid).prev = cid := rfl
  have hss_ge : service_start ≥ arrival := by
    rw [hss]
    cases hm : customer.time_window with
    | none => simp
    | some tw =>
      simp only
      have := waiting_time_nonneg tw arrival
      linarith
  refine ⟨?_, ?_, ?_, ?_, ?_, ?_⟩
  · rw [hload3, hvisits, hload2, hload]
    simp [visitDemand, hv, hcust]
  · rw [htl, hload3, hv, hload2]
  · intro k hk
    rw [hvisits] at hk ⊢
    simp only [List.length_append, List.length_singleton] at hk
    by_cases hk2 : k + 1 < vs.length
    · rw [getD_append_lt vs [v] (k + 1) dfltVisit hk2,
        getD_append_lt vs [v] k dfltVisit (by omega)]
      exact hchain k hk2
    · have hk3 : k + 1 = vs.length := by omega
      have hk4 : k < vs.length := by omega
      rw [hk3, getD_append_len, getD_append_lt vs [v] k dfltVisit hk4]
      rcases hlast with hnil | ⟨hct0, hpv0⟩
      · rw [hnil] at hk4
        simp at hk4
      · have hkk : k = vs.length - 1 := by omega
        rw [hv]
        simp only
        rw [harr, htravel, hct0, hpv0, hkk]
  · intro k hk
    rw [hvisits] at hk ⊢
    simp only [List.length_append, List.length_singleton] at hk
    by_cases hk2 : k < vs.length
    · rw [getD_append_lt vs [v] k dfltVisit hk2]
      exact hserv k hk2
    · have hk3 : k = vs.length := by omega
      rw [hk3, getD_append_len]
      show departure ≥ arrival + (customers.getD cid dfltCustomer).service_duration
      rw [hdep, ← hcust]
      linarith [hss_ge]
  · intro k hk
    rw [hvisits] at hk ⊢
    simp only [List.length_append, List.length_singleton] at hk
    by_cases hk2 : k < vs.length
    · rw [getD_append_lt vs [v] k dfltVisit hk2,
        List.take_append_of_le_length (by omega)]
      exact hpref k hk2
    · have hk3 : k = vs.length := by omega
      rw [hk3, getD_append_len, hv]
      simp only
      rw [List.take_of_length_le (by simp), hload2, hload]
      simp [visitDemand, hv, hcust]
  · right
    rw [hvisits, hct, hpv]
    simp only [List.length_append, List.length_singleton, Nat.add_sub_cancel]
    rw [getD_append_len, hv]
    exact ⟨rfl, rfl⟩

theorem evalInv_foldl (customers : List Customer) (dm : DistanceMatrix)
    (ids : List ℕ) (st : BuildState) (h : EvalInv customers dm st) :
    EvalInv customers dm (ids.foldl (buildStep customers dm) st) := by
  induction ids generalizing st with
  | nil => exact h
  | cons a t ih => exact ih _ (evalInv_step customers dm st a h)

/-- C3 — evaluator route invariants: the cached total load is the sum of the
visited customers' demands, each visit's `load_after` is the running demand
sum, consecutive visits satisfy `arrival[k+1] = departure[k] + travel(k,k+1)`,
and every visit departs no earlier than arrival plus service duration. -/
theorem C3_build_route_invariants (customers : List Customer) (dm : DistanceMatrix)
    (vehicle : Vehicle) (ids : List ℕ) :
    ((build_route customers dm vehicle ids).1.total_load =
      (((build_route customers dm vehicle ids).1.visits.map (visitDemand customers)).sum)) ∧
    (∀ k, k < (build_route customers dm vehicle ids).1.visits.length →
      ((build_route customers dm vehicle ids).1.visits.getD k dfltVisit).load_after =
        ((((build_route customers dm vehicle ids).1.visits.take (k + 1)).map
          (visitDemand customers)).sum)) ∧
    (∀ k, k + 1 < (build_route customers dm vehicle ids).1.visits.length →
      ((build_route customers dm vehicle ids).1.visits.getD (k + 1) dfltVisit).arrival_time =
        ((build_route customers dm vehicle ids).1.visits.getD k dfltVisit).departure_time +
          dm.get ((build_route customers dm vehicle ids).1.visits.getD k dfltVisit).customer_id
            ((build_route customers dm vehicle ids).1.visits.getD (k + 1) dfltVisit).customer_id) ∧
    (∀ k, k < (build_route customers dm vehicle ids).1.visits.length →
      ((build_route customers dm vehicle ids).1.visits.getD k dfltVisit).departure_time ≥
        ((build_route customers dm vehicle ids).1.visits.getD k dfltVisit).arrival_time +
          visitService customers ((build_route customers dm vehicle ids).1.visits.getD k dfltVisit)) := by
  have h0 : EvalInv customers dm
      ⟨Route.new vehicle.id, [], 0, 0, 0, vehicle.depot_id⟩ := by
    refine ⟨by simp [Route.new], by simp [Route.new], ?_, ?_, ?_, Or.inl rfl⟩
    · intro k hk
      simp [Route.new] at hk
    · intro k hk
      simp [Route.new] at hk
    · intro k hk
      simp [Route.new] at hk
  have hinv := evalInv_foldl customers dm ids _ h0
  obtain ⟨hload, hcache, hchain, hserv, hpref, _⟩ := hinv
  have hv : (build_route customers dm vehicle ids).1.visits =
      (ids.foldl (buildStep customers dm)
        ⟨Route.new vehicle.id, [], 0, 0, 0, vehicle.depot_id⟩).route.visits := rfl
  have htl : (build_route customers dm vehicle ids).1.total_load =
      (ids.foldl (buildStep customers dm)
        ⟨Route.new vehicle.id, [], 0, 0, 0, vehicle.depot_id⟩).route.total_load := rfl
  refine ⟨?_, ?_, ?_, ?_⟩
  · rw [htl, hv, hcache, hload]
  · intro k hk
    rw [hv] at hk ⊢
    exact hpref k hk
  · intro k hk
    rw [hv] at hk ⊢
    exact hchain k hk
  · intro k hk
    rw [hv] at hk ⊢
    exact hserv k hk

/- ### ALNS layer: lightweight solution, RNG model, repair operators -/

/-- Sum of adjacent-pair distances along a node list (the `windows(2)` loops). -/
def pathDist (dm : DistanceMatrix) : List ℕ → ℚ
  | [] => 0
  | [_] => 0
  | a :: b :: t => dm.get a b + pathDist dm (b :: t)

/-- Closed route distance `depot → r[0] → … → r[n-1] → depot`
(`route_distance` in `src/local_search/or_opt.rs` / `two_opt.rs`, and the
per-route part of `compute_total_distance` in `src/alns/solution_repr.rs`,
which fixes `depot = 0`). -/
def route_distance (route : List ℕ) (depot : ℕ) (dm : DistanceMatrix) : ℚ :=
  match route with
  | [] => 0
  | a :: t =>
    dm.get depot a + pathDist dm (a :: t) + dm.get ((a :: t).getLast?.getD 0) depot

/-- `compute_total_distance` from `src/alns/solution_repr.rs` (depot 0). -/
def compute_total_distance (routes : List (List ℕ)) (dm : DistanceMatrix) : ℚ :=
  (routes.map (fun r => route_distance r 0 dm)).sum

/-- `RoutingSolution` from `src/alns/solution_repr.rs`. -/
structure RoutingSolution where
  routes : List (List ℕ)
  unassigned : List ℕ
  total_distance : ℚ
deriving DecidableEq

/-- `RoutingSolution::new`. -/
def RoutingSolution.new (routes : List (List ℕ)) (unassigned : List ℕ)
    (dm : DistanceMatrix) : RoutingSolution :=
  ⟨routes, unassigned, compute_total_distance routes dm⟩

/-- `RoutingSolution::remove_empty_routes`. -/
def RoutingSolution.remove_empty_routes (s : RoutingSolution) : RoutingSolution :=
  ⟨s.routes.filter (fun r => !r.isEmpty), s.unassigned, s.total_distance⟩

/-- `RoutingSolution::recalculate_distance`. -/
def RoutingSolution.recalculate_distance (s : RoutingSolution) (dm : DistanceMatrix) :
    RoutingSolution :=
  ⟨s.routes, s.unassigned, compute_total_distance s.routes dm⟩

/-- Deterministic model of the caller-supplied RNG: two pure streams indexed by
the number of draws made so far. `random_range(0..m)` at draw `i` yields
`nats i % m`; real draws (the worst-removal noise) read `rats`. -/
structure Rng where
  nats : ℕ → ℕ
  rats : ℕ → ℚ

/-- Demand sum of a customer-id route (`route.iter().map(demand).sum()`). -/
def routeLoad (customers : List Customer) (route : List ℕ) : ℤ :=
  (route.map (fun c => (customers.getD c dfltCustomer).demand)).sum

/-- Insertion cost of `customer_id` at `pos` into `route`:
`d(prev, c) + d(c, next) − d(prev, next)` with depot boundaries. -/
def insertionCostAt (dm : DistanceMatrix) (route : List ℕ) (customer_id pos : ℕ) : ℚ :=
  let depot := 0
  let prev := if pos = 0 then depot else route.getD (pos - 1) 0
  let next := if pos = route.length then depot else route.getD pos 0
  dm.get prev customer_id + dm.get customer_id next - dm.get prev next

/-- `best_insertion` from `src/alns/repair.rs`: cheapest feasible
`(route, position, cost)` across all routes, capacity-checked per route. -/
def best_insertion (routes : List (List ℕ)) (customer_id : ℕ) (dm : DistanceMatrix)
    (customers : List Customer) (capacity : ℤ) : Option (ℕ × ℕ × ℚ) :=
  (List.range routes.length).foldl
    (fun best ri =>
      let route := routes.getD ri []
      if routeLoad customers route + (customers.getD customer_id dfltCustomer).demand >
          capacity then best
      else
        (List.range (route.length + 1)).foldl
          (fun b pos =>
            let cost := insertionCostAt dm route customer_id pos
            match b with
            | none => some (ri, pos, cost)
            | some bb => if cost < bb.2.2 then some (ri, pos, cost) else some bb)
          best)
    none

/-- One selection pass of `GreedyInsertion::repair`: over all unassigned
customers, the `(unassigned index, route, position, cost)` with the cheapest
feasible insertion (strict improvement, first candidate wins ties). -/
def greedySelect (dm : DistanceMatrix) (customers : List Customer) (capacity : ℤ)
    (routes : List (List ℕ)) (unassigned : List ℕ) : Option (ℕ × ℕ × ℕ × ℚ) :=
  (List.range unassigned.length).foldl
    (fun best ui =>
      let cid := unassigned.getD ui 0
      match best_insertion routes cid dm customers capacity with
      | none => best
      | some (ri, pos, cost) =>
        match best with
        | none => some (ui, ri, pos, cost)
        | some bb => if cost < bb.2.2.2 then some (ui, ri, pos, cost) else some bb)
    none

/-- The `while !unassigned.is_empty()` loop of `GreedyInsertion::repair`,
with fuel equal to the number of unassigned customers. -/
def greedyLoop (dm : DistanceMatrix) (customers : List Customer) (capacity : ℤ) :
    ℕ → List (List ℕ) → List ℕ → List (List ℕ)
  | 0, routes, _ => routes
  | fuel + 1, routes, unassigned =>
    match unassigned with
    | [] => routes
    | _ :: _ =>
      match greedySelect dm customers capacity routes unassigned with
      | none =>
        let cid := unassigned.getD 0 0
        greedyLoop dm customers capacity fuel (routes ++ [[cid]]) (unassigned.eraseIdx 0)
      | some (ui, ri, pos, _) =>
        let cid := unassigned.getD ui 0
        greedyLoop dm customers capacity fuel
          (routes.modify (fun r => r.insertIdx pos cid) ri) (unassigned.eraseIdx ui)

/-- `GreedyInsertion::repair` from `src/alns/repair.rs`. -/
def GreedyInsertion.repair (dm : DistanceMatrix) (customers : List Customer)
    (capacity : ℤ) (solution : RoutingSolution) (_rng : Rng) : RoutingSolution :=
  let unassigned := solution.unassigned
  let routes := greedyLoop dm customers capacity unassigned.length solution.routes unassigned
  RoutingSolution.recalculate_distance ⟨routes, [], solution.total_distance⟩ dm

/-- The sentinel `f64::MAX / 2.0` used by regret insertion for customers with
fewer than `k` feasible routes. -/
def f64MaxHalf : ℚ := (2 - 1 / 2 ^ 52) * 2 ^ 1022

/-- Insert `a` after every element strictly below it — the building block of a
stable sort (equal keys keep their original order, as Rust's `sort_by`). -/
def insertByLt {α : Type} (lt : α → α → Bool) (a : α) : List α → List α
  | [] => [a]
  | b :: t => if lt b a then b :: insertByLt lt a t else a :: b :: t

/-- Stable sort by a strict comparator; models `Vec::sort_by` (a stable sort)
with the total order `partial_cmp` on costs. -/
def stableSortBy {α : Type} (lt : α → α → Bool) (l : List α) : List α :=
  l.foldr (insertByLt lt) []

theorem insertByLt_perm {α : Type} (lt : α → α → Bool) (a : α) (l : List α) :
    (insertByLt lt a l).Perm (a :: l) := by
  induction l with
  | nil => exact List.Perm.refl _
  | cons b t ih =>
    unfold insertByLt
    by_cases h : lt b a = true
    · rw [if_pos h]
      exact (ih.cons b).trans (List.Perm.swap a b t)
    · rw [if_neg h]

theorem mem_stableSortBy {α : Type} (lt : α → α → Bool) (l : List α) (a : α) :
    a ∈ stableSortBy lt l ↔ a ∈ l := by
  induction l with
  | nil => simp [stableSortBy]
  | cons b t ih =>
    unfold stableSortBy
    simp only [List.foldr_cons]
    rw [(insertByLt_perm lt b (t.foldr (insertByLt lt) [])).mem_iff]
    simp only [List.mem_cons]
    unfold stableSortBy at ih
    rw [ih]

/-- `RegretInsertion::sorted_insertion_costs`: per-route best insertion, kept
as `(route, best position, best cost)` and sorted ascending by cost (stable). -/
def sorted_insertion_costs (dm : DistanceMatrix) (customers : List Customer)
    (capacity : ℤ) (routes : List (List ℕ)) (customer_id : ℕ) : List (ℕ × ℕ × ℚ) :=
  let costs := (List.range routes.length).foldl
    (fun acc ri =>
      let route := routes.getD ri []
      if routeLoad customers route + (customers.getD customer_id dfltCustomer).demand >
          capacity then acc
      else
        let best := (List.range (route.length + 1)).foldl
          (fun b pos =>
            let cost := insertionCostAt dm route customer_id pos
            match b with
            | none => some (pos, cost)
            | some bb => if cost < bb.2 then some (pos, cost) else some bb)
          none
        match best with
        | none => acc
        | some (pos, cost) => acc ++ [(ri, pos, cost)])
    []
  stableSortBy (fun a b => decide (a.2.2 < b.2.2)) costs

/-- Regret value of one candidate list: sum of the first `k-1` gaps to the
best cost, plus the large sentinel when fewer than `k` routes are feasible. -/
def regretValue (k : ℕ) (costs : List (ℕ × ℕ × ℚ)) : ℚ :=
  let best_cost := (costs.getD 0 (0, 0, 0)).2.2
  let regret := (((costs.drop 1).take (k - 1)).map (fun c => c.2.2 - best_cost)).sum
  if costs.length < k then regret + f64MaxHalf else regret

/-- One selection pass of `RegretInsertion::repair`. The comparison mirrors
the source exactly: the would-be tie-break compares the candidate's best cost
with itself, so it never fires. -/
def regretSelect (k : ℕ) (dm : DistanceMatrix) (customers : List Customer)
    (capacity : ℤ) (routes : List (List ℕ)) (unassigned : List ℕ) :
    Option (ℚ × ℕ × ℕ × ℕ) :=
  (List.range unassigned.length).foldl
    (fun best ui =>
      let cid := unassigned.getD ui 0
      let costs := sorted_insertion_costs dm customers capacity routes cid
      if costs.isEmpty then best
      else
        let best_cost := (costs.getD 0 (0, 0, 0)).2.2
        let regret := regretValue k costs
        let c0 := costs.getD 0 (0, 0, 0)
        match best with
        | none => some (regret, ui, c0.1, c0.2.1)
        | some bb =>
          if regret > bb.1 ∨ (regret = bb.1 ∧ best_cost < (costs.getD 0 (0, 0, 0)).2.2) then
            some (regret, ui, c0.1, c0.2.1)
          else some bb)
    none

/-- The `while !unassigned.is_empty()` loop of `RegretInsertion::repair`. -/
def regretLoop (k : ℕ) (dm : DistanceMatrix) (customers : List Customer) (capacity : ℤ) :
    ℕ → List (List ℕ) → List ℕ → List (List ℕ)
  | 0, routes, _ => routes
  | fuel + 1, routes, unassigned =>
    match unassigned with
    | [] => routes
    | _ :: _ =>
      match regretSelect k dm customers capacity routes unassigned with
      | none =>
        let cid := unassigned.getD 0 0
        regretLoop k dm customers capacity fuel (routes ++ [[cid]]) (unassigned.eraseIdx 0)
      | some (_, ui, ri, pos) =>
        let cid := unassigned.getD ui 0
        regretLoop k dm customers capacity fuel
          (routes.modify (fun r => r.insertIdx pos cid) ri) (unassigned.eraseIdx ui)

/-- `RegretInsertion::repair` from `src/alns/repair.rs` (default `k = 2`). -/
def RegretInsertion.repair (k : ℕ) (dm : DistanceMatrix) (customers : List Customer)
    (capacity : ℤ) (solution : RoutingSolution) (_rng : Rng) : RoutingSolution :=
  let unassigned := solution.unassigned
  let routes := regretLoop k dm customers capacity unassigned.length solution.routes unassigned
  RoutingSolution.recalculate_distance ⟨routes, [], solution.total_distance⟩ dm

/- ### Customer conservation machinery (multisets) -/

/-- All customers served by a list of routes, as a multiset. -/
def servedM (routes : List (List ℕ)) : Multiset ℕ :=
  (routes.flatten : Multiset ℕ)

theorem multiset_insertIdx (l : List ℕ) (pos a : ℕ) (h : pos ≤ l.length) :
    ((l.insertIdx pos a : List ℕ) : Multiset ℕ) = a ::ₘ (l : Multiset ℕ) := by
  rw [Multiset.cons_coe]
  exact Multiset.coe_eq_coe.mpr (List.perm_insertIdx a l h)

theorem multiset_eraseIdx (l : List ℕ) (i : ℕ) (h : i < l.length) :
    ((l.eraseIdx i : List ℕ) : Multiset ℕ) + {l.getD i 0} = (l : Multiset ℕ) := by
  induction l generalizing i with
  | nil => simp at h
  | cons b t ih =>
    cases i with
    | zero =>
      show (t : Multiset ℕ) + {b} = ((b :: t : List ℕ) : Multiset ℕ)
      rw [add_comm, Multiset.singleton_add, Multiset.cons_coe]
    | succ n =>
      have h' : n < t.length := by simpa using h
      show ((b :: t.eraseIdx n : List ℕ) : Multiset ℕ) + {t.getD n 0} =
        ((b :: t : List ℕ) : Multiset ℕ)
      rw [← Multiset.cons_coe, ← Multiset.cons_coe, ← ih n h', ← Multiset.singleton_add,
        ← Multiset.singleton_add, add_assoc]

theorem servedM_append_single (routes : List (List ℕ)) (r : List ℕ) :
    servedM (routes ++ [r]) = servedM routes + (r : Multiset ℕ) := by
  unfold servedM
  rw [List.flatten_append]
  rw [← Multiset.coe_add]
  simp

theorem servedM_modify_insert (routes : List (List ℕ)) (ri pos cid : ℕ)
    (hri : ri < routes.length) (hpos : pos ≤ (routes.getD ri []).length) :
    servedM (List.modify (fun r => r.insertIdx pos cid) ri routes) =
      cid ::ₘ servedM routes := by
  induction routes generalizing ri with
  | nil => simp at hri
  | cons r rs ih =>
    cases ri with
    | zero =>
      show servedM ((r.insertIdx pos cid) :: rs) = _
      unfold servedM
      rw [List.flatten_cons, List.flatten_cons, ← Multiset.coe_add, ← Multiset.coe_add]
      rw [multiset_insertIdx r pos cid (by simpa using hpos)]
      rw [← Multiset.singleton_add, ← Multiset.singleton_add, add_assoc]
    | succ n =>
      have hri' : n < rs.length := by simpa using hri
      have hpos' : pos ≤ (rs.getD n []).length := by simpa using hpos
      show servedM (r :: List.modify (fun r2 => r2.insertIdx pos cid) n rs) = _
      unfold servedM
      rw [List.flatten_cons, List.flatten_cons, ← Multiset.coe_add, ← Multiset.coe_add]
      have := ih n hri' hpos'
      unfold servedM at this
      rw [this, ← Multiset.singleton_add, ← Multiset.singleton_add]
      rw [← add_assoc, ← add_assoc, add_comm (↑r : Multiset ℕ) {cid}]

/-- Bounds respected by every candidate `best_insertion` can return. -/
theorem best_insertion_bounds (routes : List (List ℕ)) (cid : ℕ) (dm : DistanceMatrix)
    (customers : List Customer) (capacity : ℤ) (ri pos : ℕ) (c : ℚ)
    (h : best_insertion routes cid dm customers capacity = some (ri, pos, c)) :
    ri < routes.length ∧ pos ≤ (routes.getD ri []).length := by
  have main : ∀ b : Option (ℕ × ℕ × ℚ),
      (∀ ri2 pos2 c2, b = some (ri2, pos2, c2) →
        ri2 < routes.length ∧ pos2 ≤ (routes.getD ri2 []).length) →
      ∀ ri2 pos2 c2, best_insertion routes cid dm customers capacity = some (ri2, pos2, c2) →
        ri2 < routes.length ∧ pos2 ≤ (routes.getD ri2 []).length := by
    intro b hb
    unfold best_insertion
    have := foldl_preserve
      (fun best ri2 =>
        let route := routes.getD ri2 []
        if routeLoad customers route + (customers.getD cid dfltCustomer).demand > capacity then
          best
        else
          (List.range (route.length + 1)).foldl
            (fun b2 pos2 =>
              let cost := insertionCostAt dm route cid pos2
              match b2 with
              | none => some (ri2, pos2, cost)
              | some bb => if cost < bb.2.2 then some (ri2, pos2, cost) else some bb)
            best)
      (fun b2 => ∀ ri2 pos2 c2, b2 = some (ri2, pos2, c2) →
        ri2 < routes.length ∧ pos2 ≤ (routes.getD ri2 []).length)
      (List.range routes.length) ?_ none ?_
    · exact this
    · intro b2 a ha hb2
      simp only
      split
      · exact hb2
      · refine foldl_preserve _
          (fun b3 => ∀ ri2 pos2 c2, b3 = some (ri2, pos2, c2) →
            ri2 < routes.length ∧ pos2 ≤ (routes.getD ri2 []).length)
          (List.range ((routes.getD a []).length + 1)) ?_ b2 hb2
        intro b3 pos hpos hb3
        intro ri2 pos2 c2 heq
        match b3 with
        | none =>
          simp only at heq
          cases heq
          exact ⟨List.mem_range.mp ha, by
            have := List.mem_range.mp hpos
            omega⟩
        | some bb =>
          simp only at heq
          split at heq
          · cases heq
            exact ⟨List.mem_range.mp ha, by
              have := List.mem_range.mp hpos
              omega⟩
          · cases heq
            exact hb3 _ _ _ rfl
    · intro ri2 pos2 c2 heq
      cases heq
  exact main none (by intro ri2 pos2 c2 h2; cases h2) ri pos c h

/-- Bounds respected by every candidate `greedySelect` can return. -/
theorem greedySelect_bounds (dm : DistanceMatrix) (customers : List Customer)
    (capacity : ℤ) (routes : List (List ℕ)) (unassigned : List ℕ)
    (ui ri pos : ℕ) (c : ℚ)
    (h : greedySelect dm customers capacity routes unassigned = some (ui, ri, pos, c)) :
    ui < unassigned.length ∧ ri < routes.length ∧ pos ≤ (routes.getD ri []).length := by
  unfold greedySelect at h
  have main := foldl_preserve
    (fun best ui2 =>
      let cid := unassigned.getD ui2 0
      match best_insertion routes cid dm customers capacity with
      | none => best
      | some (ri2, pos2, cost) =>
        match best with
        | none => some (ui2, ri2, pos2, cost)
        | some bb => if cost < bb.2.2.2 then some (ui2, ri2, pos2, cost) else some bb)
    (fun b => ∀ ui2 ri2 pos2 c2, b = some (ui2, ri2, pos2, c2) →
      ui2 < unassigned.length ∧ ri2 < routes.length ∧ pos2 ≤ (routes.getD ri2 []).length)
    (List.range unassigned.length) ?_ none ?_
  · exact main ui ri pos c h
  · intro b a ha hb
    simp only
    cases hbi : best_insertion routes (unassigned.getD a 0) dm customers capacity with
    | none => exact hb
    | some tr =>
      obtain ⟨ri2, pos2, cost⟩ := tr
      have hbd := best_insertion_bounds routes (unassigned.getD a 0) dm customers capacity
        ri2 pos2 cost hbi
      match b with
      | none =>
        intro ui3 ri3 pos3 c3 heq
        simp only at heq
        cases heq
        exact ⟨List.mem_range.mp ha, hbd⟩
      | some bb =>
        intro ui3 ri3 pos3 c3 heq
        simp only at heq
        split at heq
        · cases heq
          exact ⟨List.mem_range.mp ha, hbd⟩
        · cases heq
          exact hb _ _ _ _ rfl
  · intro ui2 ri2 pos2 c2 heq
    cases heq

theorem greedyLoop_step_none (dm : DistanceMatrix) (customers : List Customer)
    (capacity : ℤ) (n : ℕ) (routes : List (List ℕ)) (u : ℕ) (us : List ℕ)
    (h : greedySelect dm customers capacity routes (u :: us) = none) :
    greedyLoop dm customers capacity (n + 1) routes (u :: us) =
      greedyLoop dm customers capacity n (routes ++ [[(u :: us).getD 0 0]])
        ((u :: us).eraseIdx 0) := by
  simp only [greedyLoop]
  rw [h]

theorem greedyLoop_step_some (dm : DistanceMatrix) (customers : List Customer)
    (capacity : ℤ) (n : ℕ) (routes : List (List ℕ)) (u : ℕ) (us : List ℕ)
    (ui ri pos : ℕ) (c : ℚ)
    (h : greedySelect dm customers capacity routes (u :: us) = some (ui, ri, pos, c)) :
    greedyLoop dm customers capacity (n + 1) routes (u :: us) =
      greedyLoop dm customers capacity n
        (List.modify (fun r => r.insertIdx pos ((u :: us).getD ui 0)) ri routes)
        ((u :: us).eraseIdx ui) := by
  simp only [greedyLoop]
  rw [h]

theorem greedyLoop_conserves (dm : DistanceMatrix) (customers : List Customer)
    (capacity : ℤ) :
    ∀ (fuel : ℕ) (routes : List (List ℕ)) (unassigned : List ℕ),
      fuel = unassigned.length →
      servedM (greedyLoop dm customers capacity fuel routes unassigned) =
        servedM routes + (unassigned : Multiset ℕ) := by
  intro fuel
  induction fuel with
  | zero =>
    intro routes unassigned h
    match unassigned with
    | [] => simp [greedyLoop]
    | u :: us => simp at h
  | succ n ih =>
    intro routes unassigned h
    match unassigned with
    | [] => simp at h
    | u :: us =>
      cases hsel : greedySelect dm customers capacity routes (u :: us) with
      | none =>
        rw [greedyLoop_step_none dm customers capacity n routes u us hsel]
        rw [ih (routes ++ [[(u :: us).getD 0 0]]) ((u :: us).eraseIdx 0)
          (by simp [List.eraseIdx] at h ⊢; omega)]
        rw [servedM_append_single]
        have herase := multiset_eraseIdx (u :: us) 0 (by simp)
        rw [add_assoc, add_comm (([(u :: us).getD 0 0] : List ℕ) : Multiset ℕ) _]
        rw [show (([(u :: us).getD 0 0] : List ℕ) : Multiset ℕ) =
          ({(u :: us).getD 0 0} : Multiset ℕ) by rfl]
        rw [herase]
      | some r =>
        obtain ⟨ui, ri, pos, c0⟩ := r
        have hbd := greedySelect_bounds dm customers capacity routes (u :: us) ui ri pos c0 hsel
        rw [greedyLoop_step_some dm customers capacity n routes u us ui ri pos c0 hsel]
        rw [ih _ ((u :: us).eraseIdx ui) (by
          rw [List.length_eraseIdx_of_lt hbd.1]
          simp at h ⊢
          omega)]
        rw [servedM_modify_insert routes ri pos ((u :: us).getD ui 0) hbd.2.1 hbd.2.2]
        have herase := multiset_eraseIdx (u :: us) ui hbd.1
        rw [← Multiset.singleton_add, add_comm ({(u :: us).getD ui 0} : Multiset ℕ) _, add_assoc]
        rw [add_comm ({(u :: us).getD ui 0} : Multiset ℕ)
          (((u :: us).eraseIdx ui : List ℕ) : Multiset ℕ), herase]

theorem getD_zero_mem {α : Type} (l : List α) (d : α) (h : l ≠ []) : l.getD 0 d ∈ l := by
  cases l with
  | nil => exact absurd rfl h
  | cons a t => simp [List.getD]

/-- Every candidate in `sorted_insertion_costs` points at an existing route
and a position within it. -/
theorem sorted_insertion_costs_bounds (dm : DistanceMatrix) (customers : List Customer)
    (capacity : ℤ) (routes : List (List ℕ)) (cid : ℕ) :
    ∀ e ∈ sorted_insertion_costs dm customers capacity routes cid,
      e.1 < routes.length ∧ e.2.1 ≤ (routes.getD e.1 []).length := by
  intro e he
  unfold sorted_insertion_costs at he
  rw [mem_stableSortBy] at he
  revert e he
  refine foldl_preserve _
    (fun acc => ∀ e : ℕ × ℕ × ℚ, e ∈ acc →
      e.1 < routes.length ∧ e.2.1 ≤ (routes.getD e.1 []).length)
    (List.range routes.length) ?_ [] (by intro e he; simp at he)
  intro acc a ha hacc
  simp only
  split
  · exact hacc
  · have hinner : ∀ b : Option (ℕ × ℚ),
        (∀ pos c, b = some (pos, c) → pos ≤ (routes.getD a []).length) →
        ∀ pos c, (List.range ((routes.getD a []).length + 1)).foldl
            (fun b2 pos2 =>
              let cost := insertionCostAt dm (routes.getD a []) cid pos2
              match b2 with
              | none => some (pos2, cost)
              | some bb => if cost < bb.2 then some (pos2, cost) else some bb)
            b = some (pos, c) → pos ≤ (routes.getD a []).length := by
      intro b hb
      have := foldl_preserve
        (fun b2 pos2 =>
          let cost := insertionCostAt dm (routes.getD a []) cid pos2
          match b2 with
          | none => some (pos2, cost)
          | some bb => if cost < bb.2 then some (pos2, cost) else some bb)
        (fun b2 => ∀ pos c, b2 = some (pos, c) → pos ≤ (routes.getD a []).length)
        (List.range ((routes.getD a []).length + 1)) ?_ b hb
      · exact this
      · intro b2 pos2 hpos2 hb2
        intro pos c heq
        match b2 with
        | none =>
          simp only at heq
          cases heq
          have := List.mem_range.mp hpos2
          omega
        | some bb =>
          simp only at heq
          split at heq
          · cases heq
            have := List.mem_range.mp hpos2
            omega
          · cases heq
            exact hb2 _ _ rfl
    cases hres : (List.range ((routes.getD a []).length + 1)).foldl
        (fun b2 pos2 =>
          let cost := insertionCostAt dm (routes.getD a []) cid pos2
          match b2 with
          | none => some (pos2, cost)
          | some bb => if cost < bb.2 then some (pos2, cost) else some bb)
        none with
    | none => exact hacc
    | some pc =>
      obtain ⟨pos, c⟩ := pc
      intro e he
      have he2 : e ∈ acc ++ [(a, pos, c)] := he
      simp only [List.mem_append, List.mem_singleton] at he2
      rcases he2 with he2 | he2
      · exact hacc e he2
      · subst he2
        refine ⟨List.mem_range.mp ha, ?_⟩
        exact hinner none (by intro pos2 c2 h2; cases h2) pos c hres

/-- Bounds respected by every candidate `regretSelect` can return. -/
theorem regretSelect_bounds (k : ℕ) (dm : DistanceMatrix) (customers : List Customer)
    (capacity : ℤ) (routes : List (List ℕ)) (unassigned : List ℕ)
    (rg : ℚ) (ui ri pos : ℕ)
    (h : regretSelect k dm customers capacity routes unassigned = some (rg, ui, ri, pos)) :
    ui < unassigned.length ∧ ri < routes.length ∧ pos ≤ (routes.getD ri []).length := by
  unfold regretSelect at h
  have main := foldl_preserve
    (fun best ui2 =>
      let cid := unassigned.getD ui2 0
      let costs := sorted_insertion_costs dm customers capacity routes cid
      if costs.isEmpty then best
      else
        let best_cost := (costs.getD 0 (0, 0, 0)).2.2
        let regret := regretValue k costs
        let c0 := costs.getD 0 (0, 0, 0)
        match best with
        | none => some (regret, ui2, c0.1, c0.2.1)
        | some bb =>
          if regret > bb.1 ∨ (regret = bb.1 ∧ best_cost < (costs.getD 0 (0, 0, 0)).2.2) then
            some (regret, ui2, c0.1, c0.2.1)
          else some bb)
    (fun b => ∀ rg2 ui2 ri2 pos2, b = some (rg2, ui2, ri2, pos2) →
      ui2 < unassigned.length ∧ ri2 < routes.length ∧ pos2 ≤ (routes.getD ri2 []).length)
    (List.range unassigned.length) ?_ none ?_
  · exact main rg ui ri pos h
  · intro b a ha hb
    simp only
    split
    · exact hb
    · next hne =>
      have hmem : (sorted_insertion_costs dm customers capacity routes
          (unassigned.getD a 0)).getD 0 (0, 0, 0) ∈
          sorted_insertion_costs dm customers capacity routes (unassigned.getD a 0) := by
        apply getD_zero_mem
        intro hnil
        rw [hnil] at hne
        simp at hne
      have hbd := sorted_insertion_costs_bounds dm customers capacity routes
        (unassigned.getD a 0) _ hmem
      match b with
      | none =>
        intro rg2 ui2 ri2 pos2 heq
        simp only at heq
        cases heq
        exact ⟨List.mem_range.mp ha, hbd⟩
      | some bb =>
        intro rg2 ui2 ri2 pos2 heq
        simp only at heq
        split at heq
        · cases heq
          exact ⟨List.mem_range.mp ha, hbd⟩
        · cases heq
          exact hb _ _ _ _ rfl
  · intro rg2 ui2 ri2 pos2 heq
    cases heq

theorem regretLoop_step_none (k : ℕ) (dm : DistanceMatrix) (customers : List Customer)
    (capacity : ℤ) (n : ℕ) (routes : List (List ℕ)) (u : ℕ) (us : List ℕ)
    (h : regretSelect k dm customers capacity routes (u :: us) = none) :
    regretLoop k dm customers capacity (n + 1) routes (u :: us) =
      regretLoop k dm customers capacity n (routes ++ [[(u :: us).getD 0 0]])
        ((u :: us).eraseIdx 0) := by
  simp only [regretLoop]
  rw [h]

theorem regretLoop_step_some (k : ℕ) (dm : DistanceMatrix) (customers : List Customer)
    (capacity : ℤ) (n : ℕ) (routes : List (List ℕ)) (u : ℕ) (us : List ℕ)
    (rg : ℚ) (ui ri pos : ℕ)
    (h : regretSelect k dm customers capacity routes (u :: us) = some (rg, ui, ri, pos)) :
    regretLoop k dm customers capacity (n + 1) routes (u :: us) =
      regretLoop k dm customers capacity n
        (List.modify (fun r => r.insertIdx pos ((u :: us).getD ui 0)) ri routes)
        ((u :: us).eraseIdx ui) := by
  simp only [regretLoop]
  rw [h]

theorem regretLoop_conserves (k : ℕ) (dm : DistanceMatrix) (customers : List Customer)
    (capacity : ℤ) :
    ∀ (fuel : ℕ) (routes : List (List ℕ)) (unassigned : List ℕ),
      fuel = unassigned.length →
      servedM (regretLoop k dm customers capacity fuel routes unassigned) =
        servedM routes + (unassigned : Multiset ℕ) := by
  intro fuel
  induction fuel with
  | zero =>
    intro routes unassigned h
    match unassigned with
    | [] => simp [regretLoop]
    | u :: us => simp at h
  | succ n ih =>
    intro routes unassigned h
    match unassigned with
    | [] => simp at h
    | u :: us =>
      cases hsel : regretSelect k dm customers capacity routes (u :: us) with
      | none =>
        rw [regretLoop_step_none k dm customers capacity n routes u us hsel]
        rw [ih (routes ++ [[(u :: us).getD 0 0]]) ((u :: us).eraseIdx 0)
          (by simp [List.eraseIdx] at h ⊢; omega)]
        rw [servedM_append_single]
        have herase := multiset_eraseIdx (u :: us) 0 (by simp)
        rw [add_assoc, add_comm (([(u :: us).getD 0 0] : List ℕ) : Multiset ℕ) _]
        rw [show (([(u :: us).getD 0 0] : List ℕ) : Multiset ℕ) =
          ({(u :: us).getD 0 0} : Multiset ℕ) by rfl]
        rw [herase]
      | some r =>
        obtain ⟨rg, ui, ri, pos⟩ := r
        have hbd := regretSelect_bounds k dm customers capacity routes (u :: us) rg ui ri pos hsel
        rw [regretLoop_step_some k dm customers capacity n routes u us rg ui ri pos hsel]
        rw [ih _ ((u :: us).eraseIdx ui) (by
          rw [List.length_eraseIdx_of_lt hbd.1]
          simp at h ⊢
          omega)]
        rw [servedM_modify_insert routes ri pos ((u :: us).getD ui 0) hbd.2.1 hbd.2.2]
        have herase := multiset_eraseIdx (u :: us) ui hbd.1
        rw [← Multiset.singleton_add, add_comm ({(u :: us).getD ui 0} : Multiset ℕ) _, add_assoc]
        rw [add_comm ({(u :: us).getD ui 0} : Multiset ℕ)
          (((u :: us).eraseIdx ui : List ℕ) : Multiset ℕ), herase]

/-- C10 — both repair operators terminate with an empty unassigned list and
serve exactly the previously-served customers plus the previously-unassigned
ones (multiset equality: nothing is dropped or duplicated). -/
theorem C10_repair_completeness (dm : DistanceMatrix) (customers : List Customer)
    (capacity : ℤ) (sol : RoutingSolution) (g : Rng) (k : ℕ) :
    ((GreedyInsertion.repair dm customers capacity sol g).unassigned = [] ∧
      servedM (GreedyInsertion.repair dm customers capacity sol g).routes =
        servedM sol.routes + (sol.unassigned : Multiset ℕ)) ∧
    ((RegretInsertion.repair k dm customers capacity sol g).unassigned = [] ∧
      servedM (RegretInsertion.repair k dm customers capacity sol g).routes =
        servedM sol.routes + (sol.unassigned : Multiset ℕ)) := by
  refine ⟨⟨rfl, ?_⟩, ⟨rfl, ?_⟩⟩
  · exact greedyLoop_conserves dm customers capacity sol.unassigned.length sol.routes
      sol.unassigned rfl
  · exact regretLoop_conserves k dm customers capacity sol.unassigned.length sol.routes
      sol.unassigned rfl

/- ### C6: regret tie-break -/

/-- Concrete 5×5 distance matrix for the regret tie-break analysis
(row-major; symmetric, zero diagonal). -/
def C6dm : DistanceMatrix :=
  ⟨[0, 10, 10, 7, 6,
    10, 0, 100, 8, 9,
    10, 100, 0, 11, 6,
    7, 8, 11, 0, 20,
    6, 9, 6, 20, 0], 5⟩

/-- Customers 1–4 with unit demand (coordinates unused, distances explicit). -/
def C6customers : List Customer :=
  [Customer.depot 0 0, Customer.new 1 0 0 1 0, Customer.new 2 0 0 1 0,
    Customer.new 3 0 0 1 0, Customer.new 4 0 0 1 0]

/-- C6 — the selection step of `RegretInsertion::repair` evaluated on routes
`[[1],[2]]` with unassigned `[3,4]` and capacity 100: customers 3 and 4 have
equal regret (3), customer 4 has the strictly smaller best insertion cost
(2 < 5), yet the code selects customer 3 (unassigned index 0, inserting into
route 0 at position 0) because its tie-break compares the candidate's best
cost with itself and never fires. -/
theorem C6_regret_tiebreak_eval :
    regretSelect 2 C6dm C6customers 100 [[1], [2]] [3, 4] = some (3, 0, 0, 0) ∧
    regretValue 2 (sorted_insertion_costs C6dm C6customers 100 [[1], [2]] 3) =
      regretValue 2 (sorted_insertion_costs C6dm C6customers 100 [[1], [2]] 4) ∧
    ((sorted_insertion_costs C6dm C6customers 100 [[1], [2]] 4).getD 0 (0, 0, 0)).2.2 <
      ((sorted_insertion_costs C6dm C6customers 100 [[1], [2]] 3).getD 0 (0, 0, 0)).2.2 := by
  have h3 : sorted_insertion_costs C6dm C6customers 100 [[1], [2]] 3 =
      [(0, 0, 5), (1, 0, 8)] := by
    norm_num [sorted_insertion_costs, stableSortBy, insertByLt, insertionCostAt, routeLoad,
      C6dm, C6customers, DistanceMatrix.get, List.getD, Customer.new, Customer.depot,
      dfltCustomer, List.range_succ]
  have h4 : sorted_insertion_costs C6dm C6customers 100 [[1], [2]] 4 =
      [(1, 0, 2), (0, 0, 5)] := by
    norm_num [sorted_insertion_costs, stableSortBy, insertByLt, insertionCostAt, routeLoad,
      C6dm, C6customers, DistanceMatrix.get, List.getD, Customer.new, Customer.depot,
      dfltCustomer, List.range_succ]
  refine ⟨?_, ?_, ?_⟩
  · norm_num [regretSelect, List.range_succ, h3, h4, regretValue, List.getD]
    split_ifs <;> simp_all
  · rw [h3, h4]
    norm_num [regretValue, List.getD]
  · rw [h3, h4]
    norm_num [List.getD]

/- ### Path-distance algebra for the local-search proofs -/

/-- First node of a node list (0 if empty; only read when nonempty). -/
def headN (l : List ℕ) : ℕ := l.head?.getD 0

/-- Last node of a node list (0 if empty; only read when nonempty). -/
def lastN (l : List ℕ) : ℕ := l.getLast?.getD 0

/-- Symmetry of a distance matrix on its in-bounds entries. -/
def IsSymm (dm : DistanceMatrix) : Prop :=
  ∀ a b, a < dm.size → b < dm.size → dm.get a b = dm.get b a

theorem lastN_cons_cons (x y : ℕ) (rest : List ℕ) :
    lastN (x :: y :: rest) = lastN (y :: rest) := by
  simp [lastN, List.getLast?]

theorem headN_cons (y : ℕ) (ys : List ℕ) : headN (y :: ys) = y := rfl

theorem lastN_reverse (l : List ℕ) : lastN l.reverse = headN l := by
  simp [lastN, headN, List.getLast?_reverse]

theorem headN_reverse (l : List ℕ) : headN l.reverse = lastN l := by
  simp [lastN, headN, List.head?_reverse]

theorem pathDist_append (dm : DistanceMatrix) (xs ys : List ℕ) (a : ℕ) :
    pathDist dm (xs ++ a :: ys) = pathDist dm (xs ++ [a]) + pathDist dm (a :: ys) := by
  induction xs with
  | nil => simp [pathDist]
  | cons x xs' ih =>
    cases xs' with
    | nil =>
      show pathDist dm (x :: a :: ys) = pathDist dm [x, a] + pathDist dm (a :: ys)
      cases ys with
      | nil => simp [pathDist]
      | cons b bs => simp [pathDist]
    | cons y rest =>
      simp only [List.cons_append]
      simp only [List.cons_append] at ih
      show dm.get x y + pathDist dm (y :: (rest ++ a :: ys)) =
        dm.get x y + pathDist dm (y :: (rest ++ [a])) + pathDist dm (a :: ys)
      rw [ih]
      ring

theorem pathDist_concat (dm : DistanceMatrix) (xs : List ℕ) (a : ℕ) (h : xs ≠ []) :
    pathDist dm (xs ++ [a]) = pathDist dm xs + dm.get (lastN xs) a := by
  induction xs with
  | nil => exact absurd rfl h
  | cons x xs' ih =>
    cases xs' with
    | nil => simp [pathDist, lastN]
    | cons y rest =>
      show dm.get x y + pathDist dm (y :: rest ++ [a]) = _
      rw [ih (by simp)]
      rw [lastN_cons_cons]
      show _ = dm.get x y + pathDist dm (y :: rest) + dm.get (lastN (y :: rest)) a
      ring

theorem pathDist_cons_head (dm : DistanceMatrix) (a : ℕ) (t : List ℕ) (h : t ≠ []) :
    pathDist dm (a :: t) = dm.get a (headN t) + pathDist dm t := by
  cases t with
  | nil => exact absurd rfl h
  | cons y ys => rfl

theorem pathDist_glue (dm : DistanceMatrix) (X Y : List ℕ) (hX : X ≠ []) (hY : Y ≠ []) :
    pathDist dm (X ++ Y) = pathDist dm X + dm.get (lastN X) (headN Y) + pathDist dm Y := by
  cases Y with
  | nil => exact absurd rfl hY
  | cons y ys =>
    rw [pathDist_append dm X ys y, pathDist_concat dm X y hX, headN_cons]

theorem pathDist_reverse (dm : DistanceMatrix) (hsym : IsSymm dm) (l : List ℕ)
    (hl : ∀ x ∈ l, x < dm.size) :
    pathDist dm l.reverse = pathDist dm l := by
  induction l with
  | nil => rfl
  | cons a t ih =>
    cases ht : t with
    | nil => rfl
    | cons y ys =>
      rw [← ht]
      have htne : t ≠ [] := by rw [ht]; simp
      have hrev : (a :: t).reverse = t.reverse ++ [a] := by simp
      have hheadt : headN t < dm.size := by
        have hmem : headN t ∈ t := by
          rw [ht]
          exact List.mem_cons_self y ys
        exact hl _ (List.mem_cons_of_mem a hmem)
      have ha : a < dm.size := hl a (List.mem_cons_self a t)
      rw [hrev, pathDist_concat dm t.reverse a (by simp [htne]),
        ih (fun x hx => hl x (List.mem_cons_of_mem a hx)),
        lastN_reverse, pathDist_cons_head dm a t htne, hsym (headN t) a hheadt ha]
      ring

theorem route_distance_eq_path (dm : DistanceMatrix) (depot : ℕ) (r : List ℕ) (h : r ≠ []) :
    route_distance r depot dm = pathDist dm (depot :: r ++ [depot]) := by
  cases r with
  | nil => exact absurd rfl h
  | cons a t =>
    show dm.get depot a + pathDist dm (a :: t) + dm.get (lastN (a :: t)) depot = _
    have h1 : depot :: (a :: t) ++ [depot] = depot :: ((a :: t) ++ [depot]) := by simp
    rw [h1]
    rw [pathDist_cons_head dm depot ((a :: t) ++ [depot]) (by simp)]
    rw [pathDist_concat dm (a :: t) depot (by simp)]
    have h2 : headN ((a :: t) ++ [depot]) = a := rfl
    rw [h2]
    ring

/- ### 2-opt (src/local_search/two_opt.rs) -/

/-- `two_opt_delta`: boundary-edge cost change of reversing `route[i..=j]`. -/
def two_opt_delta (route : List ℕ) (depot : ℕ) (dm : DistanceMatrix) (i j : ℕ) : ℚ :=
  let n := route.length
  let prev_i := if i = 0 then depot else route.getD (i - 1) 0
  let next_j := if j = n - 1 then depot else route.getD (j + 1) 0
  let old_cost := dm.get prev_i (route.getD i 0) + dm.get (route.getD j 0) next_j
  let new_cost := dm.get prev_i (route.getD j 0) + dm.get (route.getD i 0) next_j
  new_cost - old_cost

/-- `current[i..=j].reverse()` on a list. -/
def reverseSegment (l : List ℕ) (i j : ℕ) : List ℕ :=
  l.take i ++ ((l.take (j + 1)).drop i).reverse ++ l.drop (j + 1)

/-- One full `for i / for j` sweep of `two_opt_improve`, applying every
strictly improving reversal as it is found; returns the changed flag. -/
def twoOptPass (depot : ℕ) (dm : DistanceMatrix) (cur0 : List ℕ) : List ℕ × Bool :=
  let n := cur0.length
  (List.range (n - 1)).foldl
    (fun st i =>
      (List.range' (i + 1) (n - 1 - i)).foldl
        (fun st2 j =>
          let delta := two_opt_delta st2.1 depot dm i j
          if delta < -eps then (reverseSegment st2.1 i j, true) else st2)
        st)
    (cur0, false)

/-- The `while improved` loop of `two_opt_improve`, with fuel. -/
def twoOptLoop (depot : ℕ) (dm : DistanceMatrix) : ℕ → List ℕ → List ℕ
  | 0, cur => cur
  | fuel + 1, cur =>
    let st := twoOptPass depot dm cur
    if st.2 then twoOptLoop depot dm fuel st.1 else st.1

/-- `two_opt_improve` from `src/local_search/two_opt.rs` (fuelled loop). -/
def two_opt_improve (fuel : ℕ) (route : List ℕ) (depot : ℕ) (dm : DistanceMatrix) :
    List ℕ × ℚ :=
  if route.length < 2 then
    let dist := if route.isEmpty then 0
      else dm.get depot (route.getD 0 0) + dm.get (route.getD 0 0) depot
    (route, dist)
  else
    let current := twoOptLoop depot dm fuel route
    (current, route_distance current depot dm)

theorem take_append_seg_drop (l : List ℕ) (i j : ℕ) (hij : i ≤ j) (hj : j < l.length) :
    l.take i ++ (l.take (j + 1)).drop i ++ l.drop (j + 1) = l := by
  have h1 : (l.take (j + 1)).take i = l.take i := by
    rw [List.take_take]
    congr 1
    omega
  calc l.take i ++ (l.take (j + 1)).drop i ++ l.drop (j + 1)
      = ((l.take (j + 1)).take i ++ (l.take (j + 1)).drop i) ++ l.drop (j + 1) := by rw [h1]
    _ = l.take (j + 1) ++ l.drop (j + 1) := by rw [List.take_append_drop]
    _ = l := List.take_append_drop _ _

theorem length_reverseSegment (l : List ℕ) (i j : ℕ) (hij : i ≤ j) (hj : j < l.length) :
    (reverseSegment l i j).length = l.length := by
  unfold reverseSegment
  have h2 := congrArg List.length (take_append_seg_drop l i j hij hj)
  simp only [List.length_append] at h2
  simp only [List.length_append, List.length_reverse]
  omega

theorem headN_append (X Y : List ℕ) (hX : X ≠ []) : headN (X ++ Y) = headN X := by
  obtain ⟨x, xs, rfl⟩ := List.exists_cons_of_ne_nil hX
  rfl

theorem seg_ne_nil (l : List ℕ) (i j : ℕ) (hij : i ≤ j) (hj : j < l.length) :
    (l.take (j + 1)).drop i ≠ [] := by
  have : ((l.take (j + 1)).drop i).length = j + 1 - i := by
    simp [List.length_drop, List.length_take]
    omega
  intro hcon
  rw [hcon] at this
  simp at this
  omega

theorem headN_seg (l : List ℕ) (i j : ℕ) (hij : i ≤ j) (hj : j < l.length) :
    headN ((l.take (j + 1)).drop i) = l.getD i 0 := by
  unfold headN
  rw [List.head?_drop, List.getElem?_take_of_lt (by omega), List.getD_eq_getElem?_getD]

theorem lastN_seg (l : List ℕ) (i j : ℕ) (hij : i ≤ j) (hj : j < l.length) :
    lastN ((l.take (j + 1)).drop i) = l.getD j 0 := by
  unfold lastN
  rw [List.getLast?_eq_getElem?]
  have hlen : ((l.take (j + 1)).drop i).length = j + 1 - i := by
    simp [List.length_drop, List.length_take]
    omega
  rw [hlen]
  rw [List.getElem?_drop, List.getElem?_take_of_lt (by omega), List.getD_eq_getElem?_getD]
  congr 2
  omega

theorem lastN_prefixA (l : List ℕ) (depot i : ℕ) (hi : i ≤ l.length) :
    lastN (depot :: l.take i) = if i = 0 then depot else l.getD (i - 1) 0 := by
  by_cases h : i = 0
  · subst h
    simp [lastN]
  · rw [if_neg h]
    unfold lastN
    rw [List.getLast?_eq_getElem?]
    have hlen : (depot :: l.take i).length = i + 1 := by
      simp only [List.length_cons, List.length_take]
      omega
    rw [hlen]
    simp only [Nat.add_sub_cancel]
    have hidx : (depot :: l.take i)[i]? = (l.take i)[i - 1]? := by
      cases i with
      | zero => exact absurd rfl h
      | succ k => simp
    rw [hidx, List.getElem?_take_of_lt (by omega), List.getD_eq_getElem?_getD]

theorem headN_suffixB (l : List ℕ) (depot j : ℕ) (hj : j < l.length) :
    headN (l.drop (j + 1) ++ [depot]) =
      if j = l.length - 1 then depot else l.getD (j + 1) 0 := by
  by_cases h : j = l.length - 1
  · rw [if_pos h]
    have : l.drop (j + 1) = [] := by
      apply List.drop_eq_nil_of_le
      omega
    rw [this]
    rfl
  · rw [if_neg h]
    have hne : l.drop (j + 1) ≠ [] := by
      intro hcon
      have h2 := congrArg List.length hcon
      simp only [List.length_drop, List.length_nil] at h2
      omega
    obtain ⟨x, xs2, hx⟩ := List.exists_cons_of_ne_nil hne
    unfold headN
    rw [hx]
    show (x :: (xs2 ++ [depot])).head?.getD 0 = _
    simp only [List.head?_cons, Option.getD_some]
    have hh := List.head?_drop l (j + 1)
    rw [hx] at hh
    simp only [List.head?_cons] at hh
    rw [List.getD_eq_getElem?_getD, ← hh]
    rfl

/-- Exactness of the 2-opt delta on a symmetric matrix: reversing the segment
changes the closed route distance by exactly the computed boundary delta. -/
theorem reverseSegment_dist (dm : DistanceMatrix) (hsym : IsSymm dm) (depot : ℕ)
    (cur : List ℕ) (hcur : ∀ x ∈ cur, x < dm.size) (i j : ℕ) (hij : i < j)
    (hj : j < cur.length) :
    route_distance (reverseSegment cur i j) depot dm =
      route_distance cur depot dm + two_opt_delta cur depot dm i j := by
  have hij' : i ≤ j := le_of_lt hij
  set A := depot :: cur.take i with hA
  set M := (cur.take (j + 1)).drop i with hM
  set B := cur.drop (j + 1) ++ [depot] with hB
  have hMne : M ≠ [] := seg_ne_nil cur i j hij' hj
  have hAne : A ≠ [] := by simp [hA]
  have hBne : B ≠ [] := by simp [hB]
  have hcur_ne : cur ≠ [] := by
    intro hcon
    rw [hcon] at hj
    simp at hj
  have hsplit : depot :: cur ++ [depot] = A ++ (M ++ B) := by
    rw [hA, hM, hB]
    have := take_append_seg_drop cur i j hij' hj
    calc depot :: cur ++ [depot]
        = depot :: (cur.take i ++ (cur.take (j + 1)).drop i ++ cur.drop (j + 1)) ++ [depot] := by
          rw [this]
      _ = (depot :: cur.take i) ++ (((cur.take (j + 1)).drop i) ++ (cur.drop (j + 1) ++ [depot])) := by
          simp
  have hrevne : reverseSegment cur i j ≠ [] := by
    intro hcon
    have := congrArg List.length hcon
    rw [length_reverseSegment cur i j hij' hj] at this
    simp at this
    exact hcur_ne this
  have hsplit2 : depot :: reverseSegment cur i j ++ [depot] = A ++ (M.reverse ++ B) := by
    rw [hA, hM, hB]
    unfold reverseSegment
    simp
  rw [route_distance_eq_path dm depot cur hcur_ne,
    route_distance_eq_path dm depot _ hrevne, hsplit, hsplit2]
  have hheadMB : headN (M ++ B) = headN M := headN_append M B hMne
  have hheadMB2 : headN (M.reverse ++ B) = headN M.reverse :=
    headN_append M.reverse B (by simp [hMne])
  rw [pathDist_glue dm A (M ++ B) hAne (by simp [hMne]),
    pathDist_glue dm A (M.reverse ++ B) hAne (by simp [hMne]),
    pathDist_glue dm M B hMne hBne,
    pathDist_glue dm M.reverse B (by simp [hMne]) hBne]
  rw [hheadMB, hheadMB2]
  have hMbound : ∀ x ∈ M, x < dm.size := by
    intro x hx
    rw [hM] at hx
    exact hcur x (List.mem_of_mem_take (List.mem_of_mem_drop hx))
  rw [pathDist_reverse dm hsym M hMbound, headN_reverse, lastN_reverse]
  have hpa : lastN A = if i = 0 then depot else cur.getD (i - 1) 0 :=
    lastN_prefixA cur depot i (by omega)
  have hpb : headN B = if j = cur.length - 1 then depot else cur.getD (j + 1) 0 :=
    headN_suffixB cur depot j hj
  simp only [two_opt_delta]
  rw [← hpa, ← hpb]
  rw [show cur.getD i 0 = headN M by rw [hM]; exact (headN_seg cur i j hij' hj).symm]
  rw [show cur.getD j 0 = lastN M by rw [hM]; exact (lastN_seg cur i j hij' hj).symm]
  ring

theorem eps_pos : (0 : ℚ) < eps := by norm_num [eps]

/-- Reversing a segment introduces no new nodes. -/
theorem mem_reverseSegment (l : List ℕ) (i j x : ℕ)
    (hx : x ∈ reverseSegment l i j) : x ∈ l := by
  unfold reverseSegment at hx
  rcases List.mem_append.mp hx with hx | hx
  · rcases List.mem_append.mp hx with hx | hx
    · exact List.mem_of_mem_take hx
    · rw [List.mem_reverse] at hx
      exact List.mem_of_mem_take (List.mem_of_mem_drop hx)
  · exact List.mem_of_mem_drop hx

theorem twoOptPass_mono (depot : ℕ) (dm : DistanceMatrix) (hsym : IsSymm dm)
    (cur0 : List ℕ) (hcur0 : ∀ x ∈ cur0, x < dm.size) :
    route_distance (twoOptPass depot dm cur0).1 depot dm ≤ route_distance cur0 depot dm ∧
      (twoOptPass depot dm cur0).1.length = cur0.length ∧
      (∀ x ∈ (twoOptPass depot dm cur0).1, x < dm.size) := by
  unfold twoOptPass
  refine foldl_preserve _
    (fun st => route_distance st.1 depot dm ≤ route_distance cur0 depot dm ∧
      st.1.length = cur0.length ∧ (∀ x ∈ st.1, x < dm.size))
    (List.range (cur0.length - 1)) ?_ (cur0, false) ⟨le_refl _, rfl, hcur0⟩
  intro st i hi hst
  refine foldl_preserve _
    (fun st2 => route_distance st2.1 depot dm ≤ route_distance cur0 depot dm ∧
      st2.1.length = cur0.length ∧ (∀ x ∈ st2.1, x < dm.size))
    (List.range' (i + 1) (cur0.length - 1 - i)) ?_ st hst
  intro st2 j hj hst2
  simp only
  split
  · next hdelta =>
    have hi' : i < cur0.length - 1 := List.mem_range.mp hi
    have hj' := List.mem_range'_1.mp hj
    have hij : i < j := by omega
    have hjlen : j < st2.1.length := by
      rw [hst2.2.1]
      omega
    refine ⟨?_, ?_, ?_⟩
    · rw [reverseSegment_dist dm hsym depot st2.1 hst2.2.2 i j hij hjlen]
      have heps := eps_pos
      calc route_distance st2.1 depot dm + two_opt_delta st2.1 depot dm i j
          ≤ route_distance st2.1 depot dm + (-eps) := by linarith
        _ ≤ route_distance cur0 depot dm := by linarith [hst2.1]
    · rw [length_reverseSegment st2.1 i j (le_of_lt hij) hjlen]
      exact hst2.2.1
    · intro x hx
      exact hst2.2.2 x (mem_reverseSegment st2.1 i j x hx)
  · exact hst2

theorem twoOptLoop_mono (depot : ℕ) (dm : DistanceMatrix) (hsym : IsSymm dm) :
    ∀ (fuel : ℕ) (cur : List ℕ), (∀ x ∈ cur, x < dm.size) →
      route_distance (twoOptLoop depot dm fuel cur) depot dm ≤
        route_distance cur depot dm := by
  intro fuel
  induction fuel with
  | zero => intro cur _; exact le_refl _
  | succ n ih =>
    intro cur hcur
    show route_distance
      (if (twoOptPass depot dm cur).2 then twoOptLoop depot dm n (twoOptPass depot dm cur).1
        else (twoOptPass depot dm cur).1) depot dm ≤ _
    split
    · exact le_trans (ih (twoOptPass depot dm cur).1
        (twoOptPass_mono depot dm hsym cur hcur).2.2)
        (twoOptPass_mono depot dm hsym cur hcur).1
    · exact (twoOptPass_mono depot dm hsym cur hcur).1

/-- 2-opt monotonicity on symmetric matrices. -/
theorem two_opt_improve_mono (fuel : ℕ) (route : List ℕ) (depot : ℕ)
    (dm : DistanceMatrix) (hsym : IsSymm dm) (hroute : ∀ x ∈ route, x < dm.size) :
    (two_opt_improve fuel route depot dm).2 ≤ route_distance route depot dm + eps := by
  unfold two_opt_improve
  split
  · next hlen =>
    match route with
    | [] =>
      simp only [List.isEmpty_nil, if_pos]
      show (0 : ℚ) ≤ route_distance [] depot dm + eps
      have := eps_pos
      show (0 : ℚ) ≤ 0 + eps
      linarith
    | [a] =>
      show dm.get depot ([a].getD 0 0) + dm.get ([a].getD 0 0) depot ≤
        route_distance [a] depot dm + eps
      show dm.get depot a + dm.get a depot ≤
        dm.get depot a + pathDist dm [a] + dm.get (lastN [a]) depot + eps
      have := eps_pos
      show dm.get depot a + dm.get a depot ≤ dm.get depot a + 0 + dm.get a depot + eps
      linarith
    | a :: b :: t =>
      exfalso
      simp at hlen
      omega
  · have := twoOptLoop_mono depot dm hsym fuel route hroute
    have heps := eps_pos
    linarith

/- ### Or-opt (src/local_search/or_opt.rs) -/

/-- Cost delta of moving the length-`seg_len` segment starting at `frm` over
to position `tpos` (in original-route indexing), exactly as `try_or_opt_pass`
computes it: `insertion_cost - removal_gain`. -/
def orOptDelta (route : List ℕ) (depot : ℕ) (dm : DistanceMatrix)
    (seg_len frm tpos : ℕ) : ℚ :=
  let n := route.length
  let prev := if frm = 0 then depot else route.getD (frm - 1) 0
  let after := if frm + seg_len ≥ n then depot else route.getD (frm + seg_len) 0
  let seg_first := route.getD frm 0
  let seg_last := route.getD (frm + seg_len - 1) 0
  let removal_gain := dm.get prev seg_first + dm.get seg_last after - dm.get prev after
  let ins_prev := if tpos < frm then (if tpos = 0 then depot else route.getD (tpos - 1) 0)
    else route.getD (tpos - 1) 0
  let ins_next := if tpos < frm then route.getD tpos 0
    else (if tpos ≥ n then depot else route.getD tpos 0)
  let insertion_cost := dm.get ins_prev seg_first + dm.get seg_last ins_next -
    dm.get ins_prev ins_next
  insertion_cost - removal_gain

/-- Segment move execution in `try_or_opt_pass`: drain the segment, then
insert it back at the adjusted position. -/
def applyOrOptMove (route : List ℕ) (seg_len frm tpos : ℕ) : List ℕ :=
  let segment := (route.drop frm).take seg_len
  let rest := route.take frm ++ route.drop (frm + seg_len)
  let insert_pos := if tpos > frm then tpos - seg_len else tpos
  rest.take insert_pos ++ segment ++ rest.drop insert_pos

/-- The best-move search of `try_or_opt_pass` from
`src/local_search/or_opt.rs`: `(best_delta, best_from, best_to)`, starting
from the `-1e-10` threshold. -/
def orOptBest (route : List ℕ) (depot : ℕ) (dm : DistanceMatrix) (seg_len : ℕ) :
    ℚ × ℕ × ℕ :=
  (List.range (route.length - seg_len + 1)).foldl
    (fun b frm =>
      (List.range (route.length - seg_len + 1)).foldl
        (fun b2 tpos =>
          if frm ≤ tpos ∧ tpos ≤ frm + seg_len then b2
          else
            let delta := orOptDelta route depot dm seg_len frm tpos
            if delta < b2.1 then (delta, frm, tpos) else b2)
        b)
    (-eps, 0, 0)

/-- `try_or_opt_pass` from `src/local_search/or_opt.rs`: the best improving
move for one segment length, applied if stronger than the `-1e-10`
threshold. -/
def try_or_opt_pass (route : List ℕ) (depot : ℕ) (dm : DistanceMatrix)
    (seg_len : ℕ) : List ℕ × Bool :=
  if route.length < seg_len + 1 then (route, false)
  else if (orOptBest route depot dm seg_len).1 < -eps then
    (applyOrOptMove route seg_len (orOptBest route depot dm seg_len).2.1
      (orOptBest route depot dm seg_len).2.2, true)
  else (route, false)

/-- The `while improved { for seg_len in 1..=3.min(len) }` loop of
`or_opt_improve`, with fuel. -/
def orOptLoop (depot : ℕ) (dm : DistanceMatrix) : ℕ → List ℕ → List ℕ
  | 0, cur => cur
  | fuel + 1, cur =>
    let st := (List.range' 1 (min 3 cur.length)).foldl
      (fun st2 seg_len =>
        let r := try_or_opt_pass st2.1 depot dm seg_len
        (r.1, st2.2 || r.2))
      (cur, false)
    if st.2 then orOptLoop depot dm fuel st.1 else st.1

/-- `or_opt_improve` from `src/local_search/or_opt.rs` (fuelled loop). -/
def or_opt_improve (fuel : ℕ) (route : List ℕ) (depot : ℕ) (dm : DistanceMatrix) :
    List ℕ × ℚ :=
  if route.length < 2 then
    let dist := if route.isEmpty then 0
      else dm.get depot (route.getD 0 0) + dm.get (route.getD 0 0) depot
    (route, dist)
  else
    let current := orOptLoop depot dm fuel route
    (current, route_distance current depot dm)

/-- Four-block glue decomposition of a depot-closed path. -/
theorem glue4 (dm : DistanceMatrix) (depot : ℕ) (A X Y D : List ℕ)
    (hX : X ≠ []) (hY : Y ≠ []) :
    pathDist dm ((depot :: A) ++ X ++ Y ++ (D ++ [depot])) =
      pathDist dm (depot :: A) + dm.get (lastN (depot :: A)) (headN X) + pathDist dm X +
      dm.get (lastN X) (headN Y) + pathDist dm Y +
      dm.get (lastN Y) (headN (D ++ [depot])) + pathDist dm (D ++ [depot]) := by
  rw [List.append_assoc, List.append_assoc]
  rw [pathDist_glue dm (depot :: A) _ (by simp) (by simp [hX])]
  rw [headN_append X _ hX]
  rw [pathDist_glue dm X _ hX (by simp [hY])]
  rw [headN_append Y _ hY]
  rw [pathDist_glue dm Y _ hY (by simp)]
  ring

theorem route_distance_glue4 (dm : DistanceMatrix) (depot : ℕ) (A X Y D : List ℕ)
    (hX : X ≠ []) (hY : Y ≠ []) :
    route_distance (A ++ X ++ Y ++ D) depot dm =
      pathDist dm (depot :: A) + dm.get (lastN (depot :: A)) (headN X) + pathDist dm X +
      dm.get (lastN X) (headN Y) + pathDist dm Y +
      dm.get (lastN Y) (headN (D ++ [depot])) + pathDist dm (D ++ [depot]) := by
  have hne : A ++ X ++ Y ++ D ≠ [] := by
    intro hcon
    rcases List.append_eq_nil.mp hcon with ⟨h1, _⟩
    rcases List.append_eq_nil.mp h1 with ⟨h2, h3⟩
    exact hY h3
  rw [route_distance_eq_path dm depot _ hne]
  rw [show depot :: (A ++ X ++ Y ++ D) ++ [depot] =
    (depot :: A) ++ X ++ Y ++ (D ++ [depot]) by simp]
  exact glue4 dm depot A X Y D hX hY

/-- First node of a middle block `(l.take b).drop a`. -/
theorem headN_mid (l : List ℕ) (a b : ℕ) (hab : a < b) (hb : b ≤ l.length) :
    headN ((l.take b).drop a) = l.getD a 0 := by
  have := headN_seg l a (b - 1) (by omega) (by omega)
  rw [show b - 1 + 1 = b by omega] at this
  exact this

/-- Last node of a middle block `(l.take b).drop a`. -/
theorem lastN_mid (l : List ℕ) (a b : ℕ) (hab : a < b) (hb : b ≤ l.length) :
    lastN ((l.take b).drop a) = l.getD (b - 1) 0 := by
  have := lastN_seg l a (b - 1) (by omega) (by omega)
  rw [show b - 1 + 1 = b by omega] at this
  exact this

theorem mid_ne_nil (l : List ℕ) (a b : ℕ) (hab : a < b) (hb : b ≤ l.length) :
    (l.take b).drop a ≠ [] := by
  have := seg_ne_nil l a (b - 1) (by omega) (by omega)
  rw [show b - 1 + 1 = b by omega] at this
  exact this

/-- First node of a closing block `l.drop a ++ [depot]`. -/
theorem headN_dropD (l : List ℕ) (depot a : ℕ) :
    headN (l.drop a ++ [depot]) = if a < l.length then l.getD a 0 else depot := by
  by_cases h : a < l.length
  · rw [if_pos h]
    have hne : l.drop a ≠ [] := by
      intro hcon
      have h2 := congrArg List.length hcon
      simp only [List.length_drop, List.length_nil] at h2
      omega
    rw [headN_append _ _ hne]
    unfold headN
    rw [List.head?_drop, List.getD_eq_getElem?_getD]
  · rw [if_neg h]
    have : l.drop a = [] := List.drop_eq_nil_of_le (by omega)
    rw [this]
    rfl

/-- Exactness of the or-opt delta when the segment moves left. -/
theorem applyOrOptMove_dist_lt (dm : DistanceMatrix) (depot : ℕ) (route : List ℕ)
    (seg_len frm tpos : ℕ) (hseg : 1 ≤ seg_len) (hfs : frm + seg_len ≤ route.length)
    (hlt : tpos < frm) :
    route_distance (applyOrOptMove route seg_len frm tpos) depot dm =
      route_distance route depot dm + orOptDelta route depot dm seg_len frm tpos := by
  set A := route.take tpos with hA
  set U2 := (route.take frm).drop tpos with hU2
  set S := (route.drop frm).take seg_len with hS
  set V := route.drop (frm + seg_len) with hV
  have hSeq : S = (route.take (frm + seg_len)).drop frm := List.take_drop frm seg_len route
  have hSne : S ≠ [] := by
    rw [hSeq]
    exact mid_ne_nil route frm (frm + seg_len) (by omega) hfs
  have hU2ne : U2 ≠ [] := mid_ne_nil route tpos frm hlt (by omega)
  have h1 : A ++ U2 = route.take frm := by
    rw [hA, hU2]
    rw [show route.take tpos = (route.take frm).take tpos by
      rw [List.take_take, min_eq_left (le_of_lt hlt)]]
    exact List.take_append_drop tpos (route.take frm)
  have h2 : S ++ V = route.drop frm := by
    rw [hS, hV, show route.drop (frm + seg_len) = (route.drop frm).drop seg_len by
      rw [List.drop_drop]]
    exact List.take_append_drop seg_len (route.drop frm)
  have hdecomp : route = A ++ U2 ++ S ++ V := by
    calc route = route.take frm ++ route.drop frm := (List.take_append_drop frm route).symm
      _ = (A ++ U2) ++ (S ++ V) := by rw [h1, h2]
      _ = A ++ U2 ++ S ++ V := by simp [List.append_assoc]
  have hlenA : (route.take frm).length = frm := by
    rw [List.length_take]
    omega
  have happly : applyOrOptMove route seg_len frm tpos = A ++ S ++ U2 ++ V := by
    unfold applyOrOptMove
    rw [if_neg (show ¬ tpos > frm by omega)]
    simp only [← hS, ← hV]
    rw [List.take_append_eq_append_take, List.drop_append_eq_append_drop, hlenA]
    rw [show tpos - frm = 0 by omega]
    simp only [List.take_zero, List.drop_zero, List.append_nil]
    rw [show (route.take frm).take tpos = A by
      rw [hA, List.take_take, min_eq_left (le_of_lt hlt)]]
    rw [← hU2]
    simp [List.append_assoc]
  have horig : route_distance route depot dm =
      pathDist dm (depot :: A) + dm.get (lastN (depot :: A)) (headN U2) + pathDist dm U2 +
      dm.get (lastN U2) (headN S) + pathDist dm S +
      dm.get (lastN S) (headN (V ++ [depot])) + pathDist dm (V ++ [depot]) := by
    conv_lhs => rw [hdecomp]
    exact route_distance_glue4 dm depot A U2 S V hU2ne hSne
  rw [happly, route_distance_glue4 dm depot A S U2 V hSne hU2ne, horig]
  have e1 : lastN (depot :: A) = if tpos = 0 then depot else route.getD (tpos - 1) 0 :=
    lastN_prefixA route depot tpos (by omega)
  have e2 : headN U2 = route.getD tpos 0 := headN_mid route tpos frm hlt (by omega)
  have e3 : lastN U2 = route.getD (frm - 1) 0 := lastN_mid route tpos frm hlt (by omega)
  have e4 : headN S = route.getD frm 0 := by
    rw [hSeq]
    exact headN_mid route frm (frm + seg_len) (by omega) hfs
  have e5 : lastN S = route.getD (frm + seg_len - 1) 0 := by
    rw [hSeq]
    exact lastN_mid route frm (frm + seg_len) (by omega) hfs
  have e6 : headN (V ++ [depot]) =
      if frm + seg_len ≥ route.length then depot else route.getD (frm + seg_len) 0 := by
    rw [hV, headN_dropD]
    by_cases h : frm + seg_len < route.length
    · rw [if_pos h, if_neg (by omega)]
    · rw [if_neg h, if_pos (by omega)]
  rw [e1, e2, e3, e4, e5, e6]
  simp only [orOptDelta]
  rw [if_pos hlt, if_pos hlt, if_neg (show ¬ frm = 0 by omega)]
  ring

/-- Exactness of the or-opt delta when the segment moves right. -/
theorem applyOrOptMove_dist_gt (dm : DistanceMatrix) (depot : ℕ) (route : List ℕ)
    (seg_len frm tpos : ℕ) (hseg : 1 ≤ seg_len) (hgt : frm + seg_len < tpos)
    (htop : tpos + seg_len ≤ route.length) :
    route_distance (applyOrOptMove route seg_len frm tpos) depot dm =
      route_distance route depot dm + orOptDelta route depot dm seg_len frm tpos := by
  have hfs : frm + seg_len ≤ route.length := by omega
  have htn : tpos ≤ route.length := by omega
  set A := route.take frm with hA
  set S := (route.drop frm).take seg_len with hS
  set V1 := (route.drop (frm + seg_len)).take (tpos - frm - seg_len) with hV1
  set V2 := route.drop tpos with hV2
  have hSeq : S = (route.take (frm + seg_len)).drop frm := List.take_drop frm seg_len route
  have hSne : S ≠ [] := by
    rw [hSeq]
    exact mid_ne_nil route frm (frm + seg_len) (by omega) hfs
  have hV1eq : V1 = (route.take tpos).drop (frm + seg_len) := by
    rw [hV1, List.take_drop]
    congr 2
    omega
  have hV1ne : V1 ≠ [] := by
    rw [hV1eq]
    exact mid_ne_nil route (frm + seg_len) tpos (by omega) htn
  have h1 : A ++ S = route.take (frm + seg_len) := by
    rw [hA, hSeq]
    rw [show route.take frm = (route.take (frm + seg_len)).take frm by
      rw [List.take_take, min_eq_left (by omega)]]
    exact List.take_append_drop frm (route.take (frm + seg_len))
  have h2 : V1 ++ V2 = route.drop (frm + seg_len) := by
    rw [hV1, hV2, show route.drop tpos = (route.drop (frm + seg_len)).drop
        (tpos - frm - seg_len) by
      rw [List.drop_drop]
      congr 1
      omega]
    exact List.take_append_drop (tpos - frm - seg_len) (route.drop (frm + seg_len))
  have hdecomp : route = A ++ S ++ V1 ++ V2 := by
    calc route = route.take (frm + seg_len) ++ route.drop (frm + seg_len) :=
        (List.take_append_drop (frm + seg_len) route).symm
      _ = (A ++ S) ++ (V1 ++ V2) := by rw [h1, h2]
      _ = A ++ S ++ V1 ++ V2 := by simp [List.append_assoc]
  have hlenA : (route.take frm).length = frm := by
    rw [List.length_take]
    omega
  have hlenV1 : V1.length = tpos - frm - seg_len := by
    rw [hV1, List.length_take, List.length_drop]
    omega
  have happly : applyOrOptMove route seg_len frm tpos = A ++ V1 ++ S ++ V2 := by
    unfold applyOrOptMove
    rw [if_pos (show tpos > frm by omega)]
    simp only [← hS]
    rw [show route.drop (frm + seg_len) = V1 ++ V2 by rw [h2]]
    rw [List.take_append_eq_append_take, List.drop_append_eq_append_drop, hlenA]
    rw [show (route.take frm).take (tpos - seg_len) = A by
      rw [hA, List.take_take, min_eq_right (by omega)]]
    rw [show (route.take frm).drop (tpos - seg_len) = [] by
      apply List.drop_eq_nil_of_le
      rw [hlenA]
      omega]
    rw [List.take_append_eq_append_take, List.drop_append_eq_append_drop]
    rw [show V1.take (tpos - seg_len - frm) = V1 from
      List.take_of_length_le (by rw [hlenV1]; omega)]
    rw [show V1.drop (tpos - seg_len - frm) = [] from
      List.drop_eq_nil_of_le (by rw [hlenV1]; omega)]
    rw [show tpos - seg_len - frm - V1.length = 0 by rw [hlenV1]; omega]
    simp [List.append_assoc]
  have horig : route_distance route depot dm =
      pathDist dm (depot :: A) + dm.get (lastN (depot :: A)) (headN S) + pathDist dm S +
      dm.get (lastN S) (headN V1) + pathDist dm V1 +
      dm.get (lastN V1) (headN (V2 ++ [depot])) + pathDist dm (V2 ++ [depot]) := by
    conv_lhs => rw [hdecomp]
    exact route_distance_glue4 dm depot A S V1 V2 hSne hV1ne
  rw [happly, route_distance_glue4 dm depot A V1 S V2 hV1ne hSne, horig]
  have e1 : lastN (depot :: A) = if frm = 0 then depot else route.getD (frm - 1) 0 :=
    lastN_prefixA route depot frm (by omega)
  have e4 : headN S = route.getD frm 0 := by
    rw [hSeq]
    exact headN_mid route frm (frm + seg_len) (by omega) hfs
  have e5 : lastN S = route.getD (frm + seg_len - 1) 0 := by
    rw [hSeq]
    exact lastN_mid route frm (frm + seg_len) (by omega) hfs
  have e7 : headN V1 = route.getD (frm + seg_len) 0 := by
    rw [hV1eq]
    exact headN_mid route (frm + seg_len) tpos (by omega) htn
  have e8 : lastN V1 = route.getD (tpos - 1) 0 := by
    rw [hV1eq]
    exact lastN_mid route (frm + seg_len) tpos (by omega) htn
  have e9 : headN (V2 ++ [depot]) =
      if tpos ≥ route.length then depot else route.getD tpos 0 := by
    rw [hV2, headN_dropD]
    by_cases h : tpos < route.length
    · rw [if_pos h, if_neg (by omega)]
    · rw [if_neg h, if_pos (by omega)]
  rw [e1, e4, e5, e7, e8, e9]
  simp only [orOptDelta]
  rw [if_neg (show ¬ tpos < frm by omega), if_neg (show ¬ tpos < frm by omega),
    if_neg (show ¬ frm + seg_len ≥ route.length by omega)]
  ring

theorem length_applyOrOptMove (route : List ℕ) (seg_len frm tpos : ℕ)
    (hfs : frm + seg_len ≤ route.length)
    (hcase : tpos < frm ∨ frm + seg_len < tpos) (htop : tpos + seg_len ≤ route.length) :
    (applyOrOptMove route seg_len frm tpos).length = route.length := by
  unfold applyOrOptMove
  by_cases h : tpos > frm
  · rw [if_pos h]
    simp only [List.length_append, List.length_take, List.length_drop]
    omega
  · rw [if_neg h]
    simp only [List.length_append, List.length_take, List.length_drop]
    omega

theorem try_or_opt_pass_mono (route : List ℕ) (depot : ℕ) (dm : DistanceMatrix)
    (seg_len : ℕ) (hseg : 1 ≤ seg_len) :
    route_distance (try_or_opt_pass route depot dm seg_len).1 depot dm ≤
      route_distance route depot dm ∧
      (try_or_opt_pass route depot dm seg_len).1.length = route.length := by
  have hinvgen : ∀ hn : seg_len + 1 ≤ route.length,
      orOptBest route depot dm seg_len = (-eps, 0, 0) ∨
      ((orOptBest route depot dm seg_len).2.1 + seg_len ≤ route.length ∧
        ((orOptBest route depot dm seg_len).2.2 < (orOptBest route depot dm seg_len).2.1 ∨
          (orOptBest route depot dm seg_len).2.1 + seg_len <
            (orOptBest route depot dm seg_len).2.2) ∧
        (orOptBest route depot dm seg_len).2.2 + seg_len ≤ route.length ∧
        (orOptBest route depot dm seg_len).1 =
          orOptDelta route depot dm seg_len (orOptBest route depot dm seg_len).2.1
            (orOptBest route depot dm seg_len).2.2 ∧
        (orOptBest route depot dm seg_len).1 < -eps) := by
    intro hn
    unfold orOptBest
    refine foldl_preserve _
      (fun b : ℚ × ℕ × ℕ => b = (-eps, 0, 0) ∨
        (b.2.1 + seg_len ≤ route.length ∧ (b.2.2 < b.2.1 ∨ b.2.1 + seg_len < b.2.2) ∧
          b.2.2 + seg_len ≤ route.length ∧
          b.1 = orOptDelta route depot dm seg_len b.2.1 b.2.2 ∧ b.1 < -eps))
      (List.range (route.length - seg_len + 1)) ?_ (-eps, 0, 0) (Or.inl rfl)
    intro b frm hfrm hb
    refine foldl_preserve _
      (fun b2 : ℚ × ℕ × ℕ => b2 = (-eps, 0, 0) ∨
        (b2.2.1 + seg_len ≤ route.length ∧ (b2.2.2 < b2.2.1 ∨ b2.2.1 + seg_len < b2.2.2) ∧
          b2.2.2 + seg_len ≤ route.length ∧
          b2.1 = orOptDelta route depot dm seg_len b2.2.1 b2.2.2 ∧ b2.1 < -eps))
      (List.range (route.length - seg_len + 1)) ?_ b hb
    intro b2 tpos htpos hb2
    simp only
    split
    · exact hb2
    · next hskip =>
      split
      · next himp =>
        right
        have hfrm' : frm < route.length - seg_len + 1 := List.mem_range.mp hfrm
        have htpos' : tpos < route.length - seg_len + 1 := List.mem_range.mp htpos
        have hgoal : frm + seg_len ≤ route.length ∧ (tpos < frm ∨ frm + seg_len < tpos) ∧
            tpos + seg_len ≤ route.length := by omega
        refine ⟨hgoal.1, hgoal.2.1, hgoal.2.2, rfl, ?_⟩
        rcases hb2 with hinit | ⟨_, _, _, _, hlt5⟩
        · rw [hinit] at himp
          exact himp
        · linarith
      · exact hb2
  unfold try_or_opt_pass
  split
  · exact ⟨le_refl _, rfl⟩
  · next hguard =>
    have hn : seg_len + 1 ≤ route.length := by omega
    split
    · next happ =>
      rcases hinvgen hn with hinit | ⟨hb1, hb2, hb3, hb4, hb5⟩
      · rw [hinit] at happ
        simp at happ
      · have heps := eps_pos
        rcases hb2 with hlt | hgt
        · constructor
          · rw [applyOrOptMove_dist_lt dm depot route seg_len _ _ hseg hb1 hlt]
            rw [← hb4]
            linarith
          · exact length_applyOrOptMove route seg_len _ _ hb1 (Or.inl hlt) hb3
        · constructor
          · rw [applyOrOptMove_dist_gt dm depot route seg_len _ _ hseg hgt hb3]
            rw [← hb4]
            linarith
          · exact length_applyOrOptMove route seg_len _ _ hb1 (Or.inr hgt) hb3
    · exact ⟨le_refl _, rfl⟩

/-- Or-opt inner seg-length sweep plus outer loop monotonicity. -/
theorem orOptLoop_mono (depot : ℕ) (dm : DistanceMatrix) :
    ∀ (fuel : ℕ) (cur : List ℕ),
      route_distance (orOptLoop depot dm fuel cur) depot dm ≤
        route_distance cur depot dm := by
  intro fuel
  induction fuel with
  | zero => intro cur; exact le_refl _
  | succ m ih =>
    intro cur
    have hsweep : route_distance ((List.range' 1 (min 3 cur.length)).foldl
        (fun st2 seg_len =>
          let r := try_or_opt_pass st2.1 depot dm seg_len
          (r.1, st2.2 || r.2))
        (cur, false)).1 depot dm ≤ route_distance cur depot dm := by
      refine (foldl_preserve _
        (fun st : List ℕ × Bool =>
          route_distance st.1 depot dm ≤ route_distance cur depot dm)
        (List.range' 1 (min 3 cur.length)) ?_ (cur, false) (le_refl _))
      intro st seg_len hsl hst
      simp only
      have hseg : 1 ≤ seg_len := (List.mem_range'_1.mp hsl).1
      exact le_trans (try_or_opt_pass_mono st.1 depot dm seg_len hseg).1 hst
    show route_distance
      (if ((List.range' 1 (min 3 cur.length)).foldl
          (fun st2 seg_len =>
            let r := try_or_opt_pass st2.1 depot dm seg_len
            (r.1, st2.2 || r.2))
          (cur, false)).2 then
        orOptLoop depot dm m ((List.range' 1 (min 3 cur.length)).foldl
          (fun st2 seg_len =>
            let r := try_or_opt_pass st2.1 depot dm seg_len
            (r.1, st2.2 || r.2))
          (cur, false)).1
      else ((List.range' 1 (min 3 cur.length)).foldl
          (fun st2 seg_len =>
            let r := try_or_opt_pass st2.1 depot dm seg_len
            (r.1, st2.2 || r.2))
          (cur, false)).1) depot dm ≤ _
    split
    · exact le_trans (ih _) hsweep
    · exact hsweep

/-- Or-opt monotonicity (any matrix: segment moves never reverse edges). -/
theorem or_opt_improve_mono (fuel : ℕ) (route : List ℕ) (depot : ℕ)
    (dm : DistanceMatrix) :
    (or_opt_improve fuel route depot dm).2 ≤ route_distance route depot dm + eps := by
  unfold or_opt_improve
  split
  · next hlen =>
    match route with
    | [] =>
      show (0 : ℚ) ≤ 0 + eps
      have := eps_pos
      linarith
    | [a] =>
      show dm.get depot a + dm.get a depot ≤
        dm.get depot a + pathDist dm [a] + dm.get (lastN [a]) depot + eps
      have := eps_pos
      show dm.get depot a + dm.get a depot ≤ dm.get depot a + 0 + dm.get a depot + eps
      linarith
    | a :: b :: t =>
      exfalso
      simp at hlen
      omega
  · have := orOptLoop_mono depot dm fuel route
    have heps := eps_pos
    linarith

/- ### Solution model (src/models/solution.rs) and rebuild_solution -/

/-- `Solution` from `src/models/solution.rs`. -/
structure Solution where
  routes : List Route
  unassigned : List ℕ
  total_cost : ℚ

/-- `Solution::new`. -/
def Solution.emptySol : Solution := ⟨[], [], 0⟩

/-- `Solution::add_route`. -/
def Solution.add_route (s : Solution) (r : Route) : Solution :=
  ⟨s.routes ++ [r], s.unassigned, s.total_cost⟩

/-- `Solution::add_unassigned`. -/
def Solution.add_unassigned (s : Solution) (c : ℕ) : Solution :=
  ⟨s.routes, s.unassigned ++ [c], s.total_cost⟩

/-- `Solution::set_total_cost`. -/
def Solution.set_total_cost (s : Solution) (c : ℚ) : Solution :=
  ⟨s.routes, s.unassigned, c⟩

/-- `Solution::total_distance`: sum of the routes' cached distances. -/
def Solution.total_distance (s : Solution) : ℚ :=
  (s.routes.map Route.total_distance).sum

/-- `Solution::num_routes`. -/
def Solution.num_routes (s : Solution) : ℕ := s.routes.length

/-- `rebuild_solution` shared by `src/local_search/exchange.rs` and
`src/local_search/relocate.rs`: rebuild every nonempty route through the
evaluator, copy the unassigned list, and cache the total distance. -/
def rebuild_solution (routes : List (List ℕ)) (original : Solution)
    (dm : DistanceMatrix) (customers : List Customer) (vehicle : Vehicle) : Solution :=
  let sol1 := routes.foldl
    (fun sol rc =>
      if rc.isEmpty then sol
      else sol.add_route (build_route customers dm vehicle rc).1)
    Solution.emptySol
  let sol2 := original.unassigned.foldl (fun sol uid => sol.add_unassigned uid) sol1
  sol2.set_total_cost sol2.total_distance

/-- Accumulated travel of the `build_route` fold: the open path distance from
the starting `prev` through the remaining ids, with the final `prev`. -/
theorem build_fold_dist (customers : List Customer) (dm : DistanceMatrix) :
    ∀ (ids : List ℕ) (st : BuildState),
      (ids.foldl (buildStep customers dm) st).total_distance =
        st.total_distance + pathDist dm (st.prev :: ids) ∧
      (ids.foldl (buildStep customers dm) st).prev = lastN (st.prev :: ids) := by
  intro ids
  induction ids with
  | nil =>
    intro st
    constructor
    · show st.total_distance = st.total_distance + pathDist dm [st.prev]
      show st.total_distance = st.total_distance + 0
      ring
    · rfl
  | cons c t ih =>
    intro st
    constructor
    · show (t.foldl (buildStep customers dm) (buildStep customers dm st c)).total_distance = _
      rw [(ih (buildStep customers dm st c)).1]
      show (st.total_distance + dm.get st.prev c) + pathDist dm (c :: t) = _
      rw [show pathDist dm (st.prev :: c :: t) = dm.get st.prev c + pathDist dm (c :: t) from rfl]
      ring
    · show (t.foldl (buildStep customers dm) (buildStep customers dm st c)).prev = _
      rw [(ih (buildStep customers dm st c)).2]
      show lastN (c :: t) = lastN (st.prev :: c :: t)
      exact (lastN_cons_cons st.prev c t).symm

/-- The cached total distance of an evaluator-built route is its closed route
distance. -/
theorem build_route_total_distance (customers : List Customer) (dm : DistanceMatrix)
    (vehicle : Vehicle) (ids : List ℕ) (h : ids ≠ []) :
    (build_route customers dm vehicle ids).1.total_distance =
      route_distance ids vehicle.depot_id dm := by
  obtain ⟨hd, hp⟩ := build_fold_dist customers dm ids
    ⟨Route.new vehicle.id, [], 0, 0, 0, vehicle.depot_id⟩
  show (ids.foldl (buildStep customers dm)
      ⟨Route.new vehicle.id, [], 0, 0, 0, vehicle.depot_id⟩).total_distance +
    dm.get (ids.foldl (buildStep customers dm)
      ⟨Route.new vehicle.id, [], 0, 0, 0, vehicle.depot_id⟩).prev vehicle.depot_id = _
  rw [hd, hp]
  show 0 + pathDist dm (vehicle.depot_id :: ids) +
    dm.get (lastN (vehicle.depot_id :: ids)) vehicle.depot_id = _
  rw [route_distance_eq_path dm vehicle.depot_id ids h]
  rw [show vehicle.depot_id :: ids ++ [vehicle.depot_id] =
    (vehicle.depot_id :: ids) ++ [vehicle.depot_id] from rfl]
  rw [pathDist_concat dm (vehicle.depot_id :: ids) vehicle.depot_id (by simp)]
  ring

/-- The visit ids of an evaluator-built route are the input sequence. -/
theorem build_route_ids (customers : List Customer) (dm : DistanceMatrix)
    (vehicle : Vehicle) (ids : List ℕ) :
    (build_route customers dm vehicle ids).1.customer_ids = ids := by
  have main : ∀ (l : List ℕ) (st : BuildState),
      (l.foldl (buildStep customers dm) st).route.visits.map Visit.customer_id =
        st.route.visits.map Visit.customer_id ++ l := by
    intro l
    induction l with
    | nil => intro st; simp
    | cons c t ih =>
      intro st
      rw [List.foldl_cons, ih (buildStep customers dm st c)]
      simp only [buildStep, Route.push_visit, List.map_append, List.map_cons,
        List.map_nil, List.append_assoc]
      rfl
  show (ids.foldl (buildStep customers dm)
    ⟨Route.new vehicle.id, [], 0, 0, 0, vehicle.depot_id⟩).route.visits.map
      Visit.customer_id = ids
  rw [main ids ⟨Route.new vehicle.id, [], 0, 0, 0, vehicle.depot_id⟩]
  show ([] : List Visit).map Visit.customer_id ++ ids = ids
  simp

/- ### Inter-route exchange (2-opt*), src/local_search/exchange.rs -/

/-- The delta of a cross-exchange at `(cut1, cut2)`: new boundary edges minus
old boundary edges, with depot substituted when a cut is at a route's end
(`find_best_exchange` lines 148–171). -/
def exchangeDelta (dm : DistanceMatrix) (depot : ℕ) (route1 route2 : List ℕ)
    (cut1 cut2 : ℕ) : ℚ :=
  let old_edge1 := if cut1 < route1.length then
      dm.get (route1.getD (cut1 - 1) 0) (route1.getD cut1 0)
    else dm.get (route1.getD (cut1 - 1) 0) depot
  let old_edge2 := if cut2 < route2.length then
      dm.get (route2.getD (cut2 - 1) 0) (route2.getD cut2 0)
    else dm.get (route2.getD (cut2 - 1) 0) depot
  let new_edge1 := if cut2 < route2.length then
      dm.get (route1.getD (cut1 - 1) 0) (route2.getD cut2 0)
    else dm.get (route1.getD (cut1 - 1) 0) depot
  let new_edge2 := if cut1 < route1.length then
      dm.get (route2.getD (cut2 - 1) 0) (route1.getD cut1 0)
    else dm.get (route2.getD (cut2 - 1) 0) depot
  (new_edge1 + new_edge2) - (old_edge1 + old_edge2)

/-- One candidate step of `find_best_exchange`: skip if a swapped route would
exceed capacity, otherwise keep the candidate when it improves and beats the
incumbent (`delta < -1e-10 && best.is_none_or(|b| delta < b.2)`). -/
def exchangeInner (route1 route2 : List ℕ) (depot : ℕ) (dm : DistanceMatrix)
    (customers : List Customer) (vehicle : Vehicle) (cut1 : ℕ)
    (best : Option (ℕ × ℕ × ℚ)) (cut2 : ℕ) : Option (ℕ × ℕ × ℚ) :=
  let new_load1 := routeLoad customers (route1.take cut1) +
    routeLoad customers (route2.drop cut2)
  let new_load2 := routeLoad customers (route2.take cut2) +
    routeLoad customers (route1.drop cut1)
  if new_load1 > vehicle.capacity ∨ new_load2 > vehicle.capacity then best
  else
    let delta := exchangeDelta dm depot route1 route2 cut1 cut2
    match best with
    | none => if delta < -eps then some (cut1, cut2, delta) else none
    | some b => if delta < -eps ∧ delta < b.2.2 then some (cut1, cut2, delta)
        else some b

/-- `find_best_exchange` from `src/local_search/exchange.rs`: scan all cut
pairs, skip capacity-infeasible swaps, keep the smallest improving delta. -/
def find_best_exchange (route1 route2 : List ℕ) (depot : ℕ) (dm : DistanceMatrix)
    (customers : List Customer) (vehicle : Vehicle) : Option (ℕ × ℕ × ℚ) :=
  (List.range' 1 route1.length).foldl (fun best cut1 =>
    (List.range' 1 route2.length).foldl
      (exchangeInner route1 route2 depot dm customers vehicle cut1) best)
    none

/-- Any cut pair returned by `find_best_exchange` is in range and carries its
own exact improving delta. -/
theorem find_best_exchange_spec (route1 route2 : List ℕ) (depot : ℕ)
    (dm : DistanceMatrix) (customers : List Customer) (vehicle : Vehicle) :
    ∀ c1 c2 d, find_best_exchange route1 route2 depot dm customers vehicle =
      some (c1, c2, d) →
      1 ≤ c1 ∧ c1 ≤ route1.length ∧ 1 ≤ c2 ∧ c2 ≤ route2.length ∧
      d = exchangeDelta dm depot route1 route2 c1 c2 ∧ d < -eps := by
  refine foldl_preserve _ (fun best => ∀ c1 c2 d, best = some (c1, c2, d) →
    1 ≤ c1 ∧ c1 ≤ route1.length ∧ 1 ≤ c2 ∧ c2 ≤ route2.length ∧
    d = exchangeDelta dm depot route1 route2 c1 c2 ∧ d < -eps) _ ?_ none
    (by intro c1 c2 d h; exact absurd h (by simp))
  intro b cut1 hcut1 hb
  rw [List.mem_range'_1] at hcut1
  refine foldl_preserve _ (fun best => ∀ c1 c2 d, best = some (c1, c2, d) →
    1 ≤ c1 ∧ c1 ≤ route1.length ∧ 1 ≤ c2 ∧ c2 ≤ route2.length ∧
    d = exchangeDelta dm depot route1 route2 c1 c2 ∧ d < -eps) _ ?_ b hb
  intro b2 cut2 hcut2 hb2
  rw [List.mem_range'_1] at hcut2
  intro c1 c2 d h
  by_cases hcap : routeLoad customers (route1.take cut1) +
      routeLoad customers (route2.drop cut2) > vehicle.capacity ∨
      routeLoad customers (route2.take cut2) +
      routeLoad customers (route1.drop cut1) > vehicle.capacity
  · rw [show exchangeInner route1 route2 depot dm customers vehicle cut1 b2 cut2 = b2 by
      simp only [exchangeInner]; rw [if_pos hcap]] at h
    exact hb2 c1 c2 d h
  · cases b2 with
    | none =>
      simp only [exchangeInner] at h
      rw [if_neg hcap] at h
      by_cases himp : exchangeDelta dm depot route1 route2 cut1 cut2 < -eps
      · rw [if_pos himp] at h
        obtain ⟨h1, h2, h3⟩ : cut1 = c1 ∧ cut2 = c2 ∧
            exchangeDelta dm depot route1 route2 cut1 cut2 = d := by
          simp only [Option.some.injEq, Prod.mk.injEq] at h
          exact ⟨h.1, h.2.1, h.2.2⟩
        subst h1; subst h2
        exact ⟨by omega, by omega, by omega, by omega, h3.symm, by rw [← h3]; exact himp⟩
      · rw [if_neg himp] at h
        exact absurd h (by simp)
    | some bb =>
      simp only [exchangeInner] at h
      rw [if_neg hcap] at h
      by_cases himp : exchangeDelta dm depot route1 route2 cut1 cut2 < -eps ∧
          exchangeDelta dm depot route1 route2 cut1 cut2 < bb.2.2
      · rw [if_pos himp] at h
        obtain ⟨h1, h2, h3⟩ : cut1 = c1 ∧ cut2 = c2 ∧
            exchangeDelta dm depot route1 route2 cut1 cut2 = d := by
          simp only [Option.some.injEq, Prod.mk.injEq] at h
          exact ⟨h.1, h.2.1, h.2.2⟩
        subst h1; subst h2
        exact ⟨by omega, by omega, by omega, by omega, h3.symm,
          by rw [← h3]; exact himp.1⟩
      · rw [if_neg himp] at h
        exact hb2 c1 c2 d h

/-- Two-block decomposition of a closed route distance: prefix block and
suffix block joined by one edge. -/
theorem route_distance_glue2 (dm : DistanceMatrix) (depot : ℕ) (X Y : List ℕ)
    (hX : X ≠ []) :
    route_distance (X ++ Y) depot dm =
      pathDist dm (depot :: X) + dm.get (lastN (depot :: X)) (headN (Y ++ [depot])) +
      pathDist dm (Y ++ [depot]) := by
  rw [route_distance_eq_path dm depot (X ++ Y) (by simp [hX])]
  rw [show depot :: (X ++ Y) ++ [depot] = (depot :: X) ++ (Y ++ [depot]) by simp]
  rw [pathDist_glue dm (depot :: X) (Y ++ [depot]) (by simp) (by simp)]

/-- Exactness of a cross-exchange: the two swapped-tail routes cost exactly
the two originals plus the scan's delta (any matrix, no symmetry needed). -/
theorem exchange_apply_dist (dm : DistanceMatrix) (depot : ℕ) (rt1 rt2 : List ℕ)
    (cut1 cut2 : ℕ) (h1a : 1 ≤ cut1) (h1b : cut1 ≤ rt1.length)
    (h2a : 1 ≤ cut2) (h2b : cut2 ≤ rt2.length) :
    route_distance (rt1.take cut1 ++ rt2.drop cut2) depot dm +
      route_distance (rt2.take cut2 ++ rt1.drop cut1) depot dm =
    route_distance rt1 depot dm + route_distance rt2 depot dm +
      exchangeDelta dm depot rt1 rt2 cut1 cut2 := by
  have hX1 : rt1.take cut1 ≠ [] := by
    intro hcon
    have := congrArg List.length hcon
    simp only [List.length_take, List.length_nil] at this
    omega
  have hX2 : rt2.take cut2 ≠ [] := by
    intro hcon
    have := congrArg List.length hcon
    simp only [List.length_take, List.length_nil] at this
    omega
  have e1 : route_distance rt1 depot dm =
      pathDist dm (depot :: rt1.take cut1) +
      dm.get (lastN (depot :: rt1.take cut1)) (headN (rt1.drop cut1 ++ [depot])) +
      pathDist dm (rt1.drop cut1 ++ [depot]) := by
    conv_lhs => rw [show rt1 = rt1.take cut1 ++ rt1.drop cut1 from
      (List.take_append_drop cut1 rt1).symm]
    exact route_distance_glue2 dm depot (rt1.take cut1) (rt1.drop cut1) hX1
  have e2 : route_distance rt2 depot dm =
      pathDist dm (depot :: rt2.take cut2) +
      dm.get (lastN (depot :: rt2.take cut2)) (headN (rt2.drop cut2 ++ [depot])) +
      pathDist dm (rt2.drop cut2 ++ [depot]) := by
    conv_lhs => rw [show rt2 = rt2.take cut2 ++ rt2.drop cut2 from
      (List.take_append_drop cut2 rt2).symm]
    exact route_distance_glue2 dm depot (rt2.take cut2) (rt2.drop cut2) hX2
  rw [route_distance_glue2 dm depot (rt1.take cut1) (rt2.drop cut2) hX1,
    route_distance_glue2 dm depot (rt2.take cut2) (rt1.drop cut1) hX2, e1, e2]
  have hl1 : lastN (depot :: rt1.take cut1) = rt1.getD (cut1 - 1) 0 := by
    rw [lastN_prefixA rt1 depot cut1 h1b, if_neg (by omega)]
  have hl2 : lastN (depot :: rt2.take cut2) = rt2.getD (cut2 - 1) 0 := by
    rw [lastN_prefixA rt2 depot cut2 h2b, if_neg (by omega)]
  rw [hl1, hl2, headN_dropD rt1 depot cut1, headN_dropD rt2 depot cut2]
  simp only [exchangeDelta]
  split_ifs <;> ring

/-- Total closed route distance of a list of id-routes against a given depot. -/
def totalRouteDist (routes : List (List ℕ)) (depot : ℕ) (dm : DistanceMatrix) : ℚ :=
  (routes.map (fun r => route_distance r depot dm)).sum

/-- Replacing list `i` changes a mapped sum by exactly the difference at `i`. -/
theorem sum_map_set (f : List ℕ → ℚ) (l : List (List ℕ)) (i : ℕ) (X : List ℕ)
    (hi : i < l.length) :
    ((l.set i X).map f).sum = (l.map f).sum - f (l.getD i []) + f X := by
  induction l generalizing i with
  | nil => simp at hi
  | cons a t ih =>
    cases i with
    | zero =>
      simp only [List.set_cons_zero, List.map_cons, List.sum_cons, List.getD_cons_zero]
      ring
    | succ j =>
      simp only [List.set_cons_succ, List.map_cons, List.sum_cons, List.getD_cons_succ]
      rw [ih j (by simpa using hi)]
      ring

/-- The double set executing an exchange changes the total by exactly the
distance change at the two routes. -/
theorem totalRouteDist_set2 (depot : ℕ) (dm : DistanceMatrix) (l : List (List ℕ))
    (r1 r2 : ℕ) (X Y : List ℕ) (hne : r1 ≠ r2) (h1 : r1 < l.length)
    (h2 : r2 < l.length) :
    totalRouteDist ((l.set r1 X).set r2 Y) depot dm =
      totalRouteDist l depot dm - route_distance (l.getD r1 []) depot dm -
      route_distance (l.getD r2 []) depot dm +
      route_distance X depot dm + route_distance Y depot dm := by
  unfold totalRouteDist
  rw [sum_map_set _ _ r2 Y (by simpa using h2),
    sum_map_set _ _ r1 X h1, getD_set_ne l r1 r2 X [] hne]
  ring

/-- One step of the exchange scan at a route pair `(r1, r2)`: if the best
exchange improves, swap the tails at the returned cuts. -/
def exchangePairStep (depot : ℕ) (dm : DistanceMatrix) (customers : List Customer)
    (vehicle : Vehicle) (r1 : ℕ) (st : List (List ℕ) × Bool) (r2 : ℕ) :
    List (List ℕ) × Bool :=
  match find_best_exchange (st.1.getD r1 []) (st.1.getD r2 []) depot dm
      customers vehicle with
  | none => st
  | some (cut1, cut2, delta) =>
    if delta < -eps then
      let tail1 := (st.1.getD r1 []).drop cut1
      let tail2 := (st.1.getD r2 []).drop cut2
      ((st.1.set r1 ((st.1.getD r1 []).take cut1 ++ tail2)).set r2
        ((st.1.getD r2 []).take cut2 ++ tail1), true)
    else st

/-- One pass of the `while improved` loop in `exchange_improve`: all route
pairs `r1 < r2`, applying each improving exchange in place. -/
def exchangePass (depot : ℕ) (dm : DistanceMatrix) (customers : List Customer)
    (vehicle : Vehicle) (routes0 : List (List ℕ)) : List (List ℕ) × Bool :=
  (List.range routes0.length).foldl (fun st r1 =>
    (List.range' (r1 + 1) (routes0.length - (r1 + 1))).foldl
      (exchangePairStep depot dm customers vehicle r1) st)
    (routes0, false)

/-- The `while improved` loop of `exchange_improve`, with fuel. -/
def exchangeLoop (depot : ℕ) (dm : DistanceMatrix) (customers : List Customer)
    (vehicle : Vehicle) : ℕ → List (List ℕ) → List (List ℕ)
  | 0, routes => routes
  | fuel + 1, routes =>
    let p := exchangePass depot dm customers vehicle routes
    if p.2 then exchangeLoop depot dm customers vehicle fuel p.1 else p.1

/-- `exchange_improve` from `src/local_search/exchange.rs`. -/
def exchange_improve (fuel : ℕ) (solution : Solution) (customers : List Customer)
    (dm : DistanceMatrix) (vehicle : Vehicle) : Solution :=
  if solution.num_routes < 2 then solution
  else
    let depot := vehicle.depot_id
    let routes := solution.routes.map Route.customer_ids
    let final := exchangeLoop depot dm customers vehicle fuel routes
    rebuild_solution final solution dm customers vehicle

/-- One pair step of the exchange scan never increases the running total and
preserves the number of routes. -/
theorem exchangePairStep_mono (depot : ℕ) (dm : DistanceMatrix)
    (customers : List Customer) (vehicle : Vehicle) (r1 r2 : ℕ)
    (st : List (List ℕ) × Bool) (h1 : r1 < st.1.length) (h2 : r2 < st.1.length)
    (hne : r1 ≠ r2) :
    totalRouteDist (exchangePairStep depot dm customers vehicle r1 st r2).1 depot dm ≤
      totalRouteDist st.1 depot dm ∧
    (exchangePairStep depot dm customers vehicle r1 st r2).1.length = st.1.length := by
  cases hfind : find_best_exchange (st.1.getD r1 []) (st.1.getD r2 []) depot dm
      customers vehicle with
  | none =>
    rw [show exchangePairStep depot dm customers vehicle r1 st r2 = st by
      simp only [exchangePairStep, hfind]]
    exact ⟨le_refl _, rfl⟩
  | some trip =>
    obtain ⟨cut1, cut2, delta⟩ := trip
    obtain ⟨hc1a, hc1b, hc2a, hc2b, hdeq, hdneg⟩ :=
      find_best_exchange_spec (st.1.getD r1 []) (st.1.getD r2 []) depot dm
        customers vehicle cut1 cut2 delta hfind
    have hstep : exchangePairStep depot dm customers vehicle r1 st r2 =
        ((st.1.set r1 ((st.1.getD r1 []).take cut1 ++ (st.1.getD r2 []).drop cut2)).set r2
          ((st.1.getD r2 []).take cut2 ++ (st.1.getD r1 []).drop cut1), true) := by
      simp only [exchangePairStep, hfind]
      rw [if_pos hdneg]
    rw [hstep]
    constructor
    · have hset := totalRouteDist_set2 depot dm st.1 r1 r2
        ((st.1.getD r1 []).take cut1 ++ (st.1.getD r2 []).drop cut2)
        ((st.1.getD r2 []).take cut2 ++ (st.1.getD r1 []).drop cut1) hne h1 h2
      rw [hset]
      have happ := exchange_apply_dist dm depot (st.1.getD r1 []) (st.1.getD r2 [])
        cut1 cut2 hc1a hc1b hc2a hc2b
      have heps := eps_pos
      rw [hdeq] at hdneg
      linarith
    · simp

/-- One full exchange pass never increases the total route distance and keeps
the number of routes. -/
theorem exchangePass_mono (depot : ℕ) (dm : DistanceMatrix)
    (customers : List Customer) (vehicle : Vehicle) (routes0 : List (List ℕ)) :
    totalRouteDist (exchangePass depot dm customers vehicle routes0).1 depot dm ≤
      totalRouteDist routes0 depot dm ∧
    (exchangePass depot dm customers vehicle routes0).1.length = routes0.length := by
  unfold exchangePass
  refine foldl_preserve _ (fun st =>
    totalRouteDist st.1 depot dm ≤ totalRouteDist routes0 depot dm ∧
    st.1.length = routes0.length) _ ?_ (routes0, false) ⟨le_refl _, rfl⟩
  intro st r1 hr1 hst
  rw [List.mem_range] at hr1
  refine foldl_preserve _ (fun st =>
    totalRouteDist st.1 depot dm ≤ totalRouteDist routes0 depot dm ∧
    st.1.length = routes0.length) _ ?_ st hst
  intro st2 r2 hr2 hst2
  rw [List.mem_range'_1] at hr2
  have hstep := exchangePairStep_mono depot dm customers vehicle r1 r2 st2
    (by omega) (by omega) (by omega)
  exact ⟨le_trans hstep.1 hst2.1, by rw [hstep.2, hst2.2]⟩

/-- The fueled exchange loop never increases the total route distance. -/
theorem exchangeLoop_mono (depot : ℕ) (dm : DistanceMatrix)
    (customers : List Customer) (vehicle : Vehicle) (fuel : ℕ) :
    ∀ routes, totalRouteDist (exchangeLoop depot dm customers vehicle fuel routes)
      depot dm ≤ totalRouteDist routes depot dm := by
  induction fuel with
  | zero => intro routes; exact le_refl _
  | succ n ih =>
    intro routes
    show totalRouteDist (if (exchangePass depot dm customers vehicle routes).2 then
      exchangeLoop depot dm customers vehicle n
        (exchangePass depot dm customers vehicle routes).1
      else (exchangePass depot dm customers vehicle routes).1) depot dm ≤ _
    have hp := (exchangePass_mono depot dm customers vehicle routes).1
    by_cases himp : (exchangePass depot dm customers vehicle routes).2
    · rw [if_pos himp]
      exact le_trans (ih (exchangePass depot dm customers vehicle routes).1) hp
    · rw [if_neg himp]
      exact hp

/-- The rebuilt solution's cached total distance is exactly the total closed
route distance of the id-route lists (empty lists contribute zero). -/
theorem rebuild_solution_total (routes : List (List ℕ)) (original : Solution)
    (dm : DistanceMatrix) (customers : List Customer) (vehicle : Vehicle) :
    (rebuild_solution routes original dm customers vehicle).total_distance =
      totalRouteDist routes vehicle.depot_id dm := by
  have hadd : ∀ (s : Solution) (r : Route), (s.add_route r).total_distance =
      s.total_distance + r.total_distance := by
    intro s r
    show ((s.routes ++ [r]).map Route.total_distance).sum = _
    rw [List.map_append, List.sum_append]
    show (s.routes.map Route.total_distance).sum + (r.total_distance + 0) =
      (s.routes.map Route.total_distance).sum + r.total_distance
    ring
  have hfold : ∀ (rcs : List (List ℕ)) (sol : Solution),
      (rcs.foldl (fun sol rc => if rc.isEmpty then sol
        else sol.add_route (build_route customers dm vehicle rc).1) sol).total_distance =
      sol.total_distance + totalRouteDist rcs vehicle.depot_id dm := by
    intro rcs
    induction rcs with
    | nil =>
      intro sol
      simp [totalRouteDist]
    | cons rc t ih =>
      intro sol
      rw [List.foldl_cons, ih]
      simp only [totalRouteDist, List.map_cons, List.sum_cons]
      by_cases hrc : rc.isEmpty
      · rw [if_pos hrc]
        have hrceq : rc = [] := by
          cases rc with
          | nil => rfl
          | cons a b => simp [List.isEmpty] at hrc
        subst hrceq
        rw [show route_distance [] vehicle.depot_id dm = 0 from rfl]
        ring
      · rw [if_neg hrc, hadd]
        have hne : rc ≠ [] := by
          intro hcon; subst hcon; simp [List.isEmpty] at hrc
        rw [build_route_total_distance customers dm vehicle rc hne]
        ring
  have hfoldun : ∀ (rcs : List (List ℕ)) (sol : Solution),
      (rcs.foldl (fun sol rc => if rc.isEmpty then sol
        else sol.add_route (build_route customers dm vehicle rc).1) sol).unassigned =
      sol.unassigned := by
    intro rcs
    induction rcs with
    | nil => intro sol; rfl
    | cons rc t ih =>
      intro sol
      rw [List.foldl_cons]
      by_cases hrc : rc.isEmpty
      · rw [if_pos hrc]
        exact ih sol
      · rw [if_neg hrc, ih]
        rfl
  have hunassigned : ∀ (uids : List ℕ) (sol : Solution),
      (uids.foldl (fun sol uid => sol.add_unassigned uid) sol).total_distance =
        sol.total_distance := by
    intro uids
    induction uids with
    | nil => intro sol; rfl
    | cons u t ih => intro sol; rw [List.foldl_cons, ih]; rfl
  have hset : ∀ (s : Solution) (c : ℚ),
      (s.set_total_cost c).total_distance = s.total_distance := fun s c => rfl
  simp only [rebuild_solution]
  rw [hset, hunassigned, hfold]
  simp [Solution.emptySol, Solution.total_distance]

/-- `exchange_improve` never worsens the cached total distance when each
input route's cached distance agrees with its id sequence. -/
theorem exchange_improve_mono (fuel : ℕ) (solution : Solution)
    (customers : List Customer) (dm : DistanceMatrix) (vehicle : Vehicle)
    (hcache : ∀ r ∈ solution.routes, r.total_distance =
      route_distance r.customer_ids vehicle.depot_id dm) :
    (exchange_improve fuel solution customers dm vehicle).total_distance ≤
      solution.total_distance + eps := by
  have heps := eps_pos
  by_cases hn : solution.num_routes < 2
  · rw [show exchange_improve fuel solution customers dm vehicle = solution by
      simp only [exchange_improve]; rw [if_pos hn]]
    linarith
  · rw [show exchange_improve fuel solution customers dm vehicle =
      rebuild_solution (exchangeLoop vehicle.depot_id dm customers vehicle fuel
        (solution.routes.map Route.customer_ids)) solution dm customers vehicle by
      simp only [exchange_improve]; rw [if_neg hn]]
    rw [rebuild_solution_total]
    have hloop := exchangeLoop_mono vehicle.depot_id dm customers vehicle fuel
      (solution.routes.map Route.customer_ids)
    have hinit : totalRouteDist (solution.routes.map Route.customer_ids)
        vehicle.depot_id dm = solution.total_distance := by
      unfold totalRouteDist Solution.total_distance
      rw [List.map_map]
      congr 1
      apply List.map_congr_left
      intro r hr
      exact (hcache r hr).symm
    linarith

/- ### Inter-route relocate, src/local_search/relocate.rs -/

/-- `removal_cost` from `src/local_search/relocate.rs`. -/
def removal_cost (route : List ℕ) (pos : ℕ) (depot : ℕ) (dm : DistanceMatrix) : ℚ :=
  let prev := if pos = 0 then depot else route.getD (pos - 1) 0
  let next := if pos = route.length - 1 then depot else route.getD (pos + 1) 0
  let cid := route.getD pos 0
  dm.get prev next - dm.get prev cid - dm.get cid next

/-- `insertion_cost` from `src/local_search/relocate.rs`. -/
def insertion_cost (route : List ℕ) (pos : ℕ) (customer_id : ℕ) (depot : ℕ)
    (dm : DistanceMatrix) : ℚ :=
  let prev := if pos = 0 then depot else route.getD (pos - 1) 0
  let next := if pos = route.length then depot else route.getD pos 0
  dm.get prev customer_id + dm.get customer_id next - dm.get prev next

/-- `RelocateMove` from `src/local_search/relocate.rs`. -/
structure RelocateMove where
  from_route : ℕ
  from_pos : ℕ
  to_route : ℕ
  to_pos : ℕ
  delta : ℚ

/-- The innermost candidate step of `find_best_relocate`: keep the move when
it improves (`delta < -1e-10`) and beats the incumbent. -/
def relocateInner (routes : List (List ℕ)) (depot : ℕ) (dm : DistanceMatrix)
    (from_r from_pos to_r : ℕ) (best : Option RelocateMove) (to_pos : ℕ) :
    Option RelocateMove :=
  let cid := (routes.getD from_r []).getD from_pos 0
  let removal_delta := removal_cost (routes.getD from_r []) from_pos depot dm
  let insertion_delta := insertion_cost (routes.getD to_r []) to_pos cid depot dm
  let delta := removal_delta + insertion_delta
  if delta < -eps then
    match best with
    | none => some ⟨from_r, from_pos, to_r, to_pos, delta⟩
    | some b => if delta < b.delta then some ⟨from_r, from_pos, to_r, to_pos, delta⟩
        else some b
  else best

/-- `find_best_relocate` from `src/local_search/relocate.rs`: best single
relocate move over all route pairs and positions, capacity-checked. -/
def find_best_relocate (routes : List (List ℕ)) (customers : List Customer)
    (dm : DistanceMatrix) (vehicle : Vehicle) : Option RelocateMove :=
  let depot := vehicle.depot_id
  (List.range routes.length).foldl (fun best from_r =>
    (List.range (routes.getD from_r []).length).foldl (fun best from_pos =>
      (List.range routes.length).foldl (fun best to_r =>
        if to_r = from_r then best
        else
          let cid := (routes.getD from_r []).getD from_pos 0
          let to_load := routeLoad customers (routes.getD to_r [])
          if to_load + (customers.getD cid dfltCustomer).demand > vehicle.capacity
          then best
          else
            (List.range ((routes.getD to_r []).length + 1)).foldl
              (relocateInner routes depot dm from_r from_pos to_r) best)
        best)
      best)
    none

/-- Soundness predicate for incumbents of the relocate scan: any held move is
in range with an exact improving delta. -/
def relocateMoveOk (routes : List (List ℕ)) (depot : ℕ) (dm : DistanceMatrix)
    (best : Option RelocateMove) : Prop :=
  ∀ mv : RelocateMove, best = some mv →
    mv.from_route < routes.length ∧
    mv.from_pos < (routes.getD mv.from_route []).length ∧
    mv.to_route < routes.length ∧ mv.to_route ≠ mv.from_route ∧
    mv.to_pos ≤ (routes.getD mv.to_route []).length ∧
    mv.delta = removal_cost (routes.getD mv.from_route []) mv.from_pos depot dm +
      insertion_cost (routes.getD mv.to_route []) mv.to_pos
        ((routes.getD mv.from_route []).getD mv.from_pos 0) depot dm ∧
    mv.delta < -eps

/-- Any move returned by `find_best_relocate` has in-range coordinates and
carries its own exact improving delta. -/
theorem find_best_relocate_spec (routes : List (List ℕ)) (customers : List Customer)
    (dm : DistanceMatrix) (vehicle : Vehicle) :
    relocateMoveOk routes vehicle.depot_id dm
      (find_best_relocate routes customers dm vehicle) := by
  refine foldl_preserve _ (relocateMoveOk routes vehicle.depot_id dm) _ ?_ none
    (by intro mv h; exact absurd h (by simp))
  intro b from_r hfr hb
  rw [List.mem_range] at hfr
  refine foldl_preserve _ (relocateMoveOk routes vehicle.depot_id dm) _ ?_ b hb
  intro b2 from_pos hfp hb2
  rw [List.mem_range] at hfp
  refine foldl_preserve _ (relocateMoveOk routes vehicle.depot_id dm) _ ?_ b2 hb2
  intro b3 to_r htr hb3
  rw [List.mem_range] at htr
  by_cases hsame : to_r = from_r
  · rw [if_pos hsame]
    exact hb3
  · rw [if_neg hsame]
    by_cases hcap : routeLoad customers (routes.getD to_r []) +
        (customers.getD ((routes.getD from_r []).getD from_pos 0)
          dfltCustomer).demand > vehicle.capacity
    · simp only
      rw [if_pos hcap]
      exact hb3
    · simp only
      rw [if_neg hcap]
      refine foldl_preserve _ (relocateMoveOk routes vehicle.depot_id dm) _ ?_ b3 hb3
      intro b4 to_pos htp hb4
      rw [List.mem_range] at htp
      intro mv h
      cases b4 with
      | none =>
        simp only [relocateInner] at h
        by_cases himp : removal_cost (routes.getD from_r []) from_pos
            vehicle.depot_id dm +
            insertion_cost (routes.getD to_r []) to_pos
              ((routes.getD from_r []).getD from_pos 0) vehicle.depot_id dm < -eps
        · rw [if_pos himp] at h
          obtain rfl : (⟨from_r, from_pos, to_r, to_pos,
              removal_cost (routes.getD from_r []) from_pos vehicle.depot_id dm +
              insertion_cost (routes.getD to_r []) to_pos
                ((routes.getD from_r []).getD from_pos 0) vehicle.depot_id dm⟩ :
              RelocateMove) = mv := Option.some.inj h
          exact ⟨hfr, hfp, htr, hsame,
            (by omega : to_pos ≤ (routes.getD to_r []).length), rfl, himp⟩
        · rw [if_neg himp] at h
          exact absurd h (by simp)
      | some bb =>
        simp only [relocateInner] at h
        by_cases himp : removal_cost (routes.getD from_r []) from_pos
            vehicle.depot_id dm +
            insertion_cost (routes.getD to_r []) to_pos
              ((routes.getD from_r []).getD from_pos 0) vehicle.depot_id dm < -eps
        · rw [if_pos himp] at h
          by_cases hbeat : removal_cost (routes.getD from_r []) from_pos
              vehicle.depot_id dm +
              insertion_cost (routes.getD to_r []) to_pos
                ((routes.getD from_r []).getD from_pos 0) vehicle.depot_id dm <
              bb.delta
          · rw [if_pos hbeat] at h
            obtain rfl : (⟨from_r, from_pos, to_r, to_pos,
                removal_cost (routes.getD from_r []) from_pos vehicle.depot_id dm +
                insertion_cost (routes.getD to_r []) to_pos
                  ((routes.getD from_r []).getD from_pos 0) vehicle.depot_id dm⟩ :
                RelocateMove) = mv := Option.some.inj h
            exact ⟨hfr, hfp, htr, hsame,
            (by omega : to_pos ≤ (routes.getD to_r []).length), rfl, himp⟩
          · rw [if_neg hbeat] at h
            exact hb4 mv h
        · rw [if_neg himp] at h
          exact hb4 mv h

/-- Splitting a closed route at any point, including the degenerate empty
blocks, given a zero depot self-distance. -/
theorem route_distance_split (dm : DistanceMatrix) (depot : ℕ) (P Q : List ℕ)
    (hdiag : dm.get depot depot = 0) :
    route_distance (P ++ Q) depot dm =
      pathDist dm (depot :: P) + dm.get (lastN (depot :: P)) (headN (Q ++ [depot])) +
      pathDist dm (Q ++ [depot]) := by
  cases hP : P with
  | nil =>
    cases hQ : Q with
    | nil =>
      show route_distance [] depot dm =
        pathDist dm [depot] + dm.get (lastN [depot]) (headN [depot]) + pathDist dm [depot]
      show (0 : ℚ) = 0 + dm.get depot depot + 0
      rw [hdiag]
      ring
    | cons q qs =>
      show route_distance (q :: qs) depot dm = _
      rw [route_distance_eq_path dm depot (q :: qs) (by simp)]
      show pathDist dm (depot :: (q :: qs) ++ [depot]) =
        0 + dm.get (lastN [depot]) (headN ((q :: qs) ++ [depot])) +
        pathDist dm ((q :: qs) ++ [depot])
      rw [show lastN [depot] = depot from rfl]
      rw [show depot :: (q :: qs) ++ [depot] = depot :: ((q :: qs) ++ [depot]) by simp]
      rw [pathDist_cons_head dm depot ((q :: qs) ++ [depot]) (by simp)]
      rw [show headN ((q :: qs) ++ [depot]) = q from rfl]
      ring
  | cons p ps =>
    exact route_distance_glue2 dm depot (p :: ps) Q (by simp)

/-- Three-block decomposition of a closed route around one customer. -/
theorem route_distance_glue3 (dm : DistanceMatrix) (depot : ℕ) (P : List ℕ)
    (c : ℕ) (Q : List ℕ) :
    route_distance (P ++ c :: Q) depot dm =
      pathDist dm (depot :: P) + dm.get (lastN (depot :: P)) c +
      dm.get c (headN (Q ++ [depot])) + pathDist dm (Q ++ [depot]) := by
  rw [route_distance_eq_path dm depot (P ++ c :: Q) (by simp)]
  rw [show depot :: (P ++ c :: Q) ++ [depot] =
    (depot :: P) ++ ([c] ++ (Q ++ [depot])) by simp]
  rw [pathDist_glue dm (depot :: P) ([c] ++ (Q ++ [depot])) (by simp) (by simp)]
  rw [pathDist_glue dm [c] (Q ++ [depot]) (by simp) (by simp)]
  rw [show headN ([c] ++ (Q ++ [depot])) = c from rfl,
    show lastN [c] = c from rfl,
    show pathDist dm [c] = 0 from rfl]
  ring

/-- Exactness of a removal: erasing position `pos` changes the closed route
distance by exactly `removal_cost` (zero depot self-distance needed for the
singleton-route case). -/
theorem removal_dist (dm : DistanceMatrix) (depot : ℕ) (rt : List ℕ) (pos : ℕ)
    (hpos : pos < rt.length) (hdiag : dm.get depot depot = 0) :
    route_distance (rt.eraseIdx pos) depot dm =
      route_distance rt depot dm + removal_cost rt pos depot dm := by
  have hdecomp : rt = rt.take pos ++ rt.getD pos 0 :: rt.drop (pos + 1) := by
    conv_lhs => rw [← List.take_append_drop pos rt]
    congr 1
    rw [List.getD_eq_getElem rt 0 hpos]
    exact List.drop_eq_getElem_cons hpos
  have herase : rt.eraseIdx pos = rt.take pos ++ rt.drop (pos + 1) :=
    List.eraseIdx_eq_take_drop_succ rt pos
  rw [herase, route_distance_split dm depot (rt.take pos) (rt.drop (pos + 1)) hdiag]
  conv_lhs => rw [show rt.take pos = rt.take pos from rfl]
  rw [show route_distance rt depot dm = pathDist dm (depot :: rt.take pos) +
      dm.get (lastN (depot :: rt.take pos)) (rt.getD pos 0) +
      dm.get (rt.getD pos 0) (headN (rt.drop (pos + 1) ++ [depot])) +
      pathDist dm (rt.drop (pos + 1) ++ [depot]) by
    conv_lhs => rw [hdecomp]
    exact route_distance_glue3 dm depot (rt.take pos) (rt.getD pos 0) (rt.drop (pos + 1))]
  simp only [removal_cost]
  rw [lastN_prefixA rt depot pos (by omega), headN_dropD rt depot (pos + 1)]
  split_ifs <;> (first | ring1 | (exfalso; omega))

/-- Exactness of an insertion: inserting `cid` at `pos` changes the closed
route distance by exactly `insertion_cost` (zero depot self-distance needed
for the empty-route case). -/
theorem insertion_dist (dm : DistanceMatrix) (depot : ℕ) (rt : List ℕ)
    (pos cid : ℕ) (hpos : pos ≤ rt.length) (hdiag : dm.get depot depot = 0) :
    route_distance (rt.insertIdx pos cid) depot dm =
      route_distance rt depot dm + insertion_cost rt pos cid depot dm := by
  have hins : rt.insertIdx pos cid = rt.take pos ++ cid :: rt.drop pos := by
    induction rt generalizing pos with
    | nil =>
      have : pos = 0 := by simpa using hpos
      subst this
      rfl
    | cons x t ih =>
      cases pos with
      | zero => rfl
      | succ j =>
        simp only [List.insertIdx_succ_cons, List.take_succ_cons, List.drop_succ_cons,
          List.cons_append]
        rw [ih j (by simpa using hpos)]
  rw [hins, route_distance_glue3 dm depot (rt.take pos) cid (rt.drop pos)]
  conv_lhs => rw [show rt.take pos = rt.take pos from rfl]
  rw [show route_distance rt depot dm = pathDist dm (depot :: rt.take pos) +
      dm.get (lastN (depot :: rt.take pos)) (headN (rt.drop pos ++ [depot])) +
      pathDist dm (rt.drop pos ++ [depot]) by
    conv_lhs => rw [← List.take_append_drop pos rt]
    exact route_distance_split dm depot (rt.take pos) (rt.drop pos) hdiag]
  simp only [insertion_cost]
  rw [lastN_prefixA rt depot pos hpos, headN_dropD rt depot pos]
  split_ifs <;> (first | ring1 | (exfalso; omega))

/-- Executing a relocate move: read the customer, remove it from the source
route, insert it into the target route (`relocate_improve` lines 84–86). -/
def applyRelocate (routes : List (List ℕ)) (mv : RelocateMove) : List (List ℕ) :=
  let cid := (routes.getD mv.from_route []).getD mv.from_pos 0
  let routes1 := routes.set mv.from_route
    ((routes.getD mv.from_route []).eraseIdx mv.from_pos)
  routes1.set mv.to_route ((routes1.getD mv.to_route []).insertIdx mv.to_pos cid)

/-- The `while improved` loop of `relocate_improve`, with fuel: one applied
move per iteration. -/
def relocateLoop (customers : List Customer) (dm : DistanceMatrix)
    (vehicle : Vehicle) : ℕ → List (List ℕ) → List (List ℕ)
  | 0, routes => routes
  | fuel + 1, routes =>
    match find_best_relocate routes customers dm vehicle with
    | some mv =>
      if mv.delta < -eps then
        relocateLoop customers dm vehicle fuel (applyRelocate routes mv)
      else routes
    | none => routes

/-- `relocate_improve` from `src/local_search/relocate.rs`. -/
def relocate_improve (fuel : ℕ) (solution : Solution) (customers : List Customer)
    (dm : DistanceMatrix) (vehicle : Vehicle) : Solution :=
  if solution.num_routes < 2 then solution
  else
    let routes := solution.routes.map Route.customer_ids
    rebuild_solution (relocateLoop customers dm vehicle fuel routes)
      solution dm customers vehicle

/-- An applied relocate move changes the total route distance by exactly its
delta. -/
theorem applyRelocate_dist (dm : DistanceMatrix) (depot : ℕ)
    (routes : List (List ℕ)) (mv : RelocateMove)
    (hfr : mv.from_route < routes.length)
    (hfp : mv.from_pos < (routes.getD mv.from_route []).length)
    (htr : mv.to_route < routes.length) (hne : mv.to_route ≠ mv.from_route)
    (htp : mv.to_pos ≤ (routes.getD mv.to_route []).length)
    (hdelta : mv.delta = removal_cost (routes.getD mv.from_route []) mv.from_pos
      depot dm + insertion_cost (routes.getD mv.to_route []) mv.to_pos
        ((routes.getD mv.from_route []).getD mv.from_pos 0) depot dm)
    (hdiag : dm.get depot depot = 0) :
    totalRouteDist (applyRelocate routes mv) depot dm =
      totalRouteDist routes depot dm + mv.delta := by
  simp only [applyRelocate]
  rw [getD_set_ne routes mv.from_route mv.to_route _ [] (by omega)]
  rw [totalRouteDist_set2 depot dm routes mv.from_route mv.to_route _ _
    (by omega) hfr htr]
  rw [removal_dist dm depot (routes.getD mv.from_route []) mv.from_pos hfp hdiag]
  rw [insertion_dist dm depot (routes.getD mv.to_route []) mv.to_pos
    ((routes.getD mv.from_route []).getD mv.from_pos 0) htp hdiag]
  rw [hdelta]
  ring

/-- The fueled relocate loop never increases the total route distance. -/
theorem relocateLoop_mono (customers : List Customer) (dm : DistanceMatrix)
    (vehicle : Vehicle) (hdiag : dm.get vehicle.depot_id vehicle.depot_id = 0)
    (fuel : ℕ) :
    ∀ routes, totalRouteDist (relocateLoop customers dm vehicle fuel routes)
      vehicle.depot_id dm ≤ totalRouteDist routes vehicle.depot_id dm := by
  induction fuel with
  | zero => intro routes; exact le_refl _
  | succ n ih =>
    intro routes
    cases hfind : find_best_relocate routes customers dm vehicle with
    | none =>
      rw [show relocateLoop customers dm vehicle (n + 1) routes = routes by
        simp only [relocateLoop, hfind]]
    | some mv =>
      obtain ⟨hfr, hfp, htr, hne, htp, hdelta, hneg⟩ :=
        find_best_relocate_spec routes customers dm vehicle mv hfind
      rw [show relocateLoop customers dm vehicle (n + 1) routes =
          relocateLoop customers dm vehicle n (applyRelocate routes mv) by
        simp only [relocateLoop, hfind]
        rw [if_pos hneg]]
      have happ := applyRelocate_dist dm vehicle.depot_id routes mv hfr hfp htr
        hne htp hdelta hdiag
      have hloop := ih (applyRelocate routes mv)
      have heps := eps_pos
      linarith

/-- `relocate_improve` never worsens the cached total distance when routes are
cache-consistent and the depot self-distance is zero. -/
theorem relocate_improve_mono (fuel : ℕ) (solution : Solution)
    (customers : List Customer) (dm : DistanceMatrix) (vehicle : Vehicle)
    (hdiag : dm.get vehicle.depot_id vehicle.depot_id = 0)
    (hcache : ∀ r ∈ solution.routes, r.total_distance =
      route_distance r.customer_ids vehicle.depot_id dm) :
    (relocate_improve fuel solution customers dm vehicle).total_distance ≤
      solution.total_distance + eps := by
  have heps := eps_pos
  by_cases hn : solution.num_routes < 2
  · rw [show relocate_improve fuel solution customers dm vehicle = solution by
      simp only [relocate_improve]; rw [if_pos hn]]
    linarith
  · rw [show relocate_improve fuel solution customers dm vehicle =
      rebuild_solution (relocateLoop customers dm vehicle fuel
        (solution.routes.map Route.customer_ids)) solution dm customers vehicle by
      simp only [relocate_improve]; rw [if_neg hn]]
    rw [rebuild_solution_total]
    have hloop := relocateLoop_mono customers dm vehicle hdiag fuel
      (solution.routes.map Route.customer_ids)
    have hinit : totalRouteDist (solution.routes.map Route.customer_ids)
        vehicle.depot_id dm = solution.total_distance := by
      unfold totalRouteDist Solution.total_distance
      rw [List.map_map]
      congr 1
      apply List.map_congr_left
      intro r hr
      exact (hcache r hr).symm
    linarith

/- ### Intra-route 3-opt, src/local_search/three_opt.rs -/

/-- The running best `(best_delta, best_pattern)` of the 3-opt pattern scan:
starts at `(-1e-10, 0)` and each candidate takes over only when strictly
smaller (the chain of `if delta_p < best_delta` updates). -/
def selFold (cands : List (ℚ × ℕ)) : ℚ × ℕ :=
  cands.foldl (fun b c => if c.1 < b.1 then c else b) (-eps, 0)

/-- The selected pair is the start value or one of the candidates with an
improving delta. -/
theorem selFold_spec (cands : List (ℚ × ℕ)) :
    selFold cands = (-eps, 0) ∨ (selFold cands ∈ cands ∧ (selFold cands).1 < -eps) := by
  unfold selFold
  refine foldl_preserve _ (fun b => b = (-eps, 0) ∨ (b ∈ cands ∧ b.1 < -eps)) _ ?_
    (-eps, 0) (Or.inl rfl)
  intro b c hc hb
  by_cases hlt : c.1 < b.1
  · rw [if_pos hlt]
    right
    refine ⟨hc, ?_⟩
    rcases hb with h | h
    · rw [h] at hlt
      exact hlt
    · exact lt_trans hlt h.2
  · rw [if_neg hlt]
    exact hb

/-- `delta_p = cost_p - old_cost` of 3-opt pattern `p` at cuts `(i, j, k)`
(`try_three_opt_move` lines 111–200). -/
def threeOptDelta (route : List ℕ) (depot : ℕ) (dm : DistanceMatrix)
    (i j k p : ℕ) : ℚ :=
  let n := route.length
  let a_end := route.getD i 0
  let b_start := route.getD (i + 1) 0
  let b_end := route.getD j 0
  let c_start := route.getD (j + 1) 0
  let c_end := route.getD k 0
  let d_start := if k + 1 < n then route.getD (k + 1) 0 else depot
  let old_cost := dm.get a_end b_start + dm.get b_end c_start + dm.get c_end d_start
  match p with
  | 1 => dm.get a_end b_start + dm.get b_end c_end + dm.get c_start d_start - old_cost
  | 2 => dm.get a_end b_end + dm.get b_start c_start + dm.get c_end d_start - old_cost
  | 3 => dm.get a_end b_end + dm.get b_start c_end + dm.get c_start d_start - old_cost
  | 4 => dm.get a_end c_start + dm.get c_end b_start + dm.get b_end d_start - old_cost
  | 5 => dm.get a_end c_start + dm.get c_end b_end + dm.get b_start d_start - old_cost
  | 6 => dm.get a_end c_end + dm.get c_start b_start + dm.get b_end d_start - old_cost
  | 7 => dm.get a_end c_end + dm.get c_start b_end + dm.get b_start d_start - old_cost
  | _ => 0

/-- Reconstruction of the route for 3-opt pattern `p`
(`try_three_opt_move` lines 206–251). -/
def threeOptPattern (route : List ℕ) (i j k p : ℕ) : List ℕ :=
  let seg_a := route.take (i + 1)
  let seg_b := (route.take (j + 1)).drop (i + 1)
  let seg_c := (route.take (k + 1)).drop (j + 1)
  let seg_d := route.drop (k + 1)
  seg_a ++ (match p with
    | 1 => seg_b ++ seg_c.reverse
    | 2 => seg_b.reverse ++ seg_c
    | 3 => seg_b.reverse ++ seg_c.reverse
    | 4 => seg_c ++ seg_b
    | 5 => seg_c ++ seg_b.reverse
    | 6 => seg_c.reverse ++ seg_b
    | _ => seg_c.reverse ++ seg_b.reverse) ++ seg_d

/-- `try_three_opt_move` from `src/local_search/three_opt.rs`: evaluate the
seven reconnection patterns, keep the best strictly improving one, return the
reconstructed route (or `None` when no pattern improves). -/
def try_three_opt_move (route : List ℕ) (depot : ℕ) (dm : DistanceMatrix)
    (i j k : ℕ) : Option (List ℕ) :=
  let best := selFold [(threeOptDelta route depot dm i j k 1, 1),
    (threeOptDelta route depot dm i j k 2, 2),
    (threeOptDelta route depot dm i j k 3, 3),
    (threeOptDelta route depot dm i j k 4, 4),
    (threeOptDelta route depot dm i j k 5, 5),
    (threeOptDelta route depot dm i j k 6, 6),
    (threeOptDelta route depot dm i j k 7, 7)]
  if best.2 = 0 then none
  else some (threeOptPattern route i j k best.2)

/-- Splitting a take at an earlier point. -/
theorem take_split (l : List ℕ) (a b : ℕ) (hab : a ≤ b) :
    l.take b = l.take a ++ (l.take b).drop a := by
  conv_lhs => rw [← List.take_append_drop a (l.take b)]
  rw [List.take_take, min_eq_left hab]

/-- Four-segment decomposition of a route at cuts `(i, j, k)`. -/
theorem four_split (l : List ℕ) (i j k : ℕ) (hij : i < j) (hjk : j < k)
    (hk : k < l.length) :
    l.take (i + 1) ++ (l.take (j + 1)).drop (i + 1) ++
      (l.take (k + 1)).drop (j + 1) ++ l.drop (k + 1) = l := by
  have h1 := take_split l (i + 1) (j + 1) (by omega)
  have h2 := take_split l (j + 1) (k + 1) (by omega)
  calc l.take (i + 1) ++ (l.take (j + 1)).drop (i + 1) ++
      (l.take (k + 1)).drop (j + 1) ++ l.drop (k + 1)
      = (l.take (i + 1) ++ (l.take (j + 1)).drop (i + 1)) ++
        (l.take (k + 1)).drop (j + 1) ++ l.drop (k + 1) := by
        simp [List.append_assoc]
    _ = l.take (j + 1) ++ (l.take (k + 1)).drop (j + 1) ++ l.drop (k + 1) := by
        rw [← h1]
    _ = (l.take (j + 1) ++ (l.take (k + 1)).drop (j + 1)) ++ l.drop (k + 1) := by
        simp [List.append_assoc]
    _ = l.take (k + 1) ++ l.drop (k + 1) := by rw [← h2]
    _ = l := List.take_append_drop _ l

/-- Distance change when the two middle blocks are replaced. -/
theorem route_distance_resegment (dm : DistanceMatrix) (depot : ℕ)
    (A B C D X Y : List ℕ) (hB : B ≠ []) (hC : C ≠ []) (hX : X ≠ []) (hY : Y ≠ []) :
    route_distance (A ++ (X ++ Y) ++ D) depot dm =
      route_distance (A ++ B ++ C ++ D) depot dm +
      (dm.get (lastN (depot :: A)) (headN X) + pathDist dm X +
        dm.get (lastN X) (headN Y) + pathDist dm Y +
        dm.get (lastN Y) (headN (D ++ [depot]))) -
      (dm.get (lastN (depot :: A)) (headN B) + pathDist dm B +
        dm.get (lastN B) (headN C) + pathDist dm C +
        dm.get (lastN C) (headN (D ++ [depot]))) := by
  rw [show A ++ (X ++ Y) ++ D = A ++ X ++ Y ++ D by simp [List.append_assoc]]
  rw [route_distance_glue4 dm depot A X Y D hX hY,
    route_distance_glue4 dm depot A B C D hB hC]
  ring

/-- Exactness of every 3-opt pattern under a symmetric matrix: the
reconstructed route costs the original plus the pattern's delta. -/
theorem threeOptPattern_dist (route : List ℕ) (depot : ℕ) (dm : DistanceMatrix)
    (hsym : IsSymm dm) (hroute : ∀ x ∈ route, x < dm.size) (i j k p : ℕ)
    (hij : i < j) (hjk : j < k) (hk : k < route.length) (hp1 : 1 ≤ p) (hp7 : p ≤ 7) :
    route_distance (threeOptPattern route i j k p) depot dm =
      route_distance route depot dm + threeOptDelta route depot dm i j k p := by
  have hBne : (route.take (j + 1)).drop (i + 1) ≠ [] :=
    mid_ne_nil route (i + 1) (j + 1) (by omega) (by omega)
  have hCne : (route.take (k + 1)).drop (j + 1) ≠ [] :=
    mid_ne_nil route (j + 1) (k + 1) (by omega) (by omega)
  have hBRne : ((route.take (j + 1)).drop (i + 1)).reverse ≠ [] := by
    intro hcon
    exact hBne (by simpa using hcon)
  have hCRne : ((route.take (k + 1)).drop (j + 1)).reverse ≠ [] := by
    intro hcon
    exact hCne (by simpa using hcon)
  have hlA : lastN (depot :: route.take (i + 1)) = route.getD i 0 := by
    rw [lastN_prefixA route depot (i + 1) (by omega), if_neg (by omega : ¬i + 1 = 0)]
    simp
  have hhB : headN ((route.take (j + 1)).drop (i + 1)) = route.getD (i + 1) 0 :=
    headN_mid route (i + 1) (j + 1) (by omega) (by omega)
  have hlB : lastN ((route.take (j + 1)).drop (i + 1)) = route.getD j 0 :=
    lastN_mid route (i + 1) (j + 1) (by omega) (by omega)
  have hhC : headN ((route.take (k + 1)).drop (j + 1)) = route.getD (j + 1) 0 :=
    headN_mid route (j + 1) (k + 1) (by omega) (by omega)
  have hlC : lastN ((route.take (k + 1)).drop (j + 1)) = route.getD k 0 :=
    lastN_mid route (j + 1) (k + 1) (by omega) (by omega)
  have hpdB : pathDist dm ((route.take (j + 1)).drop (i + 1)).reverse =
      pathDist dm ((route.take (j + 1)).drop (i + 1)) :=
    pathDist_reverse dm hsym _ (fun x hx =>
      hroute x (List.mem_of_mem_take (List.mem_of_mem_drop hx)))
  have hpdC : pathDist dm ((route.take (k + 1)).drop (j + 1)).reverse =
      pathDist dm ((route.take (k + 1)).drop (j + 1)) :=
    pathDist_reverse dm hsym _ (fun x hx =>
      hroute x (List.mem_of_mem_take (List.mem_of_mem_drop hx)))
  interval_cases p
  · simp only [threeOptPattern, threeOptDelta]
    rw [route_distance_resegment dm depot (route.take (i + 1))
      ((route.take (j + 1)).drop (i + 1)) ((route.take (k + 1)).drop (j + 1))
      (route.drop (k + 1)) ((route.take (j + 1)).drop (i + 1))
      ((route.take (k + 1)).drop (j + 1)).reverse hBne hCne hBne hCRne]
    rw [four_split route i j k hij hjk hk]
    simp only [headN_reverse, lastN_reverse, hpdB, hpdC, hlA, hhB,
      hlB, hhC, hlC, headN_dropD route depot (k + 1)]
    ring
  · simp only [threeOptPattern, threeOptDelta]
    rw [route_distance_resegment dm depot (route.take (i + 1))
      ((route.take (j + 1)).drop (i + 1)) ((route.take (k + 1)).drop (j + 1))
      (route.drop (k + 1)) ((route.take (j + 1)).drop (i + 1)).reverse
      ((route.take (k + 1)).drop (j + 1)) hBne hCne hBRne hCne]
    rw [four_split route i j k hij hjk hk]
    simp only [headN_reverse, lastN_reverse, hpdB, hpdC, hlA, hhB,
      hlB, hhC, hlC, headN_dropD route depot (k + 1)]
    ring
  · simp only [threeOptPattern, threeOptDelta]
    rw [route_distance_resegment dm depot (route.take (i + 1))
      ((route.take (j + 1)).drop (i + 1)) ((route.take (k + 1)).drop (j + 1))
      (route.drop (k + 1)) ((route.take (j + 1)).drop (i + 1)).reverse
      ((route.take (k + 1)).drop (j + 1)).reverse hBne hCne hBRne hCRne]
    rw [four_split route i j k hij hjk hk]
    simp only [headN_reverse, lastN_reverse, hpdB, hpdC, hlA, hhB,
      hlB, hhC, hlC, headN_dropD route depot (k + 1)]
    ring
  · simp only [threeOptPattern, threeOptDelta]
    rw [route_distance_resegment dm depot (route.take (i + 1))
      ((route.take (j + 1)).drop (i + 1)) ((route.take (k + 1)).drop (j + 1))
      (route.drop (k + 1)) ((route.take (k + 1)).drop (j + 1))
      ((route.take (j + 1)).drop (i + 1)) hBne hCne hCne hBne]
    rw [four_split route i j k hij hjk hk]
    simp only [headN_reverse, lastN_reverse, hpdB, hpdC, hlA, hhB,
      hlB, hhC, hlC, headN_dropD route depot (k + 1)]
    ring
  · simp only [threeOptPattern, threeOptDelta]
    rw [route_distance_resegment dm depot (route.take (i + 1))
      ((route.take (j + 1)).drop (i + 1)) ((route.take (k + 1)).drop (j + 1))
      (route.drop (k + 1)) ((route.take (k + 1)).drop (j + 1))
      ((route.take (j + 1)).drop (i + 1)).reverse hBne hCne hCne hBRne]
    rw [four_split route i j k hij hjk hk]
    simp only [headN_reverse, lastN_reverse, hpdB, hpdC, hlA, hhB,
      hlB, hhC, hlC, headN_dropD route depot (k + 1)]
    ring
  · simp only [threeOptPattern, threeOptDelta]
    rw [route_distance_resegment dm depot (route.take (i + 1))
      ((route.take (j + 1)).drop (i + 1)) ((route.take (k + 1)).drop (j + 1))
      (route.drop (k + 1)) ((route.take (k + 1)).drop (j + 1)).reverse
      ((route.take (j + 1)).drop (i + 1)) hBne hCne hCRne hBne]
    rw [four_split route i j k hij hjk hk]
    simp only [headN_reverse, lastN_reverse, hpdB, hpdC, hlA, hhB,
      hlB, hhC, hlC, headN_dropD route depot (k + 1)]
    ring
  · simp only [threeOptPattern, threeOptDelta]
    rw [route_distance_resegment dm depot (route.take (i + 1))
      ((route.take (j + 1)).drop (i + 1)) ((route.take (k + 1)).drop (j + 1))
      (route.drop (k + 1)) ((route.take (k + 1)).drop (j + 1)).reverse
      ((route.take (j + 1)).drop (i + 1)).reverse hBne hCne hCRne hBRne]
    rw [four_split route i j k hij hjk hk]
    simp only [headN_reverse, lastN_reverse, hpdB, hpdC, hlA, hhB,
      hlB, hhC, hlC, headN_dropD route depot (k + 1)]
    ring

/-- A 3-opt reconstruction introduces no new nodes. -/
theorem mem_threeOptPattern (route : List ℕ) (i j k p x : ℕ) (hp1 : 1 ≤ p)
    (hp7 : p ≤ 7) (hx : x ∈ threeOptPattern route i j k p) : x ∈ route := by
  interval_cases p <;>
    (simp only [threeOptPattern, List.mem_append, List.mem_reverse] at hx
     rcases hx with (hx | (hx | hx)) | hx
     · exact List.mem_of_mem_take hx
     · exact List.mem_of_mem_take (List.mem_of_mem_drop hx)
     · exact List.mem_of_mem_take (List.mem_of_mem_drop hx)
     · exact List.mem_of_mem_drop hx)

/-- A successful `try_three_opt_move` strictly improves the route distance
(symmetric matrix, in-range cuts). -/
theorem try_three_opt_move_mono (route : List ℕ) (depot : ℕ) (dm : DistanceMatrix)
    (hsym : IsSymm dm) (hroute : ∀ x ∈ route, x < dm.size) (i j k : ℕ)
    (hij : i < j) (hjk : j < k) (hk : k < route.length) :
    ∀ r', try_three_opt_move route depot dm i j k = some r' →
      route_distance r' depot dm ≤ route_distance route depot dm ∧
      ∀ x ∈ r', x ∈ route := by
  intro r' h
  simp only [try_three_opt_move] at h
  rcases selFold_spec [(threeOptDelta route depot dm i j k 1, 1),
      (threeOptDelta route depot dm i j k 2, 2),
      (threeOptDelta route depot dm i j k 3, 3),
      (threeOptDelta route depot dm i j k 4, 4),
      (threeOptDelta route depot dm i j k 5, 5),
      (threeOptDelta route depot dm i j k 6, 6),
      (threeOptDelta route depot dm i j k 7, 7)] with hzero | hmem
  · rw [hzero] at h
    exact absurd h (by simp)
  · obtain ⟨hmemL, hneg⟩ := hmem
    have hne : ¬(selFold [(threeOptDelta route depot dm i j k 1, 1),
        (threeOptDelta route depot dm i j k 2, 2),
        (threeOptDelta route depot dm i j k 3, 3),
        (threeOptDelta route depot dm i j k 4, 4),
        (threeOptDelta route depot dm i j k 5, 5),
        (threeOptDelta route depot dm i j k 6, 6),
        (threeOptDelta route depot dm i j k 7, 7)]).2 = 0 := by
      simp only [List.mem_cons, List.not_mem_nil, or_false] at hmemL
      rcases hmemL with he | he | he | he | he | he | he <;> rw [he] <;> simp
    rw [if_neg hne] at h
    have hr' : r' = threeOptPattern route i j k
        (selFold [(threeOptDelta route depot dm i j k 1, 1),
        (threeOptDelta route depot dm i j k 2, 2),
        (threeOptDelta route depot dm i j k 3, 3),
        (threeOptDelta route depot dm i j k 4, 4),
        (threeOptDelta route depot dm i j k 5, 5),
        (threeOptDelta route depot dm i j k 6, 6),
        (threeOptDelta route depot dm i j k 7, 7)]).2 := (Option.some.inj h).symm
    have heps := eps_pos
    simp only [List.mem_cons, List.not_mem_nil, or_false] at hmemL
    rcases hmemL with he | he | he | he | he | he | he <;>
      (rw [hr', he]
       rw [he] at hneg
       constructor
       · rw [threeOptPattern_dist route depot dm hsym hroute i j k _ hij hjk hk
           (by norm_num) (by norm_num)]
         simp only at hneg
         linarith
       · intro x hx
         exact mem_threeOptPattern route i j k _ x (by norm_num) (by norm_num) hx)

/-- The first-improvement triple scan of `three_opt_improve` (`break 'outer`):
first improving move in lexicographic `(i, j, k)` order, if any. -/
def threeOptScan (current : List ℕ) (depot : ℕ) (dm : DistanceMatrix) :
    Option (List ℕ) :=
  let n := current.length
  (List.range (n - 2)).foldl (fun acc i =>
    (List.range' (i + 1) (n - 1 - (i + 1))).foldl (fun acc j =>
      (List.range' (j + 1) (n - (j + 1))).foldl (fun acc k =>
        match acc with
        | some r => some r
        | none => try_three_opt_move current depot dm i j k) acc) acc) none

/-- Any route produced by the scan improves the distance and introduces no
new nodes. -/
theorem threeOptScan_mono (current : List ℕ) (depot : ℕ) (dm : DistanceMatrix)
    (hsym : IsSymm dm) (hcur : ∀ x ∈ current, x < dm.size) :
    ∀ r, threeOptScan current depot dm = some r →
      route_distance r depot dm ≤ route_distance current depot dm ∧
      ∀ x ∈ r, x ∈ current := by
  unfold threeOptScan
  refine foldl_preserve _ (fun acc => ∀ r, acc = some r →
    route_distance r depot dm ≤ route_distance current depot dm ∧
    ∀ x ∈ r, x ∈ current) _ ?_ none
    (by intro r hcon; exact absurd hcon (by simp))
  intro b i hi hb
  rw [List.mem_range] at hi
  refine foldl_preserve _ (fun acc => ∀ r, acc = some r →
    route_distance r depot dm ≤ route_distance current depot dm ∧
    ∀ x ∈ r, x ∈ current) _ ?_ b hb
  intro b2 j hj hb2
  rw [List.mem_range'_1] at hj
  refine foldl_preserve _ (fun acc => ∀ r, acc = some r →
    route_distance r depot dm ≤ route_distance current depot dm ∧
    ∀ x ∈ r, x ∈ current) _ ?_ b2 hb2
  intro b3 kk hkk hb3
  rw [List.mem_range'_1] at hkk
  intro r hr
  cases b3 with
  | some rr =>
    exact hb3 r hr
  | none =>
    exact try_three_opt_move_mono current depot dm hsym hcur i j kk (by omega)
      (by omega) (by omega) r hr

/-- The `while improved` loop of `three_opt_improve`, with fuel. -/
def threeOptLoop (depot : ℕ) (dm : DistanceMatrix) : ℕ → List ℕ → List ℕ
  | 0, current => current
  | fuel + 1, current =>
    match threeOptScan current depot dm with
    | some r => threeOptLoop depot dm fuel r
    | none => current

/-- `three_opt_improve` from `src/local_search/three_opt.rs`. -/
def three_opt_improve (fuel : ℕ) (route : List ℕ) (depot : ℕ)
    (dm : DistanceMatrix) : List ℕ × ℚ :=
  if route.length < 4 then (route, route_distance route depot dm)
  else
    let final := threeOptLoop depot dm fuel route
    (final, route_distance final depot dm)

/-- The fueled 3-opt loop never increases the route distance. -/
theorem threeOptLoop_mono (depot : ℕ) (dm : DistanceMatrix) (hsym : IsSymm dm)
    (fuel : ℕ) :
    ∀ current, (∀ x ∈ current, x < dm.size) →
      route_distance (threeOptLoop depot dm fuel current) depot dm ≤
      route_distance current depot dm := by
  induction fuel with
  | zero => intro current _; exact le_refl _
  | succ n ih =>
    intro current hcur
    cases hscan : threeOptScan current depot dm with
    | none =>
      rw [show threeOptLoop depot dm (n + 1) current = current by
        simp only [threeOptLoop, hscan]]
    | some r =>
      rw [show threeOptLoop depot dm (n + 1) current = threeOptLoop depot dm n r by
        simp only [threeOptLoop, hscan]]
      obtain ⟨hle, hmem⟩ := threeOptScan_mono current depot dm hsym hcur r hscan
      exact le_trans (ih r (fun x hx => hcur x (hmem x hx))) hle

/-- `three_opt_improve` never worsens the route distance (symmetric matrix). -/
theorem three_opt_improve_mono (fuel : ℕ) (route : List ℕ) (depot : ℕ)
    (dm : DistanceMatrix) (hsym : IsSymm dm) (hroute : ∀ x ∈ route, x < dm.size) :
    (three_opt_improve fuel route depot dm).2 ≤
      route_distance route depot dm + eps := by
  have heps := eps_pos
  by_cases hn : route.length < 4
  · rw [show three_opt_improve fuel route depot dm =
      (route, route_distance route depot dm) by
      simp only [three_opt_improve]; rw [if_pos hn]]
    simp only
    linarith
  · rw [show three_opt_improve fuel route depot dm =
      (threeOptLoop depot dm fuel route,
        route_distance (threeOptLoop depot dm fuel route) depot dm) by
      simp only [three_opt_improve]; rw [if_neg hn]]
    simp only
    have := threeOptLoop_mono depot dm hsym fuel route hroute
    linarith

/-- Asymmetric 3-location matrix on which the 2-opt delta formula is wrong:
`d(1,2) = 0` but `d(2,1) = 100`. -/
def C4dmA : DistanceMatrix := ⟨[0, 3, 1, 3, 0, 0, 2, 100, 0], 3⟩

theorem C4_two_opt_eval : two_opt_improve 2 [1, 2] 0 C4dmA = ([2, 1], 104) := by
  norm_num [two_opt_improve, twoOptLoop, twoOptPass, two_opt_delta, reverseSegment,
    route_distance, pathDist, DistanceMatrix.get, C4dmA, eps, List.range_succ,
    List.range_zero, List.range', List.getD, List.foldl]

/-- Symmetric 3-location matrix with a nonzero depot self-distance
`d(0,0) = 100`. -/
def C4dmB : DistanceMatrix := ⟨[100, 1, 2, 1, 0, 1, 2, 1, 0], 3⟩

/-- Depot and two unit-demand customers for the relocate counterexample. -/
def C4custB : List Customer :=
  [Customer.depot 0 0, Customer.new 1 0 0 1 0, Customer.new 2 0 0 1 0]

/-- Cache-consistent input: one route `[1, 2]` (distance 4) and one empty
route. -/
def C4solB : Solution :=
  ⟨[⟨0, [⟨1, 0, 0, 0⟩, ⟨2, 0, 0, 0⟩], 4, 0, 0⟩, Route.new 1], [], 4⟩

theorem C4_relocate_eval :
    (relocate_improve 2 C4solB C4custB C4dmB (Vehicle.new 0 100)).total_distance
      = 6 := by
  norm_num [relocate_improve, relocateLoop, find_best_relocate, relocateInner,
    removal_cost, insertion_cost, applyRelocate, routeLoad, rebuild_solution,
    build_route, buildStep, Route.new, Route.customer_ids, Solution.emptySol,
    Solution.add_route, Solution.add_unassigned, Solution.set_total_cost,
    Solution.total_distance, Solution.num_routes, C4solB, C4custB, C4dmB,
    Customer.new, Customer.depot, dfltCustomer, Vehicle.new, DistanceMatrix.get,
    eps, Route.push_visit, Route.set_total_distance, Route.set_total_duration,
    List.range_succ, List.range_zero, List.getD, List.foldl]

/-- Two singleton routes (customers 1 and 2 of `C4custB`, all reads in
bounds) whose cached distances are wrong (−1000 each). -/
def C4solC : Solution :=
  ⟨[⟨0, [⟨1, 0, 0, 1⟩], -1000, 0, 1⟩, ⟨1, [⟨2, 0, 0, 1⟩], -1000, 0, 1⟩], [], -2000⟩

theorem C4_exchange_eval :
    (exchange_improve 1 C4solC C4custB (DistanceMatrix.new 3)
      (Vehicle.new 0 100)).total_distance = 0 := by
  norm_num [exchange_improve, exchangeLoop, exchangePass, exchangePairStep,
    find_best_exchange, exchangeInner, exchangeDelta, routeLoad,
    rebuild_solution, build_route, buildStep, Route.new, Route.customer_ids,
    Solution.emptySol, Solution.add_route, Solution.add_unassigned,
    Solution.set_total_cost, Solution.total_distance, Solution.num_routes,
    C4solC, C4custB, dfltCustomer, Customer.new, Customer.depot, Vehicle.new,
    DistanceMatrix.new, DistanceMatrix.get, getD_replicate_zero, eps,
    Route.push_visit, Route.set_total_distance, Route.set_total_duration,
    List.range_succ, List.range_zero, List.getD, List.foldl]

/-- C4: the spec promises monotonicity of every local-search operator for
every matrix, including asymmetric ones. Three counterexamples: (a) 2-opt on
an asymmetric matrix increases a route's distance from 5 to 104; (b) relocate
under a symmetric, cache-consistent input with `d(0,0) = 100` increases the
total from 4 to 6; (c) exchange on stale cached route distances reports an
increase from −2000 to the true 0. -/
theorem C4_counterexample :
    ((two_opt_improve 2 [1, 2] 0 C4dmA).2 >
        route_distance [1, 2] 0 C4dmA + eps) ∧
    (IsSymm C4dmB ∧
      (∀ r ∈ C4solB.routes, r.total_distance =
        route_distance r.customer_ids (Vehicle.new 0 100).depot_id C4dmB) ∧
      (relocate_improve 2 C4solB C4custB C4dmB
        (Vehicle.new 0 100)).total_distance > C4solB.total_distance + eps) ∧
    (IsSymm (DistanceMatrix.new 3) ∧
      (DistanceMatrix.new 3).get 0 0 = 0 ∧
      (exchange_improve 1 C4solC C4custB (DistanceMatrix.new 3)
        (Vehicle.new 0 100)).total_distance > C4solC.total_distance + eps) := by
  refine ⟨?_, ⟨?_, ?_, ?_⟩, ⟨?_, ?_, ?_⟩⟩
  · rw [C4_two_opt_eval]
    norm_num [route_distance, pathDist, DistanceMatrix.get, C4dmA, eps, List.getD]
  · intro a b ha hb
    have ha' : a < 3 := ha
    have hb' : b < 3 := hb
    interval_cases a <;> interval_cases b <;> rfl
  · intro r hr
    simp only [C4solB, List.mem_cons, List.not_mem_nil, or_false] at hr
    rcases hr with rfl | rfl
    · norm_num [Route.customer_ids, route_distance, pathDist, DistanceMatrix.get,
        C4dmB, Vehicle.new, List.getD]
    · rfl
  · rw [C4_relocate_eval]
    norm_num [C4solB, Solution.total_distance, Route.new, eps]
  · intro a b ha hb
    show (List.replicate (3 * 3) (0 : ℚ)).getD (a * 3 + b) 0 =
      (List.replicate (3 * 3) (0 : ℚ)).getD (b * 3 + a) 0
    rw [getD_replicate_zero, getD_replicate_zero]
  · simp [DistanceMatrix.get, DistanceMatrix.new, getD_replicate_zero]
  · rw [C4_exchange_eval]
    norm_num [C4solC, Solution.total_distance, eps]

/-- C4 (amended): every local-search operator is non-worsening once the
counterexamples' failure modes are excluded: the matrix is symmetric on its
in-bounds entries and the route's ids are in bounds (2-opt and 3-opt reverse
segments), the depot self-distance is zero (relocate moves through empty or
singleton routes), and the input solution's cached per-route distances match
their customer sequences (relocate and exchange read and rebuild caches).
Or-opt needs none of these. -/
theorem C4_local_search_monotone (fuel : ℕ) (route : List ℕ) (depot : ℕ)
    (dm : DistanceMatrix) (solution : Solution) (customers : List Customer)
    (vehicle : Vehicle) (hsym : IsSymm dm) (hroute : ∀ x ∈ route, x < dm.size)
    (hdiag : dm.get vehicle.depot_id vehicle.depot_id = 0)
    (hcache : ∀ r ∈ solution.routes, r.total_distance =
      route_distance r.customer_ids vehicle.depot_id dm) :
    (two_opt_improve fuel route depot dm).2 ≤
      route_distance route depot dm + eps ∧
    (or_opt_improve fuel route depot dm).2 ≤
      route_distance route depot dm + eps ∧
    (three_opt_improve fuel route depot dm).2 ≤
      route_distance route depot dm + eps ∧
    (relocate_improve fuel solution customers dm vehicle).total_distance ≤
      solution.total_distance + eps ∧
    (exchange_improve fuel solution customers dm vehicle).total_distance ≤
      solution.total_distance + eps :=
  ⟨two_opt_improve_mono fuel route depot dm hsym hroute,
   or_opt_improve_mono fuel route depot dm,
   three_opt_improve_mono fuel route depot dm hsym hroute,
   relocate_improve_mono fuel solution customers dm vehicle hdiag hcache,
   exchange_improve_mono fuel solution customers dm vehicle hcache⟩

/-- Witness for C4 at a concrete input: the all-zero 2×2 matrix, route `[1]`,
the empty solution. -/
theorem C4_local_search_monotone_witness :
    (IsSymm (DistanceMatrix.new 2) ∧ (∀ x ∈ [1], x < (DistanceMatrix.new 2).size) ∧
      (DistanceMatrix.new 2).get (Vehicle.new 0 100).depot_id
        (Vehicle.new 0 100).depot_id = 0 ∧
      (∀ r ∈ Solution.emptySol.routes, r.total_distance =
        route_distance r.customer_ids (Vehicle.new 0 100).depot_id
          (DistanceMatrix.new 2))) ∧
    ((two_opt_improve 1 [1] 0 (DistanceMatrix.new 2)).2 ≤
      route_distance [1] 0 (DistanceMatrix.new 2) + eps ∧
    (or_opt_improve 1 [1] 0 (DistanceMatrix.new 2)).2 ≤
      route_distance [1] 0 (DistanceMatrix.new 2) + eps ∧
    (three_opt_improve 1 [1] 0 (DistanceMatrix.new 2)).2 ≤
      route_distance [1] 0 (DistanceMatrix.new 2) + eps ∧
    (relocate_improve 1 Solution.emptySol [] (DistanceMatrix.new 2)
      (Vehicle.new 0 100)).total_distance ≤
      Solution.emptySol.total_distance + eps ∧
    (exchange_improve 1 Solution.emptySol [] (DistanceMatrix.new 2)
      (Vehicle.new 0 100)).total_distance ≤
      Solution.emptySol.total_distance + eps) := by
  have h1 : IsSymm (DistanceMatrix.new 2) := by
    intro a b ha hb
    show (List.replicate (2 * 2) (0 : ℚ)).getD (a * 2 + b) 0 =
      (List.replicate (2 * 2) (0 : ℚ)).getD (b * 2 + a) 0
    rw [getD_replicate_zero, getD_replicate_zero]
  have h2 : ∀ x ∈ [1], x < (DistanceMatrix.new 2).size := by
    intro x hx
    simp only [List.mem_singleton] at hx
    subst hx
    show (1 : ℕ) < 2
    norm_num
  have h3 : (DistanceMatrix.new 2).get (Vehicle.new 0 100).depot_id
      (Vehicle.new 0 100).depot_id = 0 := by
    simp [DistanceMatrix.get, DistanceMatrix.new, Vehicle.new, getD_replicate_zero]
  have h4 : ∀ r ∈ Solution.emptySol.routes, r.total_distance =
      route_distance r.customer_ids (Vehicle.new 0 100).depot_id
        (DistanceMatrix.new 2) := by
    intro r hr
    exact absurd hr (by simp [Solution.emptySol])
  exact ⟨⟨h1, h2, h3, h4⟩, C4_local_search_monotone 1 [1] 0 (DistanceMatrix.new 2)
    Solution.emptySol [] (Vehicle.new 0 100) h1 h2 h3 h4⟩

/- ### Customer conservation of the local-search operators -/

/-- Reversing a segment preserves the multiset of nodes. -/
theorem reverseSegment_multiset (l : List ℕ) (i j : ℕ) (hij : i ≤ j)
    (hj : j < l.length) :
    ((reverseSegment l i j : List ℕ) : Multiset ℕ) = (l : Multiset ℕ) := by
  apply Multiset.coe_eq_coe.mpr
  have h1 : List.Perm (reverseSegment l i j)
      (l.take i ++ (l.take (j + 1)).drop i ++ l.drop (j + 1)) :=
    List.Perm.append (List.Perm.append (List.Perm.refl _)
      (List.reverse_perm _)) (List.Perm.refl _)
  rw [take_append_seg_drop l i j hij hj] at h1
  exact h1

/-- One 2-opt pass preserves the node multiset and the length. -/
theorem twoOptPass_conserve (depot : ℕ) (dm : DistanceMatrix) (cur0 : List ℕ) :
    ((twoOptPass depot dm cur0).1 : Multiset ℕ) = (cur0 : Multiset ℕ) ∧
      (twoOptPass depot dm cur0).1.length = cur0.length := by
  unfold twoOptPass
  refine foldl_preserve _
    (fun st => (st.1 : Multiset ℕ) = (cur0 : Multiset ℕ) ∧ st.1.length = cur0.length)
    (List.range (cur0.length - 1)) ?_ (cur0, false) ⟨rfl, rfl⟩
  intro st i hi hst
  refine foldl_preserve _
    (fun st2 => (st2.1 : Multiset ℕ) = (cur0 : Multiset ℕ) ∧ st2.1.length = cur0.length)
    (List.range' (i + 1) (cur0.length - 1 - i)) ?_ st hst
  intro st2 j hj hst2
  simp only
  split
  · next hdelta =>
    have hi' : i < cur0.length - 1 := List.mem_range.mp hi
    have hj' := List.mem_range'_1.mp hj
    have hjlen : j < st2.1.length := by
      rw [hst2.2]
      omega
    constructor
    · rw [reverseSegment_multiset st2.1 i j (by omega) hjlen]
      exact hst2.1
    · rw [length_reverseSegment st2.1 i j (by omega) hjlen]
      exact hst2.2
  · exact hst2

/-- The fueled 2-opt loop preserves the node multiset. -/
theorem twoOptLoop_conserve (depot : ℕ) (dm : DistanceMatrix) (fuel : ℕ) :
    ∀ cur, ((twoOptLoop depot dm fuel cur : List ℕ) : Multiset ℕ) = (cur : Multiset ℕ) := by
  induction fuel with
  | zero => intro cur; rfl
  | succ n ih =>
    intro cur
    show ((if (twoOptPass depot dm cur).2 then
      twoOptLoop depot dm n (twoOptPass depot dm cur).1
      else (twoOptPass depot dm cur).1 : List ℕ) : Multiset ℕ) = _
    split
    · rw [ih (twoOptPass depot dm cur).1, (twoOptPass_conserve depot dm cur).1]
    · exact (twoOptPass_conserve depot dm cur).1

/-- `two_opt_improve` preserves the node multiset. -/
theorem two_opt_improve_conserve (fuel : ℕ) (route : List ℕ) (depot : ℕ)
    (dm : DistanceMatrix) :
    (((two_opt_improve fuel route depot dm).1 : List ℕ) : Multiset ℕ) =
      (route : Multiset ℕ) := by
  unfold two_opt_improve
  split
  · rfl
  · exact twoOptLoop_conserve depot dm fuel route

/-- An or-opt segment move preserves the node multiset, for any positions. -/
theorem applyOrOptMove_multiset (route : List ℕ) (seg_len frm tpos : ℕ) :
    ((applyOrOptMove route seg_len frm tpos : List ℕ) : Multiset ℕ) =
      (route : Multiset ℕ) := by
  apply Multiset.coe_eq_coe.mpr
  simp only [applyOrOptMove]
  have hcomm3 : ∀ (X S D : List ℕ), List.Perm (X ++ S ++ D) (S ++ (X ++ D)) := by
    intro X S D
    have h1 : List.Perm (X ++ S ++ D) (S ++ X ++ D) :=
      List.Perm.append List.perm_append_comm (List.Perm.refl D)
    have h2 : S ++ X ++ D = S ++ (X ++ D) := List.append_assoc S X D
    exact h2 ▸ h1
  have hswap : ∀ (S A B : List ℕ), List.Perm (S ++ (A ++ B)) (A ++ (S ++ B)) := by
    intro S A B
    have e1 : List.Perm (S ++ (A ++ B)) (A ++ B ++ S) := List.perm_append_comm
    have e2 : A ++ B ++ S = A ++ (B ++ S) := List.append_assoc A B S
    exact (e2 ▸ e1).trans (List.Perm.append_left A List.perm_append_comm)
  have h2 := hcomm3
    ((route.take frm ++ route.drop (frm + seg_len)).take
      (if tpos > frm then tpos - seg_len else tpos))
    ((route.drop frm).take seg_len)
    ((route.take frm ++ route.drop (frm + seg_len)).drop
      (if tpos > frm then tpos - seg_len else tpos))
  rw [List.take_append_drop] at h2
  have h5 := hswap ((route.drop frm).take seg_len) (route.take frm)
    (route.drop (frm + seg_len))
  have h6 : (route.drop frm).take seg_len ++ route.drop (frm + seg_len) =
      route.drop frm := by
    rw [show route.drop (frm + seg_len) = (route.drop frm).drop seg_len by
      rw [List.drop_drop, Nat.add_comm]]
    exact List.take_append_drop _ _
  rw [h6, List.take_append_drop] at h5
  exact h2.trans h5

/-- `try_or_opt_pass` preserves the node multiset. -/
theorem try_or_opt_pass_conserve (route : List ℕ) (depot : ℕ) (dm : DistanceMatrix)
    (seg_len : ℕ) :
    (((try_or_opt_pass route depot dm seg_len).1 : List ℕ) : Multiset ℕ) =
      (route : Multiset ℕ) := by
  unfold try_or_opt_pass
  split
  · rfl
  · split
    · exact applyOrOptMove_multiset route seg_len _ _
    · rfl

/-- The fueled or-opt loop preserves the node multiset. -/
theorem orOptLoop_conserve (depot : ℕ) (dm : DistanceMatrix) (fuel : ℕ) :
    ∀ cur, ((orOptLoop depot dm fuel cur : List ℕ) : Multiset ℕ) = (cur : Multiset ℕ) := by
  induction fuel with
  | zero => intro cur; rfl
  | succ n ih =>
    intro cur
    have hfold : ∀ (sls : List ℕ) (st : List ℕ × Bool),
        (((sls.foldl (fun st2 seg_len =>
          ((try_or_opt_pass st2.1 depot dm seg_len).1,
            st2.2 || (try_or_opt_pass st2.1 depot dm seg_len).2)) st).1 : List ℕ) :
          Multiset ℕ) = (st.1 : Multiset ℕ) := by
      intro sls
      induction sls with
      | nil => intro st; rfl
      | cons a t iht =>
        intro st
        rw [List.foldl_cons, iht]
        exact try_or_opt_pass_conserve st.1 depot dm a
    show ((if _ then orOptLoop depot dm n _ else _ : List ℕ) : Multiset ℕ) = _
    split
    · rw [ih, hfold]
    · rw [hfold]

/-- `or_opt_improve` preserves the node multiset. -/
theorem or_opt_improve_conserve (fuel : ℕ) (route : List ℕ) (depot : ℕ)
    (dm : DistanceMatrix) :
    (((or_opt_improve fuel route depot dm).1 : List ℕ) : Multiset ℕ) =
      (route : Multiset ℕ) := by
  unfold or_opt_improve
  split
  · rfl
  · exact orOptLoop_conserve depot dm fuel route

/-- Every 3-opt reconstruction preserves the node multiset. -/
theorem threeOptPattern_multiset (route : List ℕ) (i j k p : ℕ) (hij : i < j)
    (hjk : j < k) (hk : k < route.length) (hp1 : 1 ≤ p) (hp7 : p ≤ 7) :
    ((threeOptPattern route i j k p : List ℕ) : Multiset ℕ) =
      (route : Multiset ℕ) := by
  apply Multiset.coe_eq_coe.mpr
  have hfour := four_split route i j k hij hjk hk
  have heq : route.take (i + 1) ++
      ((route.take (j + 1)).drop (i + 1) ++ (route.take (k + 1)).drop (j + 1)) ++
      route.drop (k + 1) = route := by
    rw [show route.take (i + 1) ++
      ((route.take (j + 1)).drop (i + 1) ++ (route.take (k + 1)).drop (j + 1)) =
      route.take (i + 1) ++ (route.take (j + 1)).drop (i + 1) ++
      (route.take (k + 1)).drop (j + 1) from
      (List.append_assoc _ _ _).symm]
    exact hfour
  interval_cases p
  · simp only [threeOptPattern]
    have hperm := List.Perm.append (List.Perm.append
      (List.Perm.refl (route.take (i + 1)))
      (List.Perm.append (List.Perm.refl ((route.take (j + 1)).drop (i + 1))) (List.reverse_perm ((route.take (k + 1)).drop (j + 1)))))
      (List.Perm.refl (route.drop (k + 1)))
    rw [heq] at hperm
    exact hperm
  · simp only [threeOptPattern]
    have hperm := List.Perm.append (List.Perm.append
      (List.Perm.refl (route.take (i + 1)))
      (List.Perm.append (List.reverse_perm ((route.take (j + 1)).drop (i + 1))) (List.Perm.refl ((route.take (k + 1)).drop (j + 1)))))
      (List.Perm.refl (route.drop (k + 1)))
    rw [heq] at hperm
    exact hperm
  · simp only [threeOptPattern]
    have hperm := List.Perm.append (List.Perm.append
      (List.Perm.refl (route.take (i + 1)))
      (List.Perm.append (List.reverse_perm ((route.take (j + 1)).drop (i + 1))) (List.reverse_perm ((route.take (k + 1)).drop (j + 1)))))
      (List.Perm.refl (route.drop (k + 1)))
    rw [heq] at hperm
    exact hperm
  · simp only [threeOptPattern]
    have hperm := List.Perm.append (List.Perm.append
      (List.Perm.refl (route.take (i + 1)))
      (@List.perm_append_comm ℕ ((route.take (k + 1)).drop (j + 1)) ((route.take (j + 1)).drop (i + 1))))
      (List.Perm.refl (route.drop (k + 1)))
    rw [heq] at hperm
    exact hperm
  · simp only [threeOptPattern]
    have hperm := List.Perm.append (List.Perm.append
      (List.Perm.refl (route.take (i + 1)))
      ((List.Perm.append (List.Perm.refl ((route.take (k + 1)).drop (j + 1))) (List.reverse_perm ((route.take (j + 1)).drop (i + 1)))).trans (@List.perm_append_comm ℕ ((route.take (k + 1)).drop (j + 1)) ((route.take (j + 1)).drop (i + 1)))))
      (List.Perm.refl (route.drop (k + 1)))
    rw [heq] at hperm
    exact hperm
  · simp only [threeOptPattern]
    have hperm := List.Perm.append (List.Perm.append
      (List.Perm.refl (route.take (i + 1)))
      ((List.Perm.append (List.reverse_perm ((route.take (k + 1)).drop (j + 1))) (List.Perm.refl ((route.take (j + 1)).drop (i + 1)))).trans (@List.perm_append_comm ℕ ((route.take (k + 1)).drop (j + 1)) ((route.take (j + 1)).drop (i + 1)))))
      (List.Perm.refl (route.drop (k + 1)))
    rw [heq] at hperm
    exact hperm
  · simp only [threeOptPattern]
    have hperm := List.Perm.append (List.Perm.append
      (List.Perm.refl (route.take (i + 1)))
      ((List.Perm.append (List.reverse_perm ((route.take (k + 1)).drop (j + 1))) (List.reverse_perm ((route.take (j + 1)).drop (i + 1)))).trans (@List.perm_append_comm ℕ ((route.take (k + 1)).drop (j + 1)) ((route.take (j + 1)).drop (i + 1)))))
      (List.Perm.refl (route.drop (k + 1)))
    rw [heq] at hperm
    exact hperm

/-- A successful `try_three_opt_move` preserves the node multiset. -/
theorem try_three_opt_move_multiset (route : List ℕ) (depot : ℕ)
    (dm : DistanceMatrix) (i j k : ℕ) (hij : i < j) (hjk : j < k)
    (hk : k < route.length) :
    ∀ r', try_three_opt_move route depot dm i j k = some r' →
      ((r' : List ℕ) : Multiset ℕ) = (route : Multiset ℕ) := by
  intro r' h
  simp only [try_three_opt_move] at h
  rcases selFold_spec [(threeOptDelta route depot dm i j k 1, 1),
      (threeOptDelta route depot dm i j k 2, 2),
      (threeOptDelta route depot dm i j k 3, 3),
      (threeOptDelta route depot dm i j k 4, 4),
      (threeOptDelta route depot dm i j k 5, 5),
      (threeOptDelta route depot dm i j k 6, 6),
      (threeOptDelta route depot dm i j k 7, 7)] with hzero | hmem
  · rw [hzero] at h
    exact absurd h (by simp)
  · obtain ⟨hmemL, hneg⟩ := hmem
    have hne : ¬(selFold [(threeOptDelta route depot dm i j k 1, 1),
        (threeOptDelta route depot dm i j k 2, 2),
        (threeOptDelta route depot dm i j k 3, 3),
        (threeOptDelta route depot dm i j k 4, 4),
        (threeOptDelta route depot dm i j k 5, 5),
        (threeOptDelta route depot dm i j k 6, 6),
        (threeOptDelta route depot dm i j k 7, 7)]).2 = 0 := by
      simp only [List.mem_cons, List.not_mem_nil, or_false] at hmemL
      rcases hmemL with he | he | he | he | he | he | he <;> rw [he] <;> simp
    rw [if_neg hne] at h
    have hr' : r' = threeOptPattern route i j k
        (selFold [(threeOptDelta route depot dm i j k 1, 1),
        (threeOptDelta route depot dm i j k 2, 2),
        (threeOptDelta route depot dm i j k 3, 3),
        (threeOptDelta route depot dm i j k 4, 4),
        (threeOptDelta route depot dm i j k 5, 5),
        (threeOptDelta route depot dm i j k 6, 6),
        (threeOptDelta route depot dm i j k 7, 7)]).2 := (Option.some.inj h).symm
    simp only [List.mem_cons, List.not_mem_nil, or_false] at hmemL
    rcases hmemL with he | he | he | he | he | he | he <;>
      (rw [hr', he]
       exact threeOptPattern_multiset route i j k _ hij hjk hk (by norm_num)
         (by norm_num))

/-- The 3-opt scan preserves the node multiset. -/
theorem threeOptScan_multiset (current : List ℕ) (depot : ℕ)
    (dm : DistanceMatrix) :
    ∀ r, threeOptScan current depot dm = some r →
      ((r : List ℕ) : Multiset ℕ) = (current : Multiset ℕ) := by
  unfold threeOptScan
  refine foldl_preserve _ (fun acc => ∀ r, acc = some r →
    ((r : List ℕ) : Multiset ℕ) = (current : Multiset ℕ)) _ ?_ none
    (by intro r hcon; exact absurd hcon (by simp))
  intro b i hi hb
  rw [List.mem_range] at hi
  refine foldl_preserve _ (fun acc => ∀ r, acc = some r →
    ((r : List ℕ) : Multiset ℕ) = (current : Multiset ℕ)) _ ?_ b hb
  intro b2 j hj hb2
  rw [List.mem_range'_1] at hj
  refine foldl_preserve _ (fun acc => ∀ r, acc = some r →
    ((r : List ℕ) : Multiset ℕ) = (current : Multiset ℕ)) _ ?_ b2 hb2
  intro b3 kk hkk hb3
  rw [List.mem_range'_1] at hkk
  intro r hr
  cases b3 with
  | some rr => exact hb3 r hr
  | none =>
    exact try_three_opt_move_multiset current depot dm i j kk (by omega)
      (by omega) (by omega) r hr

/-- The fueled 3-opt loop preserves the node multiset. -/
theorem threeOptLoop_conserve (depot : ℕ) (dm : DistanceMatrix) (fuel : ℕ) :
    ∀ current, ((threeOptLoop depot dm fuel current : List ℕ) : Multiset ℕ) =
      (current : Multiset ℕ) := by
  induction fuel with
  | zero => intro current; rfl
  | succ n ih =>
    intro current
    cases hscan : threeOptScan current depot dm with
    | none =>
      rw [show threeOptLoop depot dm (n + 1) current = current by
        simp only [threeOptLoop, hscan]]
    | some r =>
      rw [show threeOptLoop depot dm (n + 1) current = threeOptLoop depot dm n r by
        simp only [threeOptLoop, hscan]]
      rw [ih r, threeOptScan_multiset current depot dm r hscan]

/-- `three_opt_improve` preserves the node multiset. -/
theorem three_opt_improve_conserve (fuel : ℕ) (route : List ℕ) (depot : ℕ)
    (dm : DistanceMatrix) :
    (((three_opt_improve fuel route depot dm).1 : List ℕ) : Multiset ℕ) =
      (route : Multiset ℕ) := by
  unfold three_opt_improve
  split
  · rfl
  · exact threeOptLoop_conserve depot dm fuel route

/-- `servedM` of a cons. -/
theorem servedM_cons (r : List ℕ) (rs : List (List ℕ)) :
    servedM (r :: rs) = (r : Multiset ℕ) + servedM rs := by
  unfold servedM
  rw [List.flatten_cons, ← Multiset.coe_add]

/-- Replacing route `i` exchanges its contribution to the served multiset. -/
theorem servedM_set (routes : List (List ℕ)) (i : ℕ) (X : List ℕ)
    (hi : i < routes.length) :
    servedM (routes.set i X) + ((routes.getD i [] : List ℕ) : Multiset ℕ) =
      servedM routes + (X : Multiset ℕ) := by
  induction routes generalizing i with
  | nil => simp at hi
  | cons r rs ih =>
    cases i with
    | zero =>
      rw [List.set_cons_zero, List.getD_cons_zero, servedM_cons, servedM_cons]
      abel
    | succ m =>
      rw [List.set_cons_succ, List.getD_cons_succ, servedM_cons, servedM_cons]
      have := ih m (by simpa using hi)
      calc (r : Multiset ℕ) + servedM (rs.set m X) + ↑(rs.getD m []) =
          (r : Multiset ℕ) + (servedM (rs.set m X) + ↑(rs.getD m [])) := by abel
        _ = (r : Multiset ℕ) + (servedM rs + ↑X) := by rw [this]
        _ = (r : Multiset ℕ) + servedM rs + ↑X := by abel

/-- An applied relocate move preserves the served multiset. -/
theorem applyRelocate_conserve (routes : List (List ℕ)) (mv : RelocateMove)
    (hfr : mv.from_route < routes.length)
    (hfp : mv.from_pos < (routes.getD mv.from_route []).length)
    (htr : mv.to_route < routes.length) (hne : mv.to_route ≠ mv.from_route)
    (htp : mv.to_pos ≤ (routes.getD mv.to_route []).length) :
    servedM (applyRelocate routes mv) = servedM routes := by
  simp only [applyRelocate]
  rw [getD_set_ne routes mv.from_route mv.to_route _ [] (by omega)]
  have e1 := servedM_set
    (routes.set mv.from_route ((routes.getD mv.from_route []).eraseIdx mv.from_pos))
    mv.to_route
    ((routes.getD mv.to_route []).insertIdx mv.to_pos
      ((routes.getD mv.from_route []).getD mv.from_pos 0))
    (by simpa using htr)
  rw [getD_set_ne routes mv.from_route mv.to_route _ [] (by omega)] at e1
  have e2 := servedM_set routes mv.from_route
    ((routes.getD mv.from_route []).eraseIdx mv.from_pos) hfr
  have hY := multiset_insertIdx (routes.getD mv.to_route []) mv.to_pos
    ((routes.getD mv.from_route []).getD mv.from_pos 0) htp
  have hX := multiset_eraseIdx (routes.getD mv.from_route []) mv.from_pos hfp
  have key : servedM ((routes.set mv.from_route
        ((routes.getD mv.from_route []).eraseIdx mv.from_pos)).set mv.to_route
        ((routes.getD mv.to_route []).insertIdx mv.to_pos
          ((routes.getD mv.from_route []).getD mv.from_pos 0))) +
      (((routes.getD mv.to_route []) : Multiset ℕ) + ↑(routes.getD mv.from_route [])) =
      servedM routes +
      (((routes.getD mv.to_route []) : Multiset ℕ) + ↑(routes.getD mv.from_route [])) := by
    calc servedM ((routes.set mv.from_route
          ((routes.getD mv.from_route []).eraseIdx mv.from_pos)).set mv.to_route
          ((routes.getD mv.to_route []).insertIdx mv.to_pos
            ((routes.getD mv.from_route []).getD mv.from_pos 0))) +
        (((routes.getD mv.to_route []) : Multiset ℕ) + ↑(routes.getD mv.from_route []))
        = (servedM ((routes.set mv.from_route
            ((routes.getD mv.from_route []).eraseIdx mv.from_pos)).set mv.to_route
            ((routes.getD mv.to_route []).insertIdx mv.to_pos
              ((routes.getD mv.from_route []).getD mv.from_pos 0))) +
          ↑(routes.getD mv.to_route [])) + ↑(routes.getD mv.from_route []) := by abel
      _ = (servedM (routes.set mv.from_route
            ((routes.getD mv.from_route []).eraseIdx mv.from_pos)) +
          ↑((routes.getD mv.to_route []).insertIdx mv.to_pos
            ((routes.getD mv.from_route []).getD mv.from_pos 0))) +
          ↑(routes.getD mv.from_route []) := by rw [e1]
      _ = (servedM (routes.set mv.from_route
            ((routes.getD mv.from_route []).eraseIdx mv.from_pos)) +
          ↑(routes.getD mv.from_route [])) +
          ↑((routes.getD mv.to_route []).insertIdx mv.to_pos
            ((routes.getD mv.from_route []).getD mv.from_pos 0)) := by abel
      _ = (servedM routes + ↑((routes.getD mv.from_route []).eraseIdx mv.from_pos)) +
          ↑((routes.getD mv.to_route []).insertIdx mv.to_pos
            ((routes.getD mv.from_route []).getD mv.from_pos 0)) := by rw [e2]
      _ = (servedM routes + ↑((routes.getD mv.from_route []).eraseIdx mv.from_pos)) +
          ((routes.getD mv.from_route []).getD mv.from_pos 0 ::ₘ
            ↑(routes.getD mv.to_route [])) := by rw [hY]
      _ = servedM routes +
          (↑((routes.getD mv.from_route []).eraseIdx mv.from_pos) +
            {(routes.getD mv.from_route []).getD mv.from_pos 0}) +
          ↑(routes.getD mv.to_route []) := by
          rw [← Multiset.singleton_add]
          abel
      _ = servedM routes + ↑(routes.getD mv.from_route []) +
          ↑(routes.getD mv.to_route []) := by rw [hX]
      _ = servedM routes +
          (((routes.getD mv.to_route []) : Multiset ℕ) +
            ↑(routes.getD mv.from_route [])) := by abel
  exact add_right_cancel key

/-- The fueled relocate loop preserves the served multiset. -/
theorem relocateLoop_conserve (customers : List Customer) (dm : DistanceMatrix)
    (vehicle : Vehicle) (fuel : ℕ) :
    ∀ routes, servedM (relocateLoop customers dm vehicle fuel routes) =
      servedM routes := by
  induction fuel with
  | zero => intro routes; rfl
  | succ n ih =>
    intro routes
    cases hfind : find_best_relocate routes customers dm vehicle with
    | none =>
      rw [show relocateLoop customers dm vehicle (n + 1) routes = routes by
        simp only [relocateLoop, hfind]]
    | some mv =>
      obtain ⟨hfr, hfp, htr, hne, htp, _, hneg⟩ :=
        find_best_relocate_spec routes customers dm vehicle mv hfind
      rw [show relocateLoop customers dm vehicle (n + 1) routes =
          relocateLoop customers dm vehicle n (applyRelocate routes mv) by
        simp only [relocateLoop, hfind]
        rw [if_pos hneg]]
      rw [ih (applyRelocate routes mv)]
      exact applyRelocate_conserve routes mv hfr hfp htr hne htp

/-- The rebuilt solution serves exactly the nonconcatenated id lists and keeps
the original unassigned list. -/
theorem rebuild_solution_served (routes : List (List ℕ)) (original : Solution)
    (dm : DistanceMatrix) (customers : List Customer) (vehicle : Vehicle) :
    servedM ((rebuild_solution routes original dm customers vehicle).routes.map
      Route.customer_ids) = servedM routes ∧
    (rebuild_solution routes original dm customers vehicle).unassigned =
      original.unassigned := by
  have hfold : ∀ (rcs : List (List ℕ)) (sol : Solution),
      servedM ((rcs.foldl (fun sol rc => if rc.isEmpty then sol
        else sol.add_route (build_route customers dm vehicle rc).1) sol).routes.map
        Route.customer_ids) =
      servedM (sol.routes.map Route.customer_ids) + servedM rcs := by
    intro rcs
    induction rcs with
    | nil =>
      intro sol
      rw [List.foldl_nil, show servedM ([] : List (List ℕ)) = 0 from rfl, add_zero]
    | cons rc t ih =>
      intro sol
      rw [List.foldl_cons, ih, servedM_cons]
      by_cases hrc : rc.isEmpty
      · rw [if_pos hrc]
        have : rc = [] := by
          cases rc with
          | nil => rfl
          | cons a b => simp [List.isEmpty] at hrc
        subst this
        rw [show (([] : List ℕ) : Multiset ℕ) = 0 from rfl]
        abel
      · rw [if_neg hrc]
        show servedM ((sol.routes ++ [(build_route customers dm vehicle rc).1]).map
          Route.customer_ids) + servedM t = _
        rw [List.map_append, List.map_cons, List.map_nil]
        rw [show ((build_route customers dm vehicle rc).1.customer_ids) = rc from
          build_route_ids customers dm vehicle rc]
        rw [servedM_append_single]
        abel
  have hfoldun : ∀ (rcs : List (List ℕ)) (sol : Solution),
      (rcs.foldl (fun sol rc => if rc.isEmpty then sol
        else sol.add_route (build_route customers dm vehicle rc).1) sol).unassigned =
      sol.unassigned := by
    intro rcs
    induction rcs with
    | nil => intro sol; rfl
    | cons rc t ih =>
      intro sol
      rw [List.foldl_cons]
      by_cases hrc : rc.isEmpty
      · rw [if_pos hrc]
        exact ih sol
      · rw [if_neg hrc, ih]
        rfl
  have hunassigned : ∀ (uids : List ℕ) (sol : Solution),
      ((uids.foldl (fun sol uid => sol.add_unassigned uid) sol).unassigned =
        sol.unassigned ++ uids) ∧
      ((uids.foldl (fun sol uid => sol.add_unassigned uid) sol).routes =
        sol.routes) := by
    intro uids
    induction uids with
    | nil => intro sol; exact ⟨(List.append_nil _).symm, rfl⟩
    | cons u t ih =>
      intro sol
      rw [List.foldl_cons]
      refine ⟨?_, (ih (sol.add_unassigned u)).2⟩
      rw [(ih (sol.add_unassigned u)).1]
      show sol.unassigned ++ [u] ++ t = sol.unassigned ++ u :: t
      simp
  constructor
  · show servedM ((Solution.set_total_cost _ _).routes.map Route.customer_ids) = _
    rw [show ∀ (s : Solution) (c : ℚ), (s.set_total_cost c).routes = s.routes from
      fun s c => rfl]
    rw [(hunassigned original.unassigned _).2, hfold]
    show servedM (([] : List Route).map Route.customer_ids) + servedM routes = _
    rw [show servedM (([] : List Route).map Route.customer_ids) = 0 from rfl]
    rw [zero_add]
  · show (Solution.set_total_cost _ _).unassigned = _
    rw [show ∀ (s : Solution) (c : ℚ), (s.set_total_cost c).unassigned =
      s.unassigned from fun s c => rfl]
    rw [(hunassigned original.unassigned _).1, hfoldun]
    show ([] : List ℕ) ++ original.unassigned = original.unassigned
    simp

/-- `relocate_improve` preserves the multiset of served customers together
with the unassigned list. -/
theorem relocate_improve_conserve (fuel : ℕ) (solution : Solution)
    (customers : List Customer) (dm : DistanceMatrix) (vehicle : Vehicle) :
    servedM ((relocate_improve fuel solution customers dm vehicle).routes.map
        Route.customer_ids) +
      ((relocate_improve fuel solution customers dm vehicle).unassigned :
        Multiset ℕ) =
    servedM (solution.routes.map Route.customer_ids) +
      (solution.unassigned : Multiset ℕ) := by
  by_cases hn : solution.num_routes < 2
  · rw [show relocate_improve fuel solution customers dm vehicle = solution by
      simp only [relocate_improve]; rw [if_pos hn]]
  · rw [show relocate_improve fuel solution customers dm vehicle =
      rebuild_solution (relocateLoop customers dm vehicle fuel
        (solution.routes.map Route.customer_ids)) solution dm customers vehicle by
      simp only [relocate_improve]; rw [if_neg hn]]
    obtain ⟨hserved, hunas⟩ := rebuild_solution_served
      (relocateLoop customers dm vehicle fuel
        (solution.routes.map Route.customer_ids)) solution dm customers vehicle
    rw [hserved, hunas, relocateLoop_conserve]

/-- One exchange pair step preserves the served multiset and the length. -/
theorem exchangePairStep_conserve (depot : ℕ) (dm : DistanceMatrix)
    (customers : List Customer) (vehicle : Vehicle) (r1 r2 : ℕ)
    (st : List (List ℕ) × Bool) (h1 : r1 < st.1.length) (h2 : r2 < st.1.length)
    (hne : r1 ≠ r2) :
    servedM (exchangePairStep depot dm customers vehicle r1 st r2).1 =
      servedM st.1 ∧
    (exchangePairStep depot dm customers vehicle r1 st r2).1.length = st.1.length := by
  cases hfind : find_best_exchange (st.1.getD r1 []) (st.1.getD r2 []) depot dm
      customers vehicle with
  | none =>
    rw [show exchangePairStep depot dm customers vehicle r1 st r2 = st by
      simp only [exchangePairStep, hfind]]
    exact ⟨rfl, rfl⟩
  | some trip =>
    obtain ⟨cut1, cut2, delta⟩ := trip
    obtain ⟨hc1a, hc1b, hc2a, hc2b, hdeq, hdneg⟩ :=
      find_best_exchange_spec (st.1.getD r1 []) (st.1.getD r2 []) depot dm
        customers vehicle cut1 cut2 delta hfind
    rw [show exchangePairStep depot dm customers vehicle r1 st r2 =
        ((st.1.set r1 ((st.1.getD r1 []).take cut1 ++ (st.1.getD r2 []).drop cut2)).set
          r2 ((st.1.getD r2 []).take cut2 ++ (st.1.getD r1 []).drop cut1), true) by
      simp only [exchangePairStep, hfind]
      rw [if_pos hdneg]]
    refine ⟨?_, by simp⟩
    have e1 := servedM_set
      (st.1.set r1 ((st.1.getD r1 []).take cut1 ++ (st.1.getD r2 []).drop cut2)) r2
      ((st.1.getD r2 []).take cut2 ++ (st.1.getD r1 []).drop cut1) (by simpa using h2)
    rw [getD_set_ne st.1 r1 r2 _ [] hne] at e1
    have e2 := servedM_set st.1 r1
      ((st.1.getD r1 []).take cut1 ++ (st.1.getD r2 []).drop cut2) h1
    have hXY : (((st.1.getD r1 []).take cut1 ++ (st.1.getD r2 []).drop cut2 :
          List ℕ) : Multiset ℕ) +
        ↑((st.1.getD r2 []).take cut2 ++ (st.1.getD r1 []).drop cut1) =
        ((st.1.getD r1 [] : List ℕ) : Multiset ℕ) + ↑(st.1.getD r2 []) := by
      rw [← Multiset.coe_add, ← Multiset.coe_add]
      apply Multiset.coe_eq_coe.mpr
      have hp : List.Perm
          (((st.1.getD r1 []).take cut1 ++ (st.1.getD r2 []).drop cut2) ++
            ((st.1.getD r2 []).take cut2 ++ (st.1.getD r1 []).drop cut1))
          (((st.1.getD r1 []).take cut1 ++ (st.1.getD r1 []).drop cut1) ++
            ((st.1.getD r2 []).take cut2 ++ (st.1.getD r2 []).drop cut2)) := by
        have hmid : List.Perm
            ((st.1.getD r2 []).drop cut2 ++ ((st.1.getD r2 []).take cut2 ++
              (st.1.getD r1 []).drop cut1))
            ((st.1.getD r1 []).drop cut1 ++ ((st.1.getD r2 []).take cut2 ++
              (st.1.getD r2 []).drop cut2)) := by
          have s1 : List.Perm
              ((st.1.getD r2 []).drop cut2 ++ ((st.1.getD r2 []).take cut2 ++
                (st.1.getD r1 []).drop cut1))
              (((st.1.getD r2 []).take cut2 ++ (st.1.getD r1 []).drop cut1) ++
                (st.1.getD r2 []).drop cut2) := List.perm_append_comm
          have s2 : ((st.1.getD r2 []).take cut2 ++ (st.1.getD r1 []).drop cut1) ++
              (st.1.getD r2 []).drop cut2 =
              (st.1.getD r2 []).take cut2 ++ ((st.1.getD r1 []).drop cut1 ++
                (st.1.getD r2 []).drop cut2) := List.append_assoc _ _ _
          have s3 : List.Perm
              ((st.1.getD r2 []).take cut2 ++ ((st.1.getD r1 []).drop cut1 ++
                (st.1.getD r2 []).drop cut2))
              (((st.1.getD r1 []).drop cut1 ++ (st.1.getD r2 []).drop cut2) ++
                (st.1.getD r2 []).take cut2) := List.perm_append_comm
          have s4 : ((st.1.getD r1 []).drop cut1 ++ (st.1.getD r2 []).drop cut2) ++
              (st.1.getD r2 []).take cut2 =
              (st.1.getD r1 []).drop cut1 ++ ((st.1.getD r2 []).drop cut2 ++
                (st.1.getD r2 []).take cut2) := List.append_assoc _ _ _
          have s5 : List.Perm
              ((st.1.getD r1 []).drop cut1 ++ ((st.1.getD r2 []).drop cut2 ++
                (st.1.getD r2 []).take cut2))
              ((st.1.getD r1 []).drop cut1 ++ ((st.1.getD r2 []).take cut2 ++
                (st.1.getD r2 []).drop cut2)) :=
            List.Perm.append_left _ List.perm_append_comm
          exact (((s2 ▸ s1).trans (s4 ▸ s3)).trans s5)
        have hthis := List.Perm.append_left ((st.1.getD r1 []).take cut1) hmid
        have eL : (st.1.getD r1 []).take cut1 ++ (st.1.getD r2 []).drop cut2 ++
            ((st.1.getD r2 []).take cut2 ++ (st.1.getD r1 []).drop cut1) =
            (st.1.getD r1 []).take cut1 ++ ((st.1.getD r2 []).drop cut2 ++
            ((st.1.getD r2 []).take cut2 ++ (st.1.getD r1 []).drop cut1)) :=
          List.append_assoc _ _ _
        have eR : (st.1.getD r1 []).take cut1 ++ (st.1.getD r1 []).drop cut1 ++
            ((st.1.getD r2 []).take cut2 ++ (st.1.getD r2 []).drop cut2) =
            (st.1.getD r1 []).take cut1 ++ ((st.1.getD r1 []).drop cut1 ++
            ((st.1.getD r2 []).take cut2 ++ (st.1.getD r2 []).drop cut2)) :=
          List.append_assoc _ _ _
        exact eL.symm ▸ eR.symm ▸ hthis
      rw [List.take_append_drop, List.take_append_drop] at hp
      exact hp
    have key : servedM ((st.1.set r1 ((st.1.getD r1 []).take cut1 ++
          (st.1.getD r2 []).drop cut2)).set r2
          ((st.1.getD r2 []).take cut2 ++ (st.1.getD r1 []).drop cut1)) +
        (((st.1.getD r2 [] : List ℕ) : Multiset ℕ) + ↑(st.1.getD r1 [])) =
        servedM st.1 +
        (((st.1.getD r2 [] : List ℕ) : Multiset ℕ) + ↑(st.1.getD r1 [])) := by
      calc servedM ((st.1.set r1 ((st.1.getD r1 []).take cut1 ++
            (st.1.getD r2 []).drop cut2)).set r2
            ((st.1.getD r2 []).take cut2 ++ (st.1.getD r1 []).drop cut1)) +
          (((st.1.getD r2 [] : List ℕ) : Multiset ℕ) + ↑(st.1.getD r1 []))
          = (servedM ((st.1.set r1 ((st.1.getD r1 []).take cut1 ++
              (st.1.getD r2 []).drop cut2)).set r2
              ((st.1.getD r2 []).take cut2 ++ (st.1.getD r1 []).drop cut1)) +
            ↑(st.1.getD r2 [])) + ↑(st.1.getD r1 []) := by abel
        _ = (servedM (st.1.set r1 ((st.1.getD r1 []).take cut1 ++
              (st.1.getD r2 []).drop cut2)) +
            ↑((st.1.getD r2 []).take cut2 ++ (st.1.getD r1 []).drop cut1)) +
            ↑(st.1.getD r1 []) := by rw [e1]
        _ = (servedM (st.1.set r1 ((st.1.getD r1 []).take cut1 ++
              (st.1.getD r2 []).drop cut2)) + ↑(st.1.getD r1 [])) +
            ↑((st.1.getD r2 []).take cut2 ++ (st.1.getD r1 []).drop cut1) := by abel
        _ = (servedM st.1 + ↑((st.1.getD r1 []).take cut1 ++
              (st.1.getD r2 []).drop cut2)) +
            ↑((st.1.getD r2 []).take cut2 ++ (st.1.getD r1 []).drop cut1) := by rw [e2]
        _ = servedM st.1 + (↑((st.1.getD r1 []).take cut1 ++
              (st.1.getD r2 []).drop cut2) +
            ↑((st.1.getD r2 []).take cut2 ++ (st.1.getD r1 []).drop cut1)) := by abel
        _ = servedM st.1 + (((st.1.getD r1 [] : List ℕ) : Multiset ℕ) +
            ↑(st.1.getD r2 [])) := by rw [hXY]
        _ = servedM st.1 + (((st.1.getD r2 [] : List ℕ) : Multiset ℕ) +
            ↑(st.1.getD r1 [])) := by abel
    exact add_right_cancel key

/-- One exchange pass preserves the served multiset and the length. -/
theorem exchangePass_conserve (depot : ℕ) (dm : DistanceMatrix)
    (customers : List Customer) (vehicle : Vehicle) (routes0 : List (List ℕ)) :
    servedM (exchangePass depot dm customers vehicle routes0).1 =
      servedM routes0 ∧
    (exchangePass depot dm customers vehicle routes0).1.length = routes0.length := by
  unfold exchangePass
  refine foldl_preserve _ (fun st =>
    servedM st.1 = servedM routes0 ∧ st.1.length = routes0.length) _ ?_
    (routes0, false) ⟨rfl, rfl⟩
  intro st r1 hr1 hst
  rw [List.mem_range] at hr1
  refine foldl_preserve _ (fun st =>
    servedM st.1 = servedM routes0 ∧ st.1.length = routes0.length) _ ?_ st hst
  intro st2 r2 hr2 hst2
  rw [List.mem_range'_1] at hr2
  have hstep := exchangePairStep_conserve depot dm customers vehicle r1 r2 st2
    (by omega) (by omega) (by omega)
  exact ⟨hstep.1.trans hst2.1, hstep.2.trans hst2.2⟩

/-- The fueled exchange loop preserves the served multiset. -/
theorem exchangeLoop_conserve (depot : ℕ) (dm : DistanceMatrix)
    (customers : List Customer) (vehicle : Vehicle) (fuel : ℕ) :
    ∀ routes, servedM (exchangeLoop depot dm customers vehicle fuel routes) =
      servedM routes := by
  induction fuel with
  | zero => intro routes; rfl
  | succ n ih =>
    intro routes
    show servedM (if (exchangePass depot dm customers vehicle routes).2 then
      exchangeLoop depot dm customers vehicle n
        (exchangePass depot dm customers vehicle routes).1
      else (exchangePass depot dm customers vehicle routes).1) = _
    split
    · rw [ih, (exchangePass_conserve depot dm customers vehicle routes).1]
    · exact (exchangePass_conserve depot dm customers vehicle routes).1

/-- `exchange_improve` preserves the multiset of served customers together
with the unassigned list. -/
theorem exchange_improve_conserve (fuel : ℕ) (solution : Solution)
    (customers : List Customer) (dm : DistanceMatrix) (vehicle : Vehicle) :
    servedM ((exchange_improve fuel solution customers dm vehicle).routes.map
        Route.customer_ids) +
      ((exchange_improve fuel solution customers dm vehicle).unassigned :
        Multiset ℕ) =
    servedM (solution.routes.map Route.customer_ids) +
      (solution.unassigned : Multiset ℕ) := by
  by_cases hn : solution.num_routes < 2
  · rw [show exchange_improve fuel solution customers dm vehicle = solution by
      simp only [exchange_improve]; rw [if_pos hn]]
  · rw [show exchange_improve fuel solution customers dm vehicle =
      rebuild_solution (exchangeLoop vehicle.depot_id dm customers vehicle fuel
        (solution.routes.map Route.customer_ids)) solution dm customers vehicle by
      simp only [exchange_improve]; rw [if_neg hn]]
    obtain ⟨hserved, hunas⟩ := rebuild_solution_served
      (exchangeLoop vehicle.depot_id dm customers vehicle fuel
        (solution.routes.map Route.customer_ids)) solution dm customers vehicle
    rw [hserved, hunas, exchangeLoop_conserve]

/- ### ALNS destroy operators, src/alns/destroy.rs -/

/-- The route walk of `RandomRemoval::destroy` (lines 75–84): find the route
containing flat position `target`, remove that customer. -/
def removeAtFlat : List (List ℕ) → ℕ → List (List ℕ) × Option ℕ
  | [], _ => ([], none)
  | r :: rs, target =>
    if target < r.length then
      (r.eraseIdx target :: rs, some (r.getD target 0))
    else
      let p := removeAtFlat rs (target - r.length)
      (r :: p.1, p.2)

/-- Removing at a flat position conserves the served multiset. -/
theorem removeAtFlat_conserve : ∀ (routes : List (List ℕ)) (target : ℕ),
    (∀ cid, (removeAtFlat routes target).2 = some cid →
      servedM (removeAtFlat routes target).1 + {cid} = servedM routes) ∧
    ((removeAtFlat routes target).2 = none →
      (removeAtFlat routes target).1 = routes) := by
  intro routes
  induction routes with
  | nil =>
    intro target
    exact ⟨fun cid h => absurd h (by simp [removeAtFlat]), fun _ => rfl⟩
  | cons r rs ih =>
    intro target
    by_cases htl : target < r.length
    · constructor
      · intro cid h
        rw [show removeAtFlat (r :: rs) target =
            (r.eraseIdx target :: rs, some (r.getD target 0)) by
          simp only [removeAtFlat]; rw [if_pos htl]] at h ⊢
        obtain rfl : r.getD target 0 = cid := Option.some.inj h
        show servedM (r.eraseIdx target :: rs) + {r.getD target 0} = _
        rw [servedM_cons, servedM_cons]
        have := multiset_eraseIdx r target htl
        calc ((r.eraseIdx target : List ℕ) : Multiset ℕ) + servedM rs +
            {r.getD target 0}
            = (((r.eraseIdx target : List ℕ) : Multiset ℕ) + {r.getD target 0}) +
              servedM rs := by abel
          _ = (r : Multiset ℕ) + servedM rs := by rw [this]
      · intro h
        rw [show removeAtFlat (r :: rs) target =
            (r.eraseIdx target :: rs, some (r.getD target 0)) by
          simp only [removeAtFlat]; rw [if_pos htl]] at h
        exact absurd h (by simp)
    · have hstep : removeAtFlat (r :: rs) target =
          (r :: (removeAtFlat rs (target - r.length)).1,
            (removeAtFlat rs (target - r.length)).2) := by
        simp only [removeAtFlat]
        rw [if_neg htl]
      constructor
      · intro cid h
        rw [hstep] at h ⊢
        show servedM (r :: _) + {cid} = _
        rw [servedM_cons, servedM_cons]
        have := (ih (target - r.length)).1 cid h
        calc (r : Multiset ℕ) + servedM (removeAtFlat rs (target - r.length)).1 +
            {cid}
            = (r : Multiset ℕ) +
              (servedM (removeAtFlat rs (target - r.length)).1 + {cid}) := by abel
          _ = (r : Multiset ℕ) + servedM rs := by rw [this]
      · intro h
        rw [hstep] at h ⊢
        rw [(ih (target - r.length)).2 h]

/-- The removal loop of `RandomRemoval::destroy`, with the RNG draw counter. -/
def randomRemovalLoop (rng : Rng) : ℕ → ℕ → RoutingSolution → RoutingSolution
  | 0, _, sol => sol
  | n + 1, draw, sol =>
    let assigned := (sol.routes.map List.length).sum
    if assigned = 0 then sol
    else
      let target := rng.nats draw % assigned
      let p := removeAtFlat sol.routes target
      match p.2 with
      | some cid =>
        randomRemovalLoop rng n (draw + 1)
          ⟨p.1, sol.unassigned ++ [cid], sol.total_distance⟩
      | none => sol

/-- `RandomRemoval::destroy` from `src/alns/destroy.rs`. -/
def RandomRemoval.destroy (solution : RoutingSolution) (degree : ℚ) (rng : Rng) :
    RoutingSolution :=
  let total := (solution.routes.map List.length).sum
  let num_remove := max (round ((total : ℚ) * degree)).toNat 1
  (randomRemovalLoop rng num_remove 0 solution).remove_empty_routes

/-- Dropping empty routes does not change the served multiset. -/
theorem servedM_filter_nonempty (routes : List (List ℕ)) :
    servedM (routes.filter (fun r => !r.isEmpty)) = servedM routes := by
  induction routes with
  | nil => rfl
  | cons r rs ih =>
    rw [List.filter_cons]
    by_cases hr : r.isEmpty
    · rw [if_neg (by simp [hr]), servedM_cons]
      have : r = [] := by
        cases r with
        | nil => rfl
        | cons a b => simp [List.isEmpty] at hr
      subst this
      rw [ih, show (([] : List ℕ) : Multiset ℕ) = 0 from rfl, zero_add]
    · rw [if_pos (by simp [hr]), servedM_cons, servedM_cons, ih]

/-- `remove_empty_routes` conserves the served multiset and keeps the
unassigned list. -/
theorem remove_empty_routes_conserve (s : RoutingSolution) :
    servedM s.remove_empty_routes.routes = servedM s.routes ∧
    s.remove_empty_routes.unassigned = s.unassigned :=
  ⟨servedM_filter_nonempty s.routes, rfl⟩

/-- The random-removal loop conserves served plus unassigned. -/
theorem randomRemovalLoop_conserve (rng : Rng) (n : ℕ) :
    ∀ (draw : ℕ) (sol : RoutingSolution),
      servedM (randomRemovalLoop rng n draw sol).routes +
        ((randomRemovalLoop rng n draw sol).unassigned : Multiset ℕ) =
      servedM sol.routes + (sol.unassigned : Multiset ℕ) := by
  induction n with
  | zero => intro draw sol; rfl
  | succ m ih =>
    intro draw sol
    by_cases hz : (sol.routes.map List.length).sum = 0
    · rw [show randomRemovalLoop rng (m + 1) draw sol = sol by
        simp only [randomRemovalLoop]; rw [if_pos hz]]
    · cases hp : (removeAtFlat sol.routes
          (rng.nats draw % (sol.routes.map List.length).sum)).2 with
      | none =>
        rw [show randomRemovalLoop rng (m + 1) draw sol = sol by
          simp only [randomRemovalLoop]
          rw [if_neg hz, hp]]
      | some cid =>
        rw [show randomRemovalLoop rng (m + 1) draw sol =
            randomRemovalLoop rng m (draw + 1)
              ⟨(removeAtFlat sol.routes
                  (rng.nats draw % (sol.routes.map List.length).sum)).1,
                sol.unassigned ++ [cid], sol.total_distance⟩ by
          simp only [randomRemovalLoop]
          rw [if_neg hz, hp]]
        rw [ih]
        show servedM (removeAtFlat sol.routes
            (rng.nats draw % (sol.routes.map List.length).sum)).1 +
          ((sol.unassigned ++ [cid] : List ℕ) : Multiset ℕ) = _
        have hcons := (removeAtFlat_conserve sol.routes
          (rng.nats draw % (sol.routes.map List.length).sum)).1 cid hp
        have hlist : ((sol.unassigned ++ [cid] : List ℕ) : Multiset ℕ) =
            (sol.unassigned : Multiset ℕ) + {cid} := by
          apply Multiset.coe_eq_coe.mpr
          exact List.Perm.refl _
        rw [hlist]
        calc servedM (removeAtFlat sol.routes
            (rng.nats draw % (sol.routes.map List.length).sum)).1 +
            ((sol.unassigned : Multiset ℕ) + {cid})
            = (servedM (removeAtFlat sol.routes
                (rng.nats draw % (sol.routes.map List.length).sum)).1 + {cid}) +
              (sol.unassigned : Multiset ℕ) := by abel
          _ = servedM sol.routes + (sol.unassigned : Multiset ℕ) := by rw [hcons]

/-- `RandomRemoval::destroy` conserves served plus unassigned. -/
theorem randomRemoval_destroy_conserve (solution : RoutingSolution) (degree : ℚ)
    (rng : Rng) :
    servedM (RandomRemoval.destroy solution degree rng).routes +
      ((RandomRemoval.destroy solution degree rng).unassigned : Multiset ℕ) =
    servedM solution.routes + (solution.unassigned : Multiset ℕ) := by
  unfold RandomRemoval.destroy
  obtain ⟨h1, h2⟩ := remove_empty_routes_conserve
    (randomRemovalLoop rng (max (round
      (((solution.routes.map List.length).sum : ℚ) * degree)).toNat 1) 0 solution)
  rw [h1, h2]
  exact randomRemovalLoop_conserve rng _ 0 solution

/-- `WorstRemoval::removal_saving` from `src/alns/destroy.rs`. -/
def removal_saving (dm : DistanceMatrix) (route : List ℕ) (pos : ℕ) : ℚ :=
  let depot := 0
  let cid := route.getD pos 0
  let prev := if pos = 0 then depot else route.getD (pos - 1) 0
  let next := if pos = route.length - 1 then depot else route.getD (pos + 1) 0
  dm.get prev cid + dm.get cid next - dm.get prev next

/-- The candidate scan of `WorstRemoval::destroy`: highest `saving + noise`
with one RNG real draw per candidate; the draw counter is threaded through. -/
def worstScanStep (dm : DistanceMatrix) (rng : Rng) (routes : List (List ℕ))
    (ri : ℕ) (st2 : Option (ℚ × ℕ × ℕ) × ℕ) (pos : ℕ) :
    Option (ℚ × ℕ × ℕ) × ℕ :=
  let saving := removal_saving dm (routes.getD ri []) pos
  let noise := rng.rats st2.2
  (match st2.1 with
   | none => some (saving + noise, ri, pos)
   | some b => if saving + noise > b.1 then some (saving + noise, ri, pos)
       else some b, st2.2 + 1)

/-- The candidate scan body of `WorstRemoval::destroy` over all routes. -/
def worstScan (dm : DistanceMatrix) (rng : Rng) (routes : List (List ℕ))
    (draw0 : ℕ) : Option (ℚ × ℕ × ℕ) × ℕ :=
  (List.range routes.length).foldl (fun st ri =>
    (List.range (routes.getD ri []).length).foldl
      (worstScanStep dm rng routes ri) st) (none, draw0)

/-- Any scan result is an in-bounds route position. -/
theorem worstScan_spec (dm : DistanceMatrix) (rng : Rng) (routes : List (List ℕ))
    (draw0 : ℕ) :
    ∀ q ri pos, (worstScan dm rng routes draw0).1 = some (q, ri, pos) →
      ri < routes.length ∧ pos < (routes.getD ri []).length := by
  unfold worstScan
  refine foldl_preserve _ (fun st => ∀ q ri pos, st.1 = some (q, ri, pos) →
    ri < routes.length ∧ pos < (routes.getD ri []).length) _ ?_ (none, draw0)
    (by intro q ri pos h
        exact Option.noConfusion
          (show (none : Option (ℚ × ℕ × ℕ)) = some (q, ri, pos) from h))
  intro st ri hri hst
  rw [List.mem_range] at hri
  refine foldl_preserve _ (fun st => ∀ q rr pp, st.1 = some (q, rr, pp) →
    rr < routes.length ∧ pp < (routes.getD rr []).length) _ ?_ st hst
  intro st2 pos hpos hst2
  rw [List.mem_range] at hpos
  intro q rr pp h
  obtain ⟨b0, d0⟩ := st2
  cases b0 with
  | none =>
    simp only [worstScanStep] at h
    simp only [Option.some.injEq, Prod.mk.injEq] at h
    obtain ⟨-, h2, h3⟩ := h
    subst h2; subst h3
    exact ⟨hri, hpos⟩
  | some b =>
    simp only [worstScanStep] at h
    by_cases hgt : removal_saving dm (routes.getD ri []) pos + rng.rats d0 > b.1
    · rw [if_pos hgt] at h
      simp only [Option.some.injEq, Prod.mk.injEq] at h
      obtain ⟨-, h2, h3⟩ := h
      subst h2; subst h3
      exact ⟨hri, hpos⟩
    · rw [if_neg hgt] at h
      exact hst2 q rr pp h

/-- Erasing one position of one route conserves the served multiset. -/
theorem servedM_modify_erase (routes : List (List ℕ)) (ri pos : ℕ)
    (hri : ri < routes.length) (hpos : pos < (routes.getD ri []).length) :
    servedM (List.modify (fun r => r.eraseIdx pos) ri routes) +
      {(routes.getD ri []).getD pos 0} = servedM routes := by
  induction routes generalizing ri with
  | nil => simp at hri
  | cons r rs ih =>
    cases ri with
    | zero =>
      rw [List.getD_cons_zero] at hpos ⊢
      rw [show List.modify (fun r => r.eraseIdx pos) 0 (r :: rs) =
        r.eraseIdx pos :: rs by simp [List.modify]]
      rw [servedM_cons, servedM_cons]
      have := multiset_eraseIdx r pos hpos
      calc ((r.eraseIdx pos : List ℕ) : Multiset ℕ) + servedM rs +
          {r.getD pos 0}
          = (((r.eraseIdx pos : List ℕ) : Multiset ℕ) + {r.getD pos 0}) +
            servedM rs := by abel
        _ = (r : Multiset ℕ) + servedM rs := by rw [this]
    | succ m =>
      rw [List.getD_cons_succ] at hpos ⊢
      rw [show List.modify (fun r => r.eraseIdx pos) (m + 1) (r :: rs) =
        r :: List.modify (fun r => r.eraseIdx pos) m rs by simp [List.modify]]
      rw [servedM_cons, servedM_cons]
      have := ih m (by simpa using hri) hpos
      calc (r : Multiset ℕ) + servedM (List.modify (fun r => r.eraseIdx pos) m rs) +
          {(rs.getD m []).getD pos 0}
          = (r : Multiset ℕ) +
            (servedM (List.modify (fun r => r.eraseIdx pos) m rs) +
              {(rs.getD m []).getD pos 0}) := by abel
        _ = (r : Multiset ℕ) + servedM rs := by rw [this]

/-- The removal loop of `WorstRemoval::destroy`. -/
def worstRemovalLoop (dm : DistanceMatrix) (rng : Rng) :
    ℕ → ℕ → RoutingSolution → RoutingSolution
  | 0, _, sol => sol
  | n + 1, draw, sol =>
    let p := worstScan dm rng sol.routes draw
    match p.1 with
    | none => sol
    | some b =>
      let cid := (sol.routes.getD b.2.1 []).getD b.2.2 0
      worstRemovalLoop dm rng n p.2
        ⟨List.modify (fun r => r.eraseIdx b.2.2) b.2.1 sol.routes,
          sol.unassigned ++ [cid], sol.total_distance⟩

/-- `WorstRemoval::destroy` from `src/alns/destroy.rs`. -/
def WorstRemoval.destroy (dm : DistanceMatrix) (solution : RoutingSolution)
    (degree : ℚ) (rng : Rng) : RoutingSolution :=
  let total := (solution.routes.map List.length).sum
  let num_remove := max (round ((total : ℚ) * degree)).toNat 1
  (worstRemovalLoop dm rng num_remove 0 solution).remove_empty_routes

/-- The worst-removal loop conserves served plus unassigned. -/
theorem worstRemovalLoop_conserve (dm : DistanceMatrix) (rng : Rng) (n : ℕ) :
    ∀ (draw : ℕ) (sol : RoutingSolution),
      servedM (worstRemovalLoop dm rng n draw sol).routes +
        ((worstRemovalLoop dm rng n draw sol).unassigned : Multiset ℕ) =
      servedM sol.routes + (sol.unassigned : Multiset ℕ) := by
  induction n with
  | zero => intro draw sol; rfl
  | succ m ih =>
    intro draw sol
    cases hp : (worstScan dm rng sol.routes draw).1 with
    | none =>
      rw [show worstRemovalLoop dm rng (m + 1) draw sol = sol by
        simp only [worstRemovalLoop]; rw [hp]]
    | some b =>
      obtain ⟨hri, hpos⟩ := worstScan_spec dm rng sol.routes draw b.1 b.2.1 b.2.2
        (by rw [hp])
      rw [show worstRemovalLoop dm rng (m + 1) draw sol =
          worstRemovalLoop dm rng m (worstScan dm rng sol.routes draw).2
            ⟨List.modify (fun r => r.eraseIdx b.2.2) b.2.1 sol.routes,
              sol.unassigned ++ [(sol.routes.getD b.2.1 []).getD b.2.2 0],
              sol.total_distance⟩ by
        simp only [worstRemovalLoop]; rw [hp]]
      rw [ih]
      show servedM (List.modify (fun r => r.eraseIdx b.2.2) b.2.1 sol.routes) +
        ((sol.unassigned ++ [(sol.routes.getD b.2.1 []).getD b.2.2 0] : List ℕ) :
          Multiset ℕ) = _
      have hcons := servedM_modify_erase sol.routes b.2.1 b.2.2 hri hpos
      have hlist : ((sol.unassigned ++ [(sol.routes.getD b.2.1 []).getD b.2.2 0] :
          List ℕ) : Multiset ℕ) =
          (sol.unassigned : Multiset ℕ) +
            {(sol.routes.getD b.2.1 []).getD b.2.2 0} := by
        apply Multiset.coe_eq_coe.mpr
        exact List.Perm.refl _
      rw [hlist]
      calc servedM (List.modify (fun r => r.eraseIdx b.2.2) b.2.1 sol.routes) +
          ((sol.unassigned : Multiset ℕ) +
            {(sol.routes.getD b.2.1 []).getD b.2.2 0})
          = (servedM (List.modify (fun r => r.eraseIdx b.2.2) b.2.1 sol.routes) +
              {(sol.routes.getD b.2.1 []).getD b.2.2 0}) +
            (sol.unassigned : Multiset ℕ) := by abel
        _ = servedM sol.routes + (sol.unassigned : Multiset ℕ) := by rw [hcons]

/-- `WorstRemoval::destroy` conserves served plus unassigned. -/
theorem worstRemoval_destroy_conserve (dm : DistanceMatrix)
    (solution : RoutingSolution) (degree : ℚ) (rng : Rng) :
    servedM (WorstRemoval.destroy dm solution degree rng).routes +
      ((WorstRemoval.destroy dm solution degree rng).unassigned : Multiset ℕ) =
    servedM solution.routes + (solution.unassigned : Multiset ℕ) := by
  unfold WorstRemoval.destroy
  obtain ⟨h1, h2⟩ := remove_empty_routes_conserve
    (worstRemovalLoop dm rng (max (round
      (((solution.routes.map List.length).sum : ℚ) * degree)).toNat 1) 0 solution)
  rw [h1, h2]
  exact worstRemovalLoop_conserve dm rng _ 0 solution

/-- `ShawRemoval::relatedness` from `src/alns/destroy.rs`: inverse distance
plus demand similarity. -/
def relatedness (dm : DistanceMatrix) (customers : List Customer) (a b : ℕ) : ℚ :=
  let dist := dm.get a b
  let demand_diff := (((customers.getD a dfltCustomer).demand -
    (customers.getD b dfltCustomer).demand).natAbs : ℚ)
  1 / (dist + 1 / 10) + 1 / (demand_diff + 1)

/-- `remove_customer` from `src/alns/destroy.rs`: delete the first occurrence
of `cid` from the first route containing it. -/
def remove_customer : List (List ℕ) → ℕ → List (List ℕ)
  | [], _ => []
  | r :: rs, cid => if cid ∈ r then r.erase cid :: rs else r :: remove_customer rs cid

/-- Removing a present customer conserves the served multiset. -/
theorem remove_customer_conserve : ∀ (routes : List (List ℕ)) (cid : ℕ),
    cid ∈ routes.flatten →
    servedM (remove_customer routes cid) + {cid} = servedM routes := by
  intro routes
  induction routes with
  | nil => intro cid h; simp at h
  | cons r rs ih =>
    intro cid h
    by_cases hr : cid ∈ r
    · rw [show remove_customer (r :: rs) cid = r.erase cid :: rs by
        simp only [remove_customer]; rw [if_pos hr]]
      rw [servedM_cons, servedM_cons]
      have hperm : (r : Multiset ℕ) = cid ::ₘ ↑(r.erase cid) :=
        Multiset.coe_eq_coe.mpr (List.perm_cons_erase hr)
      rw [hperm, ← Multiset.singleton_add]
      abel
    · rw [show remove_customer (r :: rs) cid = r :: remove_customer rs cid by
        simp only [remove_customer]; rw [if_neg hr]]
      rw [servedM_cons, servedM_cons]
      have hmem : cid ∈ rs.flatten := by
        rw [List.flatten_cons] at h
        rcases List.mem_append.mp h with hc | hc
        · exact absurd hc hr
        · exact hc
      have := ih cid hmem
      calc (r : Multiset ℕ) + servedM (remove_customer rs cid) + {cid}
          = (r : Multiset ℕ) + (servedM (remove_customer rs cid) + {cid}) := by abel
        _ = (r : Multiset ℕ) + servedM rs := by rw [this]

/-- The relatedness argmax of `ShawRemoval::destroy` over the assigned list
(the `for (idx, &cid) in assigned.iter().enumerate()` scan). -/
def shawScanStep (dm : DistanceMatrix) (customers : List Customer)
    (removed assigned : List ℕ) (best : Option (ℚ × ℕ)) (idx : ℕ) :
    Option (ℚ × ℕ) :=
  let cid := assigned.getD idx 0
  match (removed.map (fun r => relatedness dm customers r cid)).max? with
  | none => best
  | some mr =>
    match best with
    | none => some (mr, idx)
    | some b => if mr > b.1 then some (mr, idx) else some b

/-- The relatedness argmax scan over the assigned list. -/
def shawScan (dm : DistanceMatrix) (customers : List Customer) (removed : List ℕ)
    (assigned : List ℕ) : Option (ℚ × ℕ) :=
  (List.range assigned.length).foldl (shawScanStep dm customers removed assigned)
    none

/-- Any scan winner is an in-bounds index. -/
theorem shawScan_spec (dm : DistanceMatrix) (customers : List Customer)
    (removed assigned : List ℕ) :
    ∀ q idx, shawScan dm customers removed assigned = some (q, idx) →
      idx < assigned.length := by
  unfold shawScan
  refine foldl_preserve _ (fun best => ∀ q idx, best = some (q, idx) →
    idx < assigned.length) _ ?_ none
    (by intro q idx h; exact absurd h (by simp))
  intro b idx hidx hb
  rw [List.mem_range] at hidx
  intro q ii h
  cases hmax : (removed.map (fun r => relatedness dm customers r
      (assigned.getD idx 0))).max? with
  | none =>
    simp only [shawScanStep, hmax] at h
    exact hb q ii h
  | some mr =>
    cases b with
    | none =>
      simp only [shawScanStep, hmax] at h
      obtain ⟨-, h2⟩ : mr = q ∧ idx = ii := by
        simp only [Option.some.injEq, Prod.mk.injEq] at h
        exact h
      subst h2
      exact hidx
    | some bb =>
      simp only [shawScanStep, hmax] at h
      by_cases hgt : mr > bb.1
      · rw [if_pos hgt] at h
        obtain ⟨-, h2⟩ : mr = q ∧ idx = ii := by
          simp only [Option.some.injEq, Prod.mk.injEq] at h
          exact h
        subst h2
        exact hidx
      · rw [if_neg hgt] at h
        exact hb q ii h

/-- The removal loop of `ShawRemoval::destroy`: repeatedly remove the most
related assigned customer. -/
def shawLoop (dm : DistanceMatrix) (customers : List Customer) :
    ℕ → List ℕ → List ℕ → List (List ℕ) → List (List ℕ) × List ℕ
  | 0, removed, _, routes => (routes, removed)
  | n + 1, removed, assigned, routes =>
    if assigned.isEmpty then (routes, removed)
    else
      let best_idx := match shawScan dm customers removed assigned with
        | some b => b.2
        | none => 0
      let next := assigned.getD best_idx 0
      shawLoop dm customers n (removed ++ [next]) (assigned.eraseIdx best_idx)
        (remove_customer routes next)

/-- `ShawRemoval::destroy` from `src/alns/destroy.rs`. -/
def ShawRemoval.destroy (dm : DistanceMatrix) (customers : List Customer)
    (solution : RoutingSolution) (degree : ℚ) (rng : Rng) : RoutingSolution :=
  let total := (solution.routes.map List.length).sum
  let num_remove := max (round ((total : ℚ) * degree)).toNat 1
  if total = 0 then solution
  else
    let assigned := solution.routes.flatten
    let seed_idx := rng.nats 0 % assigned.length
    let seed := assigned.getD seed_idx 0
    let p := shawLoop dm customers (num_remove - 1) [seed]
      (assigned.eraseIdx seed_idx) (remove_customer solution.routes seed)
    RoutingSolution.remove_empty_routes
      ⟨p.1, solution.unassigned ++ p.2, solution.total_distance⟩

/-- The Shaw loop conserves: assigned always mirrors the routes' content, and
routes plus removed is invariant. -/
theorem shawLoop_conserve (dm : DistanceMatrix) (customers : List Customer)
    (n : ℕ) :
    ∀ (removed assigned : List ℕ) (routes : List (List ℕ)),
      (assigned : Multiset ℕ) = servedM routes →
      servedM (shawLoop dm customers n removed assigned routes).1 +
        ((shawLoop dm customers n removed assigned routes).2 : Multiset ℕ) =
      servedM routes + (removed : Multiset ℕ) := by
  induction n with
  | zero => intro removed assigned routes _; rfl
  | succ m ih =>
    intro removed assigned routes hinv
    by_cases hemp : assigned.isEmpty
    · rw [show shawLoop dm customers (m + 1) removed assigned routes =
        (routes, removed) by simp only [shawLoop]; rw [if_pos hemp]]
    · have hne : assigned ≠ [] := by
        intro hcon; subst hcon; simp [List.isEmpty] at hemp
      have hlen : 0 < assigned.length := List.length_pos.mpr hne
      have hbidx : (match shawScan dm customers removed assigned with
          | some b => b.2
          | none => 0) < assigned.length := by
        cases hscan : shawScan dm customers removed assigned with
        | none => simpa using hlen
        | some b =>
          show b.2 < assigned.length
          exact shawScan_spec dm customers removed assigned b.1 b.2
            (by rw [hscan])
      rw [show shawLoop dm customers (m + 1) removed assigned routes =
          shawLoop dm customers m
            (removed ++ [assigned.getD (match shawScan dm customers removed
              assigned with | some b => b.2 | none => 0) 0])
            (assigned.eraseIdx (match shawScan dm customers removed assigned with
              | some b => b.2 | none => 0))
            (remove_customer routes (assigned.getD (match shawScan dm customers
              removed assigned with | some b => b.2 | none => 0) 0)) by
        simp only [shawLoop]; rw [if_neg hemp]]
      have hmemA : assigned.getD (match shawScan dm customers removed assigned with
          | some b => b.2 | none => 0) 0 ∈ assigned := by
        rw [List.getD_eq_getElem assigned 0 hbidx]
        exact List.getElem_mem hbidx
      have hmemF : assigned.getD (match shawScan dm customers removed assigned with
          | some b => b.2 | none => 0) 0 ∈ routes.flatten := by
        have : assigned.getD (match shawScan dm customers removed assigned with
            | some b => b.2 | none => 0) 0 ∈ (routes.flatten : Multiset ℕ) := by
          show _ ∈ (servedM routes : Multiset ℕ)
          rw [← hinv]
          exact Multiset.mem_coe.mpr hmemA
        exact Multiset.mem_coe.mp this
      have hrc := remove_customer_conserve routes _ hmemF
      have hinv2 : ((assigned.eraseIdx (match shawScan dm customers removed
          assigned with | some b => b.2 | none => 0)) : Multiset ℕ) =
          servedM (remove_customer routes (assigned.getD (match shawScan dm
            customers removed assigned with | some b => b.2 | none => 0) 0)) := by
        have he := multiset_eraseIdx assigned (match shawScan dm customers removed
          assigned with | some b => b.2 | none => 0) hbidx
        rw [hinv] at he
        have := hrc
        exact add_right_cancel (he.trans this.symm)
      rw [ih _ _ _ hinv2]
      have hlist : ((removed ++ [assigned.getD (match shawScan dm customers removed
          assigned with | some b => b.2 | none => 0) 0] : List ℕ) : Multiset ℕ) =
          (removed : Multiset ℕ) + {assigned.getD (match shawScan dm customers
            removed assigned with | some b => b.2 | none => 0) 0} := by
        apply Multiset.coe_eq_coe.mpr
        exact List.Perm.refl _
      rw [hlist]
      calc servedM (remove_customer routes (assigned.getD (match shawScan dm
            customers removed assigned with | some b => b.2 | none => 0) 0)) +
          ((removed : Multiset ℕ) + {assigned.getD (match shawScan dm customers
            removed assigned with | some b => b.2 | none => 0) 0})
          = (servedM (remove_customer routes (assigned.getD (match shawScan dm
              customers removed assigned with | some b => b.2 | none => 0) 0)) +
            {assigned.getD (match shawScan dm customers removed assigned with
              | some b => b.2 | none => 0) 0}) + (removed : Multiset ℕ) := by abel
        _ = servedM routes + (removed : Multiset ℕ) := by rw [hrc]

/-- `ShawRemoval::destroy` conserves served plus unassigned. -/
theorem shawRemoval_destroy_conserve (dm : DistanceMatrix)
    (customers : List Customer) (solution : RoutingSolution) (degree : ℚ)
    (rng : Rng) :
    servedM (ShawRemoval.destroy dm customers solution degree rng).routes +
      ((ShawRemoval.destroy dm customers solution degree rng).unassigned :
        Multiset ℕ) =
    servedM solution.routes + (solution.unassigned : Multiset ℕ) := by
  unfold ShawRemoval.destroy
  by_cases hz : (solution.routes.map List.length).sum = 0
  · rw [if_pos hz]
  · rw [if_neg hz]
    simp only
    have hflen : 0 < solution.routes.flatten.length := by
      rw [List.length_flatten]
      omega
    have hsidx : rng.nats 0 % solution.routes.flatten.length <
        solution.routes.flatten.length := Nat.mod_lt _ hflen
    set sd := solution.routes.flatten.getD
      (rng.nats 0 % solution.routes.flatten.length) 0 with hsd
    have hmemF : sd ∈ solution.routes.flatten := by
      rw [hsd, List.getD_eq_getElem _ 0 hsidx]
      exact List.getElem_mem hsidx
    have hrc := remove_customer_conserve solution.routes sd hmemF
    have hinv : ((solution.routes.flatten.eraseIdx
        (rng.nats 0 % solution.routes.flatten.length)) : Multiset ℕ) =
        servedM (remove_customer solution.routes sd) := by
      have he := multiset_eraseIdx solution.routes.flatten
        (rng.nats 0 % solution.routes.flatten.length) hsidx
      have he2 : (solution.routes.flatten : Multiset ℕ) = servedM solution.routes :=
        rfl
      rw [he2, ← hsd] at he
      exact add_right_cancel (he.trans hrc.symm)
    set L := shawLoop dm customers
      (max (round (((solution.routes.map List.length).sum : ℚ) * degree)).toNat
        1 - 1)
      [sd]
      (solution.routes.flatten.eraseIdx
        (rng.nats 0 % solution.routes.flatten.length))
      (remove_customer solution.routes sd) with hL
    rw [(remove_empty_routes_conserve
      ⟨L.1, solution.unassigned ++ L.2, solution.total_distance⟩).1,
      (remove_empty_routes_conserve
      ⟨L.1, solution.unassigned ++ L.2, solution.total_distance⟩).2]
    have hloop := shawLoop_conserve dm customers
      (max (round (((solution.routes.map List.length).sum : ℚ) * degree)).toNat
        1 - 1)
      [sd]
      (solution.routes.flatten.eraseIdx
        (rng.nats 0 % solution.routes.flatten.length))
      (remove_customer solution.routes sd)
      hinv
    rw [← hL] at hloop
    have hlist : ((solution.unassigned ++ L.2 : List ℕ) : Multiset ℕ) =
        (solution.unassigned : Multiset ℕ) + ↑L.2 := by
      apply Multiset.coe_eq_coe.mpr
      exact List.Perm.refl _
    have hsing : (([sd] : List ℕ) : Multiset ℕ) = ({sd} : Multiset ℕ) := rfl
    show servedM L.1 + ((solution.unassigned ++ L.2 : List ℕ) : Multiset ℕ) = _
    rw [hlist]
    calc servedM L.1 + ((solution.unassigned : Multiset ℕ) + ↑L.2)
        = (servedM L.1 + ↑L.2) + (solution.unassigned : Multiset ℕ) := by abel
      _ = (servedM (remove_customer solution.routes sd) +
          (([sd] : List ℕ) : Multiset ℕ)) +
          (solution.unassigned : Multiset ℕ) := by rw [hloop]
      _ = (servedM (remove_customer solution.routes sd) + ({sd} : Multiset ℕ)) +
          (solution.unassigned : Multiset ℕ) := by rw [hsing]
      _ = servedM solution.routes + (solution.unassigned : Multiset ℕ) := by
          rw [hrc]

/-- C2: customer conservation for every operator. The three intra-route
local-search operators return a permutation of the input route; the two
inter-route operators, the three ALNS destroy operators and the two ALNS
repair operators preserve the multiset of served-plus-unassigned customers:
no customer is duplicated or dropped. Deterministic RNGs are modelled as pure
streams, so each operator is a function of its inputs. -/
theorem C2_customer_conservation (fuel : ℕ) (route : List ℕ) (depot : ℕ)
    (dm : DistanceMatrix) (solution : Solution) (customers : List Customer)
    (vehicle : Vehicle) (rsol : RoutingSolution) (degree : ℚ) (rng : Rng)
    (capacity : ℤ) (k : ℕ) :
    (((two_opt_improve fuel route depot dm).1 : List ℕ) : Multiset ℕ) =
      (route : Multiset ℕ) ∧
    (((or_opt_improve fuel route depot dm).1 : List ℕ) : Multiset ℕ) =
      (route : Multiset ℕ) ∧
    (((three_opt_improve fuel route depot dm).1 : List ℕ) : Multiset ℕ) =
      (route : Multiset ℕ) ∧
    (servedM ((relocate_improve fuel solution customers dm vehicle).routes.map
        Route.customer_ids) +
      ((relocate_improve fuel solution customers dm vehicle).unassigned :
        Multiset ℕ) =
      servedM (solution.routes.map Route.customer_ids) +
        (solution.unassigned : Multiset ℕ)) ∧
    (servedM ((exchange_improve fuel solution customers dm vehicle).routes.map
        Route.customer_ids) +
      ((exchange_improve fuel solution customers dm vehicle).unassigned :
        Multiset ℕ) =
      servedM (solution.routes.map Route.customer_ids) +
        (solution.unassigned : Multiset ℕ)) ∧
    (servedM (RandomRemoval.destroy rsol degree rng).routes +
      ((RandomRemoval.destroy rsol degree rng).unassigned : Multiset ℕ) =
      servedM rsol.routes + (rsol.unassigned : Multiset ℕ)) ∧
    (servedM (WorstRemoval.destroy dm rsol degree rng).routes +
      ((WorstRemoval.destroy dm rsol degree rng).unassigned : Multiset ℕ) =
      servedM rsol.routes + (rsol.unassigned : Multiset ℕ)) ∧
    (servedM (ShawRemoval.destroy dm customers rsol degree rng).routes +
      ((ShawRemoval.destroy dm customers rsol degree rng).unassigned :
        Multiset ℕ) =
      servedM rsol.routes + (rsol.unassigned : Multiset ℕ)) ∧
    (servedM (GreedyInsertion.repair dm customers capacity rsol rng).routes +
      ((GreedyInsertion.repair dm customers capacity rsol rng).unassigned :
        Multiset ℕ) =
      servedM rsol.routes + (rsol.unassigned : Multiset ℕ)) ∧
    (servedM (RegretInsertion.repair k dm customers capacity rsol rng).routes +
      ((RegretInsertion.repair k dm customers capacity rsol rng).unassigned :
        Multiset ℕ) =
      servedM rsol.routes + (rsol.unassigned : Multiset ℕ)) := by
  refine ⟨two_opt_improve_conserve fuel route depot dm,
    or_opt_improve_conserve fuel route depot dm,
    three_opt_improve_conserve fuel route depot dm,
    relocate_improve_conserve fuel solution customers dm vehicle,
    exchange_improve_conserve fuel solution customers dm vehicle,
    randomRemoval_destroy_conserve rsol degree rng,
    worstRemoval_destroy_conserve dm rsol degree rng,
    shawRemoval_destroy_conserve dm customers rsol degree rng,
    ?_, ?_⟩
  · show servedM (greedyLoop dm customers capacity rsol.unassigned.length
      rsol.routes rsol.unassigned) + (([] : List ℕ) : Multiset ℕ) = _
    rw [greedyLoop_conserves dm customers capacity rsol.unassigned.length
      rsol.routes rsol.unassigned rfl]
    rw [show (([] : List ℕ) : Multiset ℕ) = 0 from rfl, add_zero]
  · show servedM (regretLoop k dm customers capacity rsol.unassigned.length
      rsol.routes rsol.unassigned) + (([] : List ℕ) : Multiset ℕ) = _
    rw [regretLoop_conserves k dm customers capacity rsol.unassigned.length
      rsol.routes rsol.unassigned rfl]
    rw [show (([] : List ℕ) : Multiset ℕ) = 0 from rfl, add_zero]

/- ### Capacitated split DP, src/ga/split.rs -/

/-- The contiguous tour segment `tour[i..j)` (half-open). -/
def segN (tour : List ℕ) (i j : ℕ) : List ℕ := (tour.take j).drop i

/-- Closed route distance of a tour segment against depot 0. -/
def segCost (tour : List ℕ) (dm : DistanceMatrix) (i j : ℕ) : ℚ :=
  route_distance (segN tour i j) 0 dm

/-- Load of a tour segment. -/
def segLoad (tour : List ℕ) (customers : List Customer) (i j : ℕ) : ℤ :=
  routeLoad customers (segN tour i j)

/-- `a ≤ b` on costs where `none` is `f64::INFINITY`. -/
def OptLE (a b : Option ℚ) : Prop :=
  ∀ qb, b = some qb → ∃ qa, a = some qa ∧ qa ≤ qb

/-- `new_cost < cost[j+1]` where `none` is infinity. -/
def ltInf (q : ℚ) : Option ℚ → Bool
  | none => true
  | some c => decide (q < c)

/-- The inner `for j in i..n` loop of `split` (lines 96–121), with the
accumulated load and open route distance, the capacity `break`, and the
`new_cost < cost[j+1]` relaxation. -/
def splitInnerLoop (tour : List ℕ) (customers : List Customer)
    (dm : DistanceMatrix) (capacity : ℤ) (i : ℕ) (ci : ℚ) :
    ℕ → ℕ → ℤ → ℚ → List (Option ℚ) × List ℕ → List (Option ℚ) × List ℕ
  | 0, _, _, _, st => st
  | fuel + 1, j, load, route_dist, st =>
    let cid := tour.getD j 0
    let load2 := load + (customers.getD cid dfltCustomer).demand
    if load2 > capacity then st
    else
      let route_dist2 := if j = i then dm.get 0 cid
        else route_dist + dm.get (tour.getD (j - 1) 0) cid
      let total_route := route_dist2 + dm.get cid 0
      let new_cost := ci + total_route
      let st2 := if ltInf new_cost (st.1.getD (j + 1) none)
        then (st.1.set (j + 1) (some new_cost), st.2.set (j + 1) i)
        else st
      splitInnerLoop tour customers dm capacity i ci fuel (j + 1) load2
        route_dist2 st2

/-- The outer `for i in 0..n` loop of `split` with the `cost[i] == INFINITY`
skip; `none` models infinity. -/
def splitOuter (tour : List ℕ) (customers : List Customer) (dm : DistanceMatrix)
    (capacity : ℤ) (n : ℕ) : List (Option ℚ) × List ℕ :=
  (List.range n).foldl (fun st i =>
    match st.1.getD i none with
    | none => st
    | some ci => splitInnerLoop tour customers dm capacity i ci (n - i) i 0 0 st)
    (some 0 :: List.replicate n none, List.replicate (n + 1) 0)

/-- `SplitResult` from `src/ga/split.rs` (total distance `none` = infinity). -/
structure SplitResult where
  routes : List (List ℕ)
  total_distance : Option ℚ

/-- The backtracking `while j > 0` loop of `split` (lines 124–130), fueled. -/
def splitBacktrack (tour : List ℕ) (pred : List ℕ) :
    ℕ → ℕ → List (List ℕ) → List (List ℕ)
  | 0, _, acc => acc
  | fuel + 1, j, acc =>
    if j = 0 then acc
    else splitBacktrack tour pred fuel (pred.getD j 0)
      (acc ++ [(tour.take j).drop (pred.getD j 0)])

/-- `split` from `src/ga/split.rs` (the final `routes.reverse()` is the
`.reverse` on the backtrack accumulator). -/
def split (tour : List ℕ) (customers : List Customer) (dm : DistanceMatrix)
    (capacity : ℤ) : SplitResult :=
  let n := tour.length
  if n = 0 then ⟨[], some 0⟩
  else
    let st := splitOuter tour customers dm capacity n
    ⟨(splitBacktrack tour st.2 n n []).reverse, st.1.getD n none⟩

/-- A contiguous tour segment that one vehicle can serve. -/
def SegFeasible (tour : List ℕ) (customers : List Customer) (capacity : ℤ)
    (i j : ℕ) : Prop :=
  i < j ∧ segLoad tour customers i j ≤ capacity

/-- Soundness of the `pred` table: every finite `cost[k]` with `k ≥ 1` is
`cost[pred k]` plus the cost of the feasible segment `[pred k, k)`, and
`pred k` is below `bound` (the outer-loop progress). -/
def splitChain (tour : List ℕ) (customers : List Customer) (dm : DistanceMatrix)
    (capacity : ℤ) (bound : ℕ) (st : List (Option ℚ) × List ℕ) : Prop :=
  ∀ k, 1 ≤ k → k ≤ tour.length → ∀ q, st.1.getD k none = some q →
    st.2.getD k 0 < k ∧ st.2.getD k 0 < bound ∧
    SegFeasible tour customers capacity (st.2.getD k 0) k ∧
    ∃ qp, st.1.getD (st.2.getD k 0) none = some qp ∧
      q = qp + segCost tour dm (st.2.getD k 0) k

/-- Relaxation completeness for processed start indices `i < icur`. -/
def splitCompl (tour : List ℕ) (customers : List Customer) (dm : DistanceMatrix)
    (capacity : ℤ) (icur : ℕ) (st : List (Option ℚ) × List ℕ) : Prop :=
  ∀ i, i < icur → ∀ j, i < j → j ≤ tour.length →
    SegFeasible tour customers capacity i j →
    ∀ qi, st.1.getD i none = some qi →
      ∃ qj, st.1.getD j none = some qj ∧ qj ≤ qi + segCost tour dm i j

/-- Invariant of the outer loop of `split` after `icur` iterations. -/
def SplitInv (tour : List ℕ) (customers : List Customer) (dm : DistanceMatrix)
    (capacity : ℤ) (icur : ℕ) (st : List (Option ℚ) × List ℕ) : Prop :=
  st.1.length = tour.length + 1 ∧ st.2.length = tour.length + 1 ∧
  st.1.getD 0 none = some 0 ∧
  splitChain tour customers dm capacity icur st ∧
  splitCompl tour customers dm capacity icur st

theorem OptLE_refl (a : Option ℚ) : OptLE a a :=
  fun qb hb => ⟨qb, hb, le_refl qb⟩

theorem OptLE_trans (a b c : Option ℚ) (h1 : OptLE a b) (h2 : OptLE b c) :
    OptLE a c := by
  intro qc hc
  obtain ⟨qb, hb, hbc⟩ := h2 qc hc
  obtain ⟨qa, ha, hab⟩ := h1 qb hb
  exact ⟨qa, ha, le_trans hab hbc⟩

theorem segN_self (l : List ℕ) (i : ℕ) : segN l i i = [] := by
  apply List.drop_eq_nil_of_le
  simpa using Nat.min_le_left i l.length

theorem segN_succ (l : List ℕ) (i j : ℕ) (hij : i ≤ j) (hj : j < l.length) :
    segN l i (j + 1) = segN l i j ++ [l.getD j 0] := by
  show (l.take (j + 1)).drop i = (l.take j).drop i ++ [l.getD j 0]
  have h1 : l.take (j + 1) = l.take j ++ [l.getD j 0] := by
    rw [List.take_succ]
    have : l[j]? = some l[j] := List.getElem?_eq_getElem hj
    rw [this]
    simp [List.getD, this]
  rw [h1, List.drop_append_of_le_length]
  simp [List.length_take]
  omega

theorem segN_split (l : List ℕ) (i a b : ℕ) (hia : i ≤ a) (hab : a ≤ b)
    (hb : b ≤ l.length) : segN l i b = segN l i a ++ segN l a b := by
  show (l.take b).drop i = (l.take a).drop i ++ (l.take b).drop a
  have h1 : l.take b = l.take a ++ (l.take b).drop a := take_split l a b hab
  conv_lhs => rw [h1]
  rw [List.drop_append_of_le_length]
  rw [List.length_take]
  omega

theorem segN_sub (l : List ℕ) (i j : ℕ) (c : ℕ) (h : c ∈ segN l i j) : c ∈ l :=
  List.mem_of_mem_take (List.mem_of_mem_drop h)

theorem routeLoad_append (customers : List Customer) (X Y : List ℕ) :
    routeLoad customers (X ++ Y) = routeLoad customers X + routeLoad customers Y := by
  simp [routeLoad]

theorem segLoad_succ (l : List ℕ) (customers : List Customer) (i j : ℕ)
    (hij : i ≤ j) (hj : j < l.length) :
    segLoad l customers i (j + 1) =
      segLoad l customers i j + (customers.getD (l.getD j 0) dfltCustomer).demand := by
  show routeLoad customers (segN l i (j + 1)) = _
  rw [segN_succ l i j hij hj, routeLoad_append]
  simp [routeLoad, segLoad]

theorem segLoad_nonneg (l : List ℕ) (customers : List Customer) (i j : ℕ)
    (hdem0 : ∀ c ∈ l, 0 ≤ (customers.getD c dfltCustomer).demand) :
    0 ≤ segLoad l customers i j := by
  apply List.sum_nonneg
  intro x hx
  obtain ⟨c, hc, rfl⟩ := List.mem_map.mp hx
  exact hdem0 c (segN_sub l i j c hc)

theorem segLoad_mono (l : List ℕ) (customers : List Customer) (i a b : ℕ)
    (hia : i ≤ a) (hab : a ≤ b) (hb : b ≤ l.length)
    (hdem0 : ∀ c ∈ l, 0 ≤ (customers.getD c dfltCustomer).demand) :
    segLoad l customers i a ≤ segLoad l customers i b := by
  have h1 : segLoad l customers i b =
      segLoad l customers i a + segLoad l customers a b := by
    show routeLoad customers (segN l i b) = _
    rw [segN_split l i a b hia hab hb, routeLoad_append]
    rfl
  have h2 := segLoad_nonneg l customers a b hdem0
  omega

theorem lastN_cons_ne (a : ℕ) (l : List ℕ) (h : l ≠ []) :
    lastN (a :: l) = lastN l := by
  cases l with
  | nil => exact absurd rfl h
  | cons b t => exact lastN_cons_cons a b t

theorem pathDist_seg_first (tour : List ℕ) (dm : DistanceMatrix) (i : ℕ)
    (hi : i < tour.length) :
    pathDist dm (0 :: segN tour i (i + 1)) = dm.get 0 (tour.getD i 0) := by
  rw [segN_succ tour i i (le_refl i) hi, segN_self]
  simp [pathDist]

theorem pathDist_seg_succ (tour : List ℕ) (dm : DistanceMatrix) (i j : ℕ)
    (hij : i < j) (hj : j < tour.length) :
    pathDist dm (0 :: segN tour i (j + 1)) =
      pathDist dm (0 :: segN tour i j) +
        dm.get (tour.getD (j - 1) 0) (tour.getD j 0) := by
  rw [segN_succ tour i j (le_of_lt hij) hj]
  have h1 : (0 :: (segN tour i j ++ [tour.getD j 0])) =
      (0 :: segN tour i j) ++ [tour.getD j 0] := by simp
  rw [h1, pathDist_concat dm (0 :: segN tour i j) (tour.getD j 0) (by simp)]
  have hne : segN tour i j ≠ [] := mid_ne_nil tour i j hij (le_of_lt hj)
  rw [lastN_cons_ne 0 (segN tour i j) hne]
  have h2 : lastN (segN tour i j) = tour.getD (j - 1) 0 :=
    lastN_mid tour i j hij (le_of_lt hj)
  rw [h2]

theorem segCost_closed (tour : List ℕ) (dm : DistanceMatrix) (i j : ℕ)
    (hij : i < j) (hj : j ≤ tour.length) :
    segCost tour dm i j =
      pathDist dm (0 :: segN tour i j) + dm.get (tour.getD (j - 1) 0) 0 := by
  have hne : segN tour i j ≠ [] := mid_ne_nil tour i j hij hj
  show route_distance (segN tour i j) 0 dm = _
  rw [route_distance_eq_path dm 0 (segN tour i j) hne]
  have h1 : (0 :: segN tour i j ++ [0]) = (0 :: segN tour i j) ++ [0] := by simp
  rw [h1, pathDist_concat dm (0 :: segN tour i j) 0 (by simp)]
  rw [lastN_cons_ne 0 (segN tour i j) hne]
  have h2 : lastN (segN tour i j) = tour.getD (j - 1) 0 := lastN_mid tour i j hij hj
  rw [h2]

theorem ltInf_true_lt (q : ℚ) (o : Option ℚ) (h : ltInf q o = true) :
    ∀ c, o = some c → q < c := by
  intro c hc
  subst hc
  simpa [ltInf] using h

theorem ltInf_false_le (q : ℚ) (o : Option ℚ) (h : ltInf q o = false) :
    ∃ c, o = some c ∧ c ≤ q := by
  cases o with
  | none => simp [ltInf] at h
  | some c =>
    refine ⟨c, rfl, ?_⟩
    have h2 : ¬ (q < c) := by simpa [ltInf] using h
    exact le_of_not_lt h2

/-- One full run of the inner relaxation loop: entries at or below `j` are
untouched, entries only decrease, the `pred` chain stays sound, and on exit
every feasible segment starting at `i` has been relaxed. -/
theorem splitInner_inv (tour : List ℕ) (customers : List Customer)
    (dm : DistanceMatrix) (capacity : ℤ) (i : ℕ) (ci : ℚ)
    (hdem0 : ∀ c ∈ tour, 0 ≤ (customers.getD c dfltCustomer).demand) :
    ∀ fuel j load route_dist st,
    j + fuel = tour.length → i ≤ j →
    load = segLoad tour customers i j →
    route_dist = pathDist dm (0 :: segN tour i j) →
    st.1.length = tour.length + 1 → st.2.length = tour.length + 1 →
    st.1.getD 0 none = some 0 →
    st.1.getD i none = some ci →
    splitChain tour customers dm capacity (i + 1) st →
    (∀ j2, i < j2 → j2 ≤ j → SegFeasible tour customers capacity i j2 →
      OptLE (st.1.getD j2 none) (some (ci + segCost tour dm i j2))) →
    ∀ st2, st2 = splitInnerLoop tour customers dm capacity i ci fuel j load
      route_dist st →
    st2.1.length = tour.length + 1 ∧ st2.2.length = tour.length + 1 ∧
    (∀ k, k ≤ j → st2.1.getD k none = st.1.getD k none) ∧
    (∀ k, OptLE (st2.1.getD k none) (st.1.getD k none)) ∧
    st2.1.getD 0 none = some 0 ∧
    splitChain tour customers dm capacity (i + 1) st2 ∧
    (∀ j2, i < j2 → j2 ≤ tour.length → SegFeasible tour customers capacity i j2 →
      OptLE (st2.1.getD j2 none) (some (ci + segCost tour dm i j2))) := by
  intro fuel
  induction fuel with
  | zero =>
    intro j load route_dist st hfj hij hload hrd hl1 hl2 hz hci hchain hpast st2 hst2
    have hjn : j = tour.length := by omega
    simp only [splitInnerLoop] at hst2
    subst hst2
    refine ⟨hl1, hl2, fun k _ => rfl, fun k => OptLE_refl _, hz, hchain, ?_⟩
    intro j2 h1 h2 h3
    exact hpast j2 h1 (by omega) h3
  | succ fuel ih =>
    intro j load route_dist st hfj hij hload hrd hl1 hl2 hz hci hchain hpast st2 hst2
    have hjlt : j < tour.length := by omega
    subst hload
    subst hrd
    simp only [splitInnerLoop] at hst2
    by_cases hbr : segLoad tour customers i j +
        (customers.getD (tour.getD j 0) dfltCustomer).demand > capacity
    · rw [if_pos hbr] at hst2
      subst hst2
      refine ⟨hl1, hl2, fun k _ => rfl, fun k => OptLE_refl _, hz, hchain, ?_⟩
      intro j2 h1 h2 h3
      rcases le_or_lt j2 j with hle | hgt
      · exact hpast j2 h1 hle h3
      · exfalso
        have hm : segLoad tour customers i (j + 1) ≤ segLoad tour customers i j2 :=
          segLoad_mono tour customers i (j + 1) j2 (by omega) (by omega) h2 hdem0
        have hs := segLoad_succ tour customers i j hij hjlt
        have := h3.2
        omega
    · rw [if_neg hbr] at hst2
      have hrd2 : (if j = i then dm.get 0 (tour.getD j 0)
          else pathDist dm (0 :: segN tour i j) +
            dm.get (tour.getD (j - 1) 0) (tour.getD j 0)) =
          pathDist dm (0 :: segN tour i (j + 1)) := by
        by_cases hji : j = i
        · subst hji
          rw [if_pos rfl, pathDist_seg_first tour dm j hjlt]
        · rw [if_neg hji]
          exact (pathDist_seg_succ tour dm i j (lt_of_le_of_ne hij (Ne.symm hji))
            hjlt).symm
      rw [hrd2] at hst2
      have hload2 : segLoad tour customers i j +
          (customers.getD (tour.getD j 0) dfltCustomer).demand =
          segLoad tour customers i (j + 1) :=
        (segLoad_succ tour customers i j hij hjlt).symm
      rw [hload2] at hst2
      have hfeas : SegFeasible tour customers capacity i (j + 1) := by
        refine ⟨by omega, ?_⟩
        rw [← hload2]
        omega
      have hnc : ci + (pathDist dm (0 :: segN tour i (j + 1)) +
          dm.get (tour.getD j 0) 0) = ci + segCost tour dm i (j + 1) := by
        rw [segCost_closed tour dm i (j + 1) (by omega) (by omega)]
        rw [Nat.add_sub_cancel]
      rw [hnc] at hst2
      by_cases himp : ltInf (ci + segCost tour dm i (j + 1))
          (st.1.getD (j + 1) none) = true
      · rw [if_pos himp] at hst2
        have hlt1 : j + 1 < st.1.length := by omega
        have hlt2 : j + 1 < st.2.length := by omega
        obtain ⟨c1, c2, c3, c4, c5, c6, c7⟩ := ih (j + 1)
          (segLoad tour customers i (j + 1))
          (pathDist dm (0 :: segN tour i (j + 1)))
          (st.1.set (j + 1) (some (ci + segCost tour dm i (j + 1))),
            st.2.set (j + 1) i)
          (by omega) (by omega) rfl rfl
          (by simpa using hl1) (by simpa using hl2)
          (by rw [getD_set_ne st.1 (j + 1) 0 _ none (by omega)]; exact hz)
          (by rw [getD_set_ne st.1 (j + 1) i _ none (by omega)]; exact hci)
          (by
            intro k hk1 hk2 q hq
            by_cases hkj : k = j + 1
            · subst hkj
              rw [getD_set_self st.1 (j + 1) _ none hlt1] at hq
              rw [getD_set_self st.2 (j + 1) i 0 hlt2]
              obtain rfl : ci + segCost tour dm i (j + 1) = q := by
                injection hq
              refine ⟨by omega, by omega, hfeas, ci, ?_, rfl⟩
              rw [getD_set_ne st.1 (j + 1) i _ none (by omega)]
              exact hci
            · rw [getD_set_ne st.1 (j + 1) k _ none (Ne.symm hkj)] at hq
              rw [getD_set_ne st.2 (j + 1) k i 0 (Ne.symm hkj)]
              obtain ⟨d1, d2, d3, qp, d4, d5⟩ := hchain k hk1 hk2 q hq
              refine ⟨d1, d2, d3, qp, ?_, d5⟩
              rw [getD_set_ne st.1 (j + 1) (st.2.getD k 0) _ none (by omega)]
              exact d4)
          (by
            intro j2 h1 h2 h3
            rcases Nat.eq_or_lt_of_le h2 with hEq | hlt
            · subst hEq
              rw [getD_set_self st.1 (j + 1) _ none hlt1]
              exact OptLE_refl _
            · rw [getD_set_ne st.1 (j + 1) j2 _ none (by omega)]
              exact hpast j2 h1 (by omega) h3)
          st2 hst2
        refine ⟨c1, c2, ?_, ?_, c5, c6, c7⟩
        · intro k hk
          rw [c3 k (by omega)]
          exact getD_set_ne st.1 (j + 1) k _ none (by omega)
        · intro k
          refine OptLE_trans _ _ _ (c4 k) ?_
          by_cases hkj : k = j + 1
          · subst hkj
            rw [getD_set_self st.1 (j + 1) _ none hlt1]
            intro qb hb
            exact ⟨_, rfl, le_of_lt (ltInf_true_lt _ _ himp qb hb)⟩
          · rw [getD_set_ne st.1 (j + 1) k _ none (Ne.symm hkj)]
            exact OptLE_refl _
      · rw [if_neg himp] at hst2
        obtain ⟨c1, c2, c3, c4, c5, c6, c7⟩ := ih (j + 1)
          (segLoad tour customers i (j + 1))
          (pathDist dm (0 :: segN tour i (j + 1)))
          st (by omega) (by omega) rfl rfl hl1 hl2 hz hci hchain
          (by
            intro j2 h1 h2 h3
            rcases Nat.eq_or_lt_of_le h2 with hEq | hlt
            · subst hEq
              have hfalse : ltInf (ci + segCost tour dm i (j + 1))
                  (st.1.getD (j + 1) none) = false := by
                simpa using himp
              obtain ⟨c, hc, hle⟩ := ltInf_false_le _ _ hfalse
              rw [hc]
              refine fun qb hb => ⟨c, rfl, ?_⟩
              injection hb with h9
              rw [← h9]
              exact hle
            · exact hpast j2 h1 (by omega) h3)
          st2 hst2
        exact ⟨c1, c2, fun k hk => c3 k (by omega), c4, c5, c6, c7⟩

/-- One outer iteration of `split` (the body of `for i in 0..n` with the
infinity skip), named for the fold proofs. -/
def splitOuterStep (tour : List ℕ) (customers : List Customer)
    (dm : DistanceMatrix) (capacity : ℤ) (n : ℕ)
    (st : List (Option ℚ) × List ℕ) (i : ℕ) : List (Option ℚ) × List ℕ :=
  match st.1.getD i none with
  | none => st
  | some ci => splitInnerLoop tour customers dm capacity i ci (n - i) i 0 0 st

theorem splitOuter_eq_foldl (tour : List ℕ) (customers : List Customer)
    (dm : DistanceMatrix) (capacity : ℤ) (n : ℕ) :
    splitOuter tour customers dm capacity n =
    (List.range n).foldl (splitOuterStep tour customers dm capacity n)
      (some 0 :: List.replicate n none, List.replicate (n + 1) 0) := rfl

theorem getD_replicate_none (n idx : ℕ) :
    (List.replicate n (none : Option ℚ)).getD idx none = none := by
  rcases lt_or_ge idx n with h | h
  · simp [List.getD, List.getElem?_replicate, h]
  · simp [List.getD, List.getElem?_eq_none, h]

theorem splitOuterStep_inv (tour : List ℕ) (customers : List Customer)
    (dm : DistanceMatrix) (capacity : ℤ)
    (hdem0 : ∀ c ∈ tour, 0 ≤ (customers.getD c dfltCustomer).demand)
    (i : ℕ) (st : List (Option ℚ) × List ℕ) (hi : i < tour.length)
    (hinv : SplitInv tour customers dm capacity i st) :
    SplitInv tour customers dm capacity (i + 1)
      (splitOuterStep tour customers dm capacity tour.length st i) := by
  obtain ⟨hl1, hl2, hz, hchain, hcompl⟩ := hinv
  have hchain2 : splitChain tour customers dm capacity (i + 1) st := by
    intro k hk1 hk2 q hq
    obtain ⟨d1, d2, d3, d4⟩ := hchain k hk1 hk2 q hq
    exact ⟨d1, by omega, d3, d4⟩
  unfold splitOuterStep
  cases hgi : st.1.getD i none with
  | none =>
    refine ⟨hl1, hl2, hz, hchain2, ?_⟩
    intro i2 hi2 j hj1 hj2 hf qi hqi
    rcases Nat.lt_or_ge i2 i with h | h
    · exact hcompl i2 h j hj1 hj2 hf qi hqi
    · have hii : i2 = i := by omega
      subst hii
      rw [hgi] at hqi
      exact absurd hqi (by simp)
  | some ci =>
    obtain ⟨c1, c2, c3, c4, c5, c6, c7⟩ :=
      splitInner_inv tour customers dm capacity i ci hdem0
        (tour.length - i) i 0 0 st (by omega) (le_refl i)
        (by simp [segLoad, segN_self, routeLoad])
        (by rw [segN_self]; rfl)
        hl1 hl2 hz hgi hchain2
        (fun j2 h1 h2 _ => absurd (lt_of_lt_of_le h1 h2) (lt_irrefl i))
        _ rfl
    refine ⟨c1, c2, c5, c6, ?_⟩
    intro i2 hi2 j hj1 hj2 hf qi hqi
    rcases Nat.lt_or_ge i2 i with h | h
    · rw [c3 i2 (by omega)] at hqi
      obtain ⟨qj, hqj, hle⟩ := hcompl i2 h j hj1 hj2 hf qi hqi
      obtain ⟨qj2, hqj2, hle2⟩ := c4 j qj hqj
      exact ⟨qj2, hqj2, le_trans hle2 hle⟩
    · have hii : i2 = i := by omega
      subst hii
      rw [c3 i2 (le_refl i2), hgi] at hqi
      injection hqi with h9
      obtain ⟨qj, hqj, hle⟩ := c7 j hj1 hj2 hf _ rfl
      refine ⟨qj, hqj, ?_⟩
      rw [← h9]
      exact hle

theorem splitOuter_inv (tour : List ℕ) (customers : List Customer)
    (dm : DistanceMatrix) (capacity : ℤ)
    (hdem0 : ∀ c ∈ tour, 0 ≤ (customers.getD c dfltCustomer).demand) :
    SplitInv tour customers dm capacity tour.length
      (splitOuter tour customers dm capacity tour.length) := by
  have key : ∀ k m st, m + k = tour.length →
      SplitInv tour customers dm capacity m st →
      SplitInv tour customers dm capacity tour.length
        ((List.range' m k).foldl
          (splitOuterStep tour customers dm capacity tour.length) st) := by
    intro k
    induction k with
    | zero =>
      intro m st hm hinv
      have hm2 : m = tour.length := by omega
      subst hm2
      simpa using hinv
    | succ k ihk =>
      intro m st hm hinv
      rw [List.range'_succ m k 1, List.foldl_cons]
      exact ihk (m + 1) _ (by omega)
        (splitOuterStep_inv tour customers dm capacity hdem0 m st (by omega) hinv)
  have hinit : SplitInv tour customers dm capacity 0
      (some 0 :: List.replicate tour.length none,
        List.replicate (tour.length + 1) 0) := by
    refine ⟨by simp, by simp, rfl, ?_, ?_⟩
    · intro k hk1 hk2 q hq
      exfalso
      cases k with
      | zero => omega
      | succ k2 =>
        have : ((some 0 : Option ℚ) :: List.replicate tour.length none).getD
            (k2 + 1) none = (List.replicate tour.length
              (none : Option ℚ)).getD k2 none := by
          simp [List.getD]
        rw [this, getD_replicate_none] at hq
        exact Option.noConfusion hq
    · intro i2 hi2
      omega
  have hkey := key tour.length 0 _ (by omega) hinit
  rw [splitOuter_eq_foldl, List.range_eq_range']
  exact hkey

/-- Every capacity-feasible partition of a tour prefix bounds the DP value
at its end index (relaxation completeness, iterated along the partition). -/
theorem split_min_aux (tour : List ℕ) (customers : List Customer)
    (dm : DistanceMatrix) (capacity : ℤ) (st : List (Option ℚ) × List ℕ)
    (hz : st.1.getD 0 none = some 0)
    (hc : splitCompl tour customers dm capacity tour.length st) :
    ∀ (P : List (List ℕ)) (k : ℕ), k ≤ tour.length →
      P.flatten = tour.take k →
      (∀ r ∈ P, r ≠ [] ∧ routeLoad customers r ≤ capacity) →
      ∃ q, st.1.getD k none = some q ∧
        q ≤ (P.map (fun r => route_distance r 0 dm)).sum := by
  intro P
  induction P using List.reverseRecOn with
  | nil =>
    intro k hk hflat hmem
    have htk : tour.take k = [] := by simpa using hflat.symm
    have hk0 : k = 0 := by
      rcases List.take_eq_nil_iff.mp htk with h | h
      · exact h
      · rw [h] at hk
        simpa using hk
    subst hk0
    exact ⟨0, hz, by simp⟩
  | append_singleton P2 r ih =>
    intro k hk hflat hmem
    have hrne : r ≠ [] := (hmem r (by simp)).1
    have hflat2 : P2.flatten ++ r = tour.take k := by simpa using hflat
    have hlen : P2.flatten.length + r.length = k := by
      have h1 := congrArg List.length hflat2
      simp only [List.length_append, List.length_take] at h1
      omega
    have hrlen : 1 ≤ r.length := List.length_pos.mpr hrne
    have hk2k : P2.flatten.length < k := by omega
    have hA : P2.flatten = tour.take P2.flatten.length := by
      have h1 : (P2.flatten ++ r).take P2.flatten.length = P2.flatten :=
        List.take_left P2.flatten r
      rw [hflat2, List.take_take, min_eq_left (le_of_lt hk2k)] at h1
      exact h1.symm
    have hr : r = segN tour P2.flatten.length k := by
      have h1 : (P2.flatten ++ r).drop P2.flatten.length = r :=
        List.drop_left P2.flatten r
      rw [hflat2] at h1
      exact h1.symm
    obtain ⟨q2, hq2, hle2⟩ := ih P2.flatten.length (by omega) hA
      (fun r2 hr2 => hmem r2 (by simp [hr2]))
    have hfeas : SegFeasible tour customers capacity P2.flatten.length k := by
      refine ⟨hk2k, ?_⟩
      show routeLoad customers (segN tour P2.flatten.length k) ≤ capacity
      rw [← hr]
      exact (hmem r (by simp)).2
    obtain ⟨qk, hqk, hlek⟩ := hc P2.flatten.length (by omega) k hk2k hk hfeas q2 hq2
    refine ⟨qk, hqk, ?_⟩
    have hsum : ((P2 ++ [r]).map (fun r => route_distance r 0 dm)).sum =
        (P2.map (fun r => route_distance r 0 dm)).sum + route_distance r 0 dm := by
      simp
    rw [hsum]
    have hseg : segCost tour dm P2.flatten.length k = route_distance r 0 dm := by
      show route_distance (segN tour P2.flatten.length k) 0 dm = _
      rw [← hr]
    calc qk ≤ q2 + segCost tour dm P2.flatten.length k := hlek
      _ = q2 + route_distance r 0 dm := by rw [hseg]
      _ ≤ (P2.map (fun r => route_distance r 0 dm)).sum + route_distance r 0 dm :=
        add_le_add_right hle2 _

/-- The backtrack loop decodes the `pred` chain into a feasible partition of
`tour.take j` whose total closed distance is exactly `cost[j]`. -/
theorem splitBacktrack_spec (tour : List ℕ) (customers : List Customer)
    (dm : DistanceMatrix) (capacity : ℤ) (st : List (Option ℚ) × List ℕ)
    (hz : st.1.getD 0 none = some 0)
    (hchain : splitChain tour customers dm capacity tour.length st) :
    ∀ fuel j, j ≤ fuel → j ≤ tour.length → ∀ q, st.1.getD j none = some q →
      ∃ segs : List (List ℕ),
        (∀ acc, splitBacktrack tour st.2 fuel j acc = acc ++ segs) ∧
        segs.reverse.flatten = tour.take j ∧
        (∀ r ∈ segs, r ≠ [] ∧ routeLoad customers r ≤ capacity) ∧
        (segs.map (fun r => route_distance r 0 dm)).sum = q := by
  intro fuel
  induction fuel with
  | zero =>
    intro j hj hjn q hq
    have hj0 : j = 0 := by omega
    subst hj0
    rw [hz] at hq
    injection hq with h9
    exact ⟨[], fun acc => by simp [splitBacktrack], by simp, by simp,
      by simp [← h9]⟩
  | succ fuel ih =>
    intro j hj hjn q hq
    by_cases hj0 : j = 0
    · subst hj0
      rw [hz] at hq
      injection hq with h9
      exact ⟨[], fun acc => by simp [splitBacktrack, ← h9], by simp, by simp,
        by simp [← h9]⟩
    · obtain ⟨d1, d2, d3, qp, d4, d5⟩ := hchain j (by omega) hjn q hq
      set p := st.2.getD j 0 with hp
      obtain ⟨segs2, e1, e2, e3, e4⟩ := ih p (by omega) (by omega) qp d4
      refine ⟨segN tour p j :: segs2, ?_, ?_, ?_, ?_⟩
      · intro acc
        show splitBacktrack tour st.2 (fuel + 1) j acc = _
        simp only [splitBacktrack]
        rw [if_neg hj0, ← hp]
        rw [e1 (acc ++ [(tour.take j).drop p])]
        simp [segN, List.append_assoc]
      · simp only [List.reverse_cons, List.flatten_append, List.flatten_cons,
          List.flatten_nil, List.append_nil]
        rw [e2]
        exact (take_split tour p j (le_of_lt d1)).symm
      · intro r hr
        rcases List.mem_cons.mp hr with h | h
        · subst h
          exact ⟨mid_ne_nil tour p j d1 hjn, d3.2⟩
        · exact e3 r h
      · simp only [List.map_cons, List.sum_cons]
        rw [e4, d5]
        exact add_comm _ _

theorem flatten_nil_of_nonempty (P : List (List ℕ)) (hf : P.flatten = [])
    (hm : ∀ r ∈ P, r ≠ []) : P = [] := by
  cases P with
  | nil => rfl
  | cons r P2 =>
    exfalso
    simp only [List.flatten_cons] at hf
    exact hm r (by simp) (List.append_eq_nil.mp hf).1

theorem flatten_map_singleton (l : List ℕ) :
    (l.map (fun c => [c])).flatten = l := by
  induction l with
  | nil => rfl
  | cons a t ih => simp [ih]

/-- C1: for every tour and customer list whose tour members have non-negative
demands each at most the capacity, `split` returns a partition of the tour into
contiguous non-empty routes whose loads are at most the capacity, and its
total distance is finite, equals the sum of the returned routes' depot-closed
distances, and is minimal over all partitions of the tour into consecutive
contiguous capacity-feasible routes. -/
theorem C1_split_dp (tour : List ℕ) (customers : List Customer)
    (dm : DistanceMatrix) (capacity : ℤ)
    (hdem : ∀ c ∈ tour, 0 ≤ (customers.getD c dfltCustomer).demand ∧
      (customers.getD c dfltCustomer).demand ≤ capacity) :
    (split tour customers dm capacity).routes.flatten = tour ∧
    (∀ r ∈ (split tour customers dm capacity).routes,
      r ≠ [] ∧ routeLoad customers r ≤ capacity) ∧
    ∃ q, (split tour customers dm capacity).total_distance = some q ∧
      q = ((split tour customers dm capacity).routes.map
        (fun r => route_distance r 0 dm)).sum ∧
      ∀ P : List (List ℕ), P.flatten = tour →
        (∀ r ∈ P, r ≠ [] ∧ routeLoad customers r ≤ capacity) →
        q ≤ (P.map (fun r => route_distance r 0 dm)).sum := by
  have hdem0 : ∀ c ∈ tour, 0 ≤ (customers.getD c dfltCustomer).demand :=
    fun c hc => (hdem c hc).1
  by_cases hn : tour.length = 0
  · have ht : tour = [] := List.length_eq_zero.mp hn
    subst ht
    have hs : split [] customers dm capacity = ⟨[], some 0⟩ := rfl
    refine ⟨by rw [hs]; rfl, by rw [hs]; simp, 0, by rw [hs], by rw [hs]; simp, ?_⟩
    intro P hP hmem
    have hP0 : P = [] := flatten_nil_of_nonempty P hP (fun r hr => (hmem r hr).1)
    subst hP0
    simp
  · obtain ⟨hl1, hl2, hz, hchain, hcompl⟩ :=
      splitOuter_inv tour customers dm capacity hdem0
    set stF := splitOuter tour customers dm capacity tour.length with hstF
    have hs : split tour customers dm capacity =
        ⟨(splitBacktrack tour stF.2 tour.length tour.length []).reverse,
          stF.1.getD tour.length none⟩ := by
      simp only [split]
      rw [if_neg hn]
    have hsing : (tour.map (fun c => [c])).flatten = tour.take tour.length := by
      rw [List.take_length]
      exact flatten_map_singleton tour
    obtain ⟨qn, hqn, _⟩ := split_min_aux tour customers dm capacity stF hz hcompl
      (tour.map (fun c => [c])) tour.length (le_refl _) hsing
      (fun r hr => by
        obtain ⟨c, hc, rfl⟩ := List.mem_map.mp hr
        exact ⟨by simp, by simpa [routeLoad] using (hdem c hc).2⟩)
    obtain ⟨segs, e1, e2, e3, e4⟩ := splitBacktrack_spec tour customers dm
      capacity stF hz hchain tour.length tour.length (le_refl _) (le_refl _)
      qn hqn
    have hroutes : (split tour customers dm capacity).routes = segs.reverse := by
      rw [hs]
      show (splitBacktrack tour stF.2 tour.length tour.length []).reverse = _
      rw [e1 []]
      simp
    refine ⟨?_, ?_, qn, ?_, ?_, ?_⟩
    · rw [hroutes, e2, List.take_length]
    · intro r hr
      rw [hroutes] at hr
      exact e3 r (List.mem_reverse.mp hr)
    · rw [hs]
      exact hqn
    · rw [hroutes]
      have h7 : ((segs.reverse).map (fun r => route_distance r 0 dm)).sum = qn := by
        rw [List.map_reverse, List.sum_reverse]
        exact e4
      exact h7.symm
    · intro P hP hmem
      obtain ⟨q2, hq2, hle⟩ := split_min_aux tour customers dm capacity stF hz
        hcompl P tour.length (le_refl _) (by rw [List.take_length]; exact hP) hmem
      rw [hqn] at hq2
      injection hq2 with h9
      rw [h9]
      exact hle

theorem C1_split_dp_witness :
    (∀ c ∈ [1, 2],
      0 ≤ (([dfltCustomer, Customer.new 1 3 0 1 0,
        Customer.new 2 4 0 1 0].getD c dfltCustomer).demand) ∧
      (([dfltCustomer, Customer.new 1 3 0 1 0,
        Customer.new 2 4 0 1 0].getD c dfltCustomer).demand) ≤ 2) ∧
    ((split [1, 2] [dfltCustomer, Customer.new 1 3 0 1 0,
        Customer.new 2 4 0 1 0] (DistanceMatrix.new 3) 2).routes.flatten = [1, 2] ∧
    (∀ r ∈ (split [1, 2] [dfltCustomer, Customer.new 1 3 0 1 0,
        Customer.new 2 4 0 1 0] (DistanceMatrix.new 3) 2).routes,
      r ≠ [] ∧ routeLoad [dfltCustomer, Customer.new 1 3 0 1 0,
        Customer.new 2 4 0 1 0] r ≤ 2) ∧
    ∃ q, (split [1, 2] [dfltCustomer, Customer.new 1 3 0 1 0,
        Customer.new 2 4 0 1 0] (DistanceMatrix.new 3) 2).total_distance = some q ∧
      q = ((split [1, 2] [dfltCustomer, Customer.new 1 3 0 1 0,
        Customer.new 2 4 0 1 0] (DistanceMatrix.new 3) 2).routes.map
        (fun r => route_distance r 0 (DistanceMatrix.new 3))).sum ∧
      ∀ P : List (List ℕ), P.flatten = [1, 2] →
        (∀ r ∈ P, r ≠ [] ∧ routeLoad [dfltCustomer, Customer.new 1 3 0 1 0,
          Customer.new 2 4 0 1 0] r ≤ 2) →
        q ≤ (P.map (fun r => route_distance r 0 (DistanceMatrix.new 3))).sum) :=
  ⟨by decide, C1_split_dp [1, 2] [dfltCustomer, Customer.new 1 3 0 1 0,
    Customer.new 2 4 0 1 0] (DistanceMatrix.new 3) 2 (by decide)⟩

/- ### Time-window-aware split, src/ga/split_tw.rs -/

/-- `time > tw.due()` for the customer's optional window. -/
def twViolated (c : Customer) (t : ℚ) : Bool :=
  match c.time_window with
  | none => false
  | some tw => decide (t > tw.due)

/-- `time.max(tw.ready())` for the customer's optional window. -/
def twAdjust (c : Customer) (t : ℚ) : ℚ :=
  match c.time_window with
  | none => t
  | some tw => max t tw.ready

/-- Forward timing simulation of one sub-route: arrival = time + travel,
`none` on a window violation, else wait to `ready` and add service. -/
def twSimRun (customers : List Customer) (dm : DistanceMatrix) :
    List ℕ → ℕ → ℚ → Option ℚ
  | [], _, time => some time
  | c :: rest, prev, time =>
    let cust := customers.getD c dfltCustomer
    let t1 := time + dm.get prev c
    if twViolated cust t1 then none
    else twSimRun customers dm rest c (twAdjust cust t1 + cust.service_duration)

/-- The inner `for j in i..n` loop of `split_tw` (lines 95–133): capacity
break, timing with window break and waiting, then the relaxation. -/
def splitTWInnerLoop (tour : List ℕ) (customers : List Customer)
    (dm : DistanceMatrix) (capacity : ℤ) (i : ℕ) (ci : ℚ) :
    ℕ → ℕ → ℤ → ℚ → ℚ → List (Option ℚ) × List ℕ → List (Option ℚ) × List ℕ
  | 0, _, _, _, _, st => st
  | fuel + 1, j, load, route_dist, time, st =>
    let cid := tour.getD j 0
    let cust := customers.getD cid dfltCustomer
    let load2 := load + cust.demand
    if load2 > capacity then st
    else
      let route_dist2 := if j = i then dm.get 0 cid
        else route_dist + dm.get (tour.getD (j - 1) 0) cid
      let time1 := if j = i then dm.get 0 cid
        else time + dm.get (tour.getD (j - 1) 0) cid
      if twViolated cust time1 then st
      else
        let time2 := twAdjust cust time1 + cust.service_duration
        let new_cost := ci + (route_dist2 + dm.get cid 0)
        let st2 := if ltInf new_cost (st.1.getD (j + 1) none)
          then (st.1.set (j + 1) (some new_cost), st.2.set (j + 1) i)
          else st
        splitTWInnerLoop tour customers dm capacity i ci fuel (j + 1) load2
          route_dist2 time2 st2

/-- The outer loop of `split_tw` with the infinity skip. -/
def splitTWOuter (tour : List ℕ) (customers : List Customer)
    (dm : DistanceMatrix) (capacity : ℤ) (n : ℕ) : List (Option ℚ) × List ℕ :=
  (List.range n).foldl (fun st i =>
    match st.1.getD i none with
    | none => st
    | some ci => splitTWInnerLoop tour customers dm capacity i ci (n - i) i 0 0 0 st)
    (some 0 :: List.replicate n none, List.replicate (n + 1) 0)

/-- The `for j in (0..=n).rev()` scan for the farthest finite `cost[j]`
(lines 140–146); `last` stays 0 when nothing below is finite. -/
def lastReachable (cost : List (Option ℚ)) : ℕ → ℕ
  | 0 => 0
  | j + 1 =>
    match cost.getD (j + 1) none with
    | some _ => j + 1
    | none => lastReachable cost j

/-- `split_tw` from `src/ga/split_tw.rs`: full backtrack from `n` when
`cost[n]` is finite, else partial backtrack from the farthest reachable
index. -/
def split_tw (tour : List ℕ) (customers : List Customer) (dm : DistanceMatrix)
    (capacity : ℤ) : SplitResult :=
  let n := tour.length
  if n = 0 then ⟨[], some 0⟩
  else
    let st := splitTWOuter tour customers dm capacity n
    match st.1.getD n none with
    | none =>
      let last := lastReachable st.1 n
      ⟨(splitBacktrack tour st.2 last last []).reverse,
        if 0 < last then st.1.getD last none else some 0⟩
    | some cn => ⟨(splitBacktrack tour st.2 n n []).reverse, some cn⟩

/-- Endpoint of a partial route for resuming the timing simulation. -/
def prevEnd (prev : ℕ) (r : List ℕ) : ℕ :=
  match r with
  | [] => prev
  | _ => lastN r

theorem twSimRun_append (customers : List Customer) (dm : DistanceMatrix) :
    ∀ (r1 r2 : List ℕ) (prev : ℕ) (t : ℚ),
    twSimRun customers dm (r1 ++ r2) prev t =
      match twSimRun customers dm r1 prev t with
      | none => none
      | some t2 => twSimRun customers dm r2 (prevEnd prev r1) t2 := by
  intro r1
  induction r1 with
  | nil => intro r2 prev t; rfl
  | cons x rest ih =>
    intro r2 prev t
    show twSimRun customers dm (x :: (rest ++ r2)) prev t = _
    simp only [twSimRun]
    by_cases hv : twViolated (customers.getD x dfltCustomer)
      (t + dm.get prev x) = true
    · rw [if_pos hv, if_pos hv]
    · rw [if_neg hv, if_neg hv, ih r2 x _]
      have hpe : prevEnd prev (x :: rest) = prevEnd x rest := by
        cases rest with
        | nil => rfl
        | cons y r => rfl
      rw [hpe]

/-- A contiguous tour segment that one vehicle can serve within capacity and
all time windows. -/
def SegFeasibleTW (tour : List ℕ) (customers : List Customer)
    (dm : DistanceMatrix) (capacity : ℤ) (i j : ℕ) : Prop :=
  i < j ∧ segLoad tour customers i j ≤ capacity ∧
  (twSimRun customers dm (segN tour i j) 0 0).isSome = true

/-- Non-negative demands for all tour members (the spec's data model). -/
def DemNonneg (tour : List ℕ) (customers : List Customer) : Prop :=
  ∀ c ∈ tour, 0 ≤ (customers.getD c dfltCustomer).demand

/-- `pred`-chain soundness for `split_tw`. -/
def splitChainTW (tour : List ℕ) (customers : List Customer)
    (dm : DistanceMatrix) (capacity : ℤ) (bound : ℕ)
    (st : List (Option ℚ) × List ℕ) : Prop :=
  ∀ k, 1 ≤ k → k ≤ tour.length → ∀ q, st.1.getD k none = some q →
    st.2.getD k 0 < k ∧ st.2.getD k 0 < bound ∧
    SegFeasibleTW tour customers dm capacity (st.2.getD k 0) k ∧
    ∃ qp, st.1.getD (st.2.getD k 0) none = some qp ∧
      q = qp + segCost tour dm (st.2.getD k 0) k

/-- Relaxation completeness for `split_tw` over processed start indices. -/
def splitComplTW (tour : List ℕ) (customers : List Customer)
    (dm : DistanceMatrix) (capacity : ℤ) (icur : ℕ)
    (st : List (Option ℚ) × List ℕ) : Prop :=
  ∀ i, i < icur → ∀ j, i < j → j ≤ tour.length →
    SegFeasibleTW tour customers dm capacity i j →
    ∀ qi, st.1.getD i none = some qi →
      ∃ qj, st.1.getD j none = some qj ∧ qj ≤ qi + segCost tour dm i j

/-- Outer-loop invariant of `split_tw`; completeness needs non-negative
demands (the capacity break is exact only then). -/
def SplitInvTW (tour : List ℕ) (customers : List Customer)
    (dm : DistanceMatrix) (capacity : ℤ) (icur : ℕ)
    (st : List (Option ℚ) × List ℕ) : Prop :=
  st.1.length = tour.length + 1 ∧ st.2.length = tour.length + 1 ∧
  st.1.getD 0 none = some 0 ∧
  splitChainTW tour customers dm capacity icur st ∧
  (DemNonneg tour customers → splitComplTW tour customers dm capacity icur st)

/-- Extending a sub-route's timing simulation by its next customer. -/
theorem twSimRun_seg_step (tour : List ℕ) (customers : List Customer)
    (dm : DistanceMatrix) (i j : ℕ) (time : ℚ)
    (hij : i ≤ j) (hj : j < tour.length)
    (ht : twSimRun customers dm (segN tour i j) 0 0 = some time) :
    twSimRun customers dm (segN tour i (j + 1)) 0 0 =
      (if twViolated (customers.getD (tour.getD j 0) dfltCustomer)
          (if j = i then dm.get 0 (tour.getD j 0)
           else time + dm.get (tour.getD (j - 1) 0) (tour.getD j 0)) = true
       then none
       else some (twAdjust (customers.getD (tour.getD j 0) dfltCustomer)
          (if j = i then dm.get 0 (tour.getD j 0)
           else time + dm.get (tour.getD (j - 1) 0) (tour.getD j 0)) +
         (customers.getD (tour.getD j 0) dfltCustomer).service_duration)) := by
  rw [segN_succ tour i j hij hj]
  rw [twSimRun_append customers dm (segN tour i j) [tour.getD j 0] 0 0]
  rw [ht]
  show twSimRun customers dm [tour.getD j 0] (prevEnd 0 (segN tour i j)) time = _
  by_cases hji : j = i
  · subst hji
    rw [segN_self] at ht
    have h0 : (0 : ℚ) = time := by
      have : (some (0 : ℚ)) = some time := ht
      injection this
    rw [← h0, segN_self]
    show twSimRun customers dm [tour.getD j 0] 0 0 = _
    simp only [twSimRun, if_pos rfl, zero_add]
    rfl
  · have hne : segN tour i j ≠ [] :=
      mid_ne_nil tour i j (lt_of_le_of_ne hij (Ne.symm hji)) (le_of_lt hj)
    have hpe : prevEnd 0 (segN tour i j) = tour.getD (j - 1) 0 := by
      have h1 : prevEnd 0 (segN tour i j) = lastN (segN tour i j) := by
        cases hseg : segN tour i j with
        | nil => exact absurd hseg hne
        | cons a t => rfl
      rw [h1]
      exact lastN_mid tour i j (lt_of_le_of_ne hij (Ne.symm hji)) (le_of_lt hj)
    rw [hpe]
    simp only [twSimRun, if_neg hji]

/-- One full run of the `split_tw` inner loop: entries at or below `j` are
untouched, entries only decrease, the `pred` chain stays sound, and on exit
every feasible segment starting at `i` has been relaxed (capacity-break
exactness needs non-negative demands; the window break is exact always). -/
theorem splitTWInner_inv (tour : List ℕ) (customers : List Customer)
    (dm : DistanceMatrix) (capacity : ℤ) (i : ℕ) (ci : ℚ) :
    ∀ fuel j load route_dist time st,
    j + fuel = tour.length → i ≤ j →
    load = segLoad tour customers i j →
    route_dist = pathDist dm (0 :: segN tour i j) →
    twSimRun customers dm (segN tour i j) 0 0 = some time →
    st.1.length = tour.length + 1 → st.2.length = tour.length + 1 →
    st.1.getD 0 none = some 0 →
    st.1.getD i none = some ci →
    splitChainTW tour customers dm capacity (i + 1) st →
    (DemNonneg tour customers →
      ∀ j2, i < j2 → j2 ≤ j → SegFeasibleTW tour customers dm capacity i j2 →
      OptLE (st.1.getD j2 none) (some (ci + segCost tour dm i j2))) →
    ∀ st2, st2 = splitTWInnerLoop tour customers dm capacity i ci fuel j load
      route_dist time st →
    st2.1.length = tour.length + 1 ∧ st2.2.length = tour.length + 1 ∧
    (∀ k, k ≤ j → st2.1.getD k none = st.1.getD k none) ∧
    (∀ k, OptLE (st2.1.getD k none) (st.1.getD k none)) ∧
    st2.1.getD 0 none = some 0 ∧
    splitChainTW tour customers dm capacity (i + 1) st2 ∧
    (DemNonneg tour customers →
      ∀ j2, i < j2 → j2 ≤ tour.length →
      SegFeasibleTW tour customers dm capacity i j2 →
      OptLE (st2.1.getD j2 none) (some (ci + segCost tour dm i j2))) := by
  intro fuel
  induction fuel with
  | zero =>
    intro j load route_dist time st hfj hij hload hrd htime hl1 hl2 hz hci
      hchain hpast st2 hst2
    simp only [splitTWInnerLoop] at hst2
    subst hst2
    refine ⟨hl1, hl2, fun k _ => rfl, fun k => OptLE_refl _, hz, hchain, ?_⟩
    intro hdem0 j2 h1 h2 h3
    exact hpast hdem0 j2 h1 (by omega) h3
  | succ fuel ih =>
    intro j load route_dist time st hfj hij hload hrd htime hl1 hl2 hz hci
      hchain hpast st2 hst2
    have hjlt : j < tour.length := by omega
    subst hload
    subst hrd
    simp only [splitTWInnerLoop] at hst2
    by_cases hbr : segLoad tour customers i j +
        (customers.getD (tour.getD j 0) dfltCustomer).demand > capacity
    · rw [if_pos hbr] at hst2
      subst hst2
      refine ⟨hl1, hl2, fun k _ => rfl, fun k => OptLE_refl _, hz, hchain, ?_⟩
      intro hdem0 j2 h1 h2 h3
      rcases le_or_lt j2 j with hle | hgt
      · exact hpast hdem0 j2 h1 hle h3
      · exfalso
        have hm : segLoad tour customers i (j + 1) ≤ segLoad tour customers i j2 :=
          segLoad_mono tour customers i (j + 1) j2 (by omega) (by omega) h2 hdem0
        have hs := segLoad_succ tour customers i j hij hjlt
        have := h3.2.1
        omega
    · rw [if_neg hbr] at hst2
      have hrd2 : (if j = i then dm.get 0 (tour.getD j 0)
          else pathDist dm (0 :: segN tour i j) +
            dm.get (tour.getD (j - 1) 0) (tour.getD j 0)) =
          pathDist dm (0 :: segN tour i (j + 1)) := by
        by_cases hji : j = i
        · subst hji
          rw [if_pos rfl, pathDist_seg_first tour dm j hjlt]
        · rw [if_neg hji]
          exact (pathDist_seg_succ tour dm i j (lt_of_le_of_ne hij (Ne.symm hji))
            hjlt).symm
      rw [hrd2] at hst2
      have hload2 : segLoad tour customers i j +
          (customers.getD (tour.getD j 0) dfltCustomer).demand =
          segLoad tour customers i (j + 1) :=
        (segLoad_succ tour customers i j hij hjlt).symm
      rw [hload2] at hst2
      have hstep := twSimRun_seg_step tour customers dm i j time hij hjlt htime
      by_cases hviol : twViolated (customers.getD (tour.getD j 0) dfltCustomer)
          (if j = i then dm.get 0 (tour.getD j 0)
           else time + dm.get (tour.getD (j - 1) 0) (tour.getD j 0)) = true
      · rw [if_pos hviol] at hst2
        subst hst2
        refine ⟨hl1, hl2, fun k _ => rfl, fun k => OptLE_refl _, hz, hchain, ?_⟩
        intro hdem0 j2 h1 h2 h3
        rcases le_or_lt j2 j with hle | hgt
        · exact hpast hdem0 j2 h1 hle h3
        · exfalso
          have hrun1 : twSimRun customers dm (segN tour i (j + 1)) 0 0 = none := by
            rw [hstep, if_pos hviol]
          have hsplit : segN tour i j2 =
              segN tour i (j + 1) ++ segN tour (j + 1) j2 :=
            segN_split tour i (j + 1) j2 (by omega) (by omega) h2
          have hrun2 : twSimRun customers dm (segN tour i j2) 0 0 = none := by
            rw [hsplit, twSimRun_append, hrun1]
          have := h3.2.2
          rw [hrun2] at this
          simp at this
      · rw [if_neg hviol] at hst2
        have htime2 : twSimRun customers dm (segN tour i (j + 1)) 0 0 =
            some (twAdjust (customers.getD (tour.getD j 0) dfltCustomer)
              (if j = i then dm.get 0 (tour.getD j 0)
               else time + dm.get (tour.getD (j - 1) 0) (tour.getD j 0)) +
              (customers.getD (tour.getD j 0) dfltCustomer).service_duration) := by
          rw [hstep, if_neg hviol]
        have hfeas : SegFeasibleTW tour customers dm capacity i (j + 1) := by
          refine ⟨by omega, ?_, ?_⟩
          · rw [← hload2]
            omega
          · rw [htime2]
            rfl
        have hnc : ci + (pathDist dm (0 :: segN tour i (j + 1)) +
            dm.get (tour.getD j 0) 0) = ci + segCost tour dm i (j + 1) := by
          rw [segCost_closed tour dm i (j + 1) (by omega) (by omega)]
          rw [Nat.add_sub_cancel]
        rw [hnc] at hst2
        by_cases himp : ltInf (ci + segCost tour dm i (j + 1))
            (st.1.getD (j + 1) none) = true
        · rw [if_pos himp] at hst2
          have hlt1 : j + 1 < st.1.length := by omega
          have hlt2 : j + 1 < st.2.length := by omega
          obtain ⟨c1, c2, c3, c4, c5, c6, c7⟩ := ih (j + 1)
            (segLoad tour customers i (j + 1))
            (pathDist dm (0 :: segN tour i (j + 1)))
            (twAdjust (customers.getD (tour.getD j 0) dfltCustomer)
              (if j = i then dm.get 0 (tour.getD j 0)
               else time + dm.get (tour.getD (j - 1) 0) (tour.getD j 0)) +
              (customers.getD (tour.getD j 0) dfltCustomer).service_duration)
            (st.1.set (j + 1) (some (ci + segCost tour dm i (j + 1))),
              st.2.set (j + 1) i)
            (by omega) (by omega) rfl rfl htime2
            (by simpa using hl1) (by simpa using hl2)
            (by rw [getD_set_ne st.1 (j + 1) 0 _ none (by omega)]; exact hz)
            (by rw [getD_set_ne st.1 (j + 1) i _ none (by omega)]; exact hci)
            (by
              intro k hk1 hk2 q hq
              by_cases hkj : k = j + 1
              · subst hkj
                rw [getD_set_self st.1 (j + 1) _ none hlt1] at hq
                rw [getD_set_self st.2 (j + 1) i 0 hlt2]
                obtain rfl : ci + segCost tour dm i (j + 1) = q := by
                  injection hq
                refine ⟨by omega, by omega, hfeas, ci, ?_, rfl⟩
                rw [getD_set_ne st.1 (j + 1) i _ none (by omega)]
                exact hci
              · rw [getD_set_ne st.1 (j + 1) k _ none (Ne.symm hkj)] at hq
                rw [getD_set_ne st.2 (j + 1) k i 0 (Ne.symm hkj)]
                obtain ⟨d1, d2, d3, qp, d4, d5⟩ := hchain k hk1 hk2 q hq
                refine ⟨d1, d2, d3, qp, ?_, d5⟩
                rw [getD_set_ne st.1 (j + 1) (st.2.getD k 0) _ none (by omega)]
                exact d4)
            (by
              intro hdem0 j2 h1 h2 h3
              rcases Nat.eq_or_lt_of_le h2 with hEq | hlt
              · subst hEq
                rw [getD_set_self st.1 (j + 1) _ none hlt1]
                exact OptLE_refl _
              · rw [getD_set_ne st.1 (j + 1) j2 _ none (by omega)]
                exact hpast hdem0 j2 h1 (by omega) h3)
            st2 hst2
          refine ⟨c1, c2, ?_, ?_, c5, c6, c7⟩
          · intro k hk
            rw [c3 k (by omega)]
            exact getD_set_ne st.1 (j + 1) k _ none (by omega)
          · intro k
            refine OptLE_trans _ _ _ (c4 k) ?_
            by_cases hkj : k = j + 1
            · subst hkj
              rw [getD_set_self st.1 (j + 1) _ none hlt1]
              intro qb hb
              exact ⟨_, rfl, le_of_lt (ltInf_true_lt _ _ himp qb hb)⟩
            · rw [getD_set_ne st.1 (j + 1) k _ none (Ne.symm hkj)]
              exact OptLE_refl _
        · rw [if_neg himp] at hst2
          obtain ⟨c1, c2, c3, c4, c5, c6, c7⟩ := ih (j + 1)
            (segLoad tour customers i (j + 1))
            (pathDist dm (0 :: segN tour i (j + 1)))
            (twAdjust (customers.getD (tour.getD j 0) dfltCustomer)
              (if j = i then dm.get 0 (tour.getD j 0)
               else time + dm.get (tour.getD (j - 1) 0) (tour.getD j 0)) +
              (customers.getD (tour.getD j 0) dfltCustomer).service_duration)
            st (by omega) (by omega) rfl rfl htime2 hl1 hl2 hz hci hchain
            (by
              intro hdem0 j2 h1 h2 h3
              rcases Nat.eq_or_lt_of_le h2 with hEq | hlt
              · subst hEq
                have hfalse : ltInf (ci + segCost tour dm i (j + 1))
                    (st.1.getD (j + 1) none) = false := by
                  simpa using himp
                obtain ⟨c, hc, hle⟩ := ltInf_false_le _ _ hfalse
                rw [hc]
                refine fun qb hb => ⟨c, rfl, ?_⟩
                injection hb with h9
                rw [← h9]
                exact hle
              · exact hpast hdem0 j2 h1 (by omega) h3)
            st2 hst2
          exact ⟨c1, c2, fun k hk => c3 k (by omega), c4, c5, c6, c7⟩

/-- One outer iteration of `split_tw`, named for the fold proofs. -/
def splitTWOuterStep (tour : List ℕ) (customers : List Customer)
    (dm : DistanceMatrix) (capacity : ℤ) (n : ℕ)
    (st : List (Option ℚ) × List ℕ) (i : ℕ) : List (Option ℚ) × List ℕ :=
  match st.1.getD i none with
  | none => st
  | some ci => splitTWInnerLoop tour customers dm capacity i ci (n - i) i 0 0 0 st

theorem splitTWOuter_eq_foldl (tour : List ℕ) (customers : List Customer)
    (dm : DistanceMatrix) (capacity : ℤ) (n : ℕ) :
    splitTWOuter tour customers dm capacity n =
    (List.range n).foldl (splitTWOuterStep tour customers dm capacity n)
      (some 0 :: List.replicate n none, List.replicate (n + 1) 0) := rfl

theorem splitTWOuterStep_inv (tour : List ℕ) (customers : List Customer)
    (dm : DistanceMatrix) (capacity : ℤ)
    (i : ℕ) (st : List (Option ℚ) × List ℕ) (hi : i < tour.length)
    (hinv : SplitInvTW tour customers dm capacity i st) :
    SplitInvTW tour customers dm capacity (i + 1)
      (splitTWOuterStep tour customers dm capacity tour.length st i) := by
  obtain ⟨hl1, hl2, hz, hchain, hcompl⟩ := hinv
  have hchain2 : splitChainTW tour customers dm capacity (i + 1) st := by
    intro k hk1 hk2 q hq
    obtain ⟨d1, d2, d3, d4⟩ := hchain k hk1 hk2 q hq
    exact ⟨d1, by omega, d3, d4⟩
  unfold splitTWOuterStep
  cases hgi : st.1.getD i none with
  | none =>
    refine ⟨hl1, hl2, hz, hchain2, ?_⟩
    intro hdem0 i2 hi2 j hj1 hj2 hf qi hqi
    rcases Nat.lt_or_ge i2 i with h | h
    · exact hcompl hdem0 i2 h j hj1 hj2 hf qi hqi
    · have hii : i2 = i := by omega
      subst hii
      rw [hgi] at hqi
      exact absurd hqi (by simp)
  | some ci =>
    obtain ⟨c1, c2, c3, c4, c5, c6, c7⟩ :=
      splitTWInner_inv tour customers dm capacity i ci
        (tour.length - i) i 0 0 0 st (by omega) (le_refl i)
        (by simp [segLoad, segN_self, routeLoad])
        (by rw [segN_self]; rfl)
        (by rw [segN_self]; rfl)
        hl1 hl2 hz hgi hchain2
        (fun _ j2 h1 h2 _ => absurd (lt_of_lt_of_le h1 h2) (lt_irrefl i))
        _ rfl
    refine ⟨c1, c2, c5, c6, ?_⟩
    intro hdem0 i2 hi2 j hj1 hj2 hf qi hqi
    rcases Nat.lt_or_ge i2 i with h | h
    · rw [c3 i2 (by omega)] at hqi
      obtain ⟨qj, hqj, hle⟩ := hcompl hdem0 i2 h j hj1 hj2 hf qi hqi
      obtain ⟨qj2, hqj2, hle2⟩ := c4 j qj hqj
      exact ⟨qj2, hqj2, le_trans hle2 hle⟩
    · have hii : i2 = i := by omega
      subst hii
      rw [c3 i2 (le_refl i2), hgi] at hqi
      injection hqi with h9
      obtain ⟨qj, hqj, hle⟩ := c7 hdem0 j hj1 hj2 hf _ rfl
      refine ⟨qj, hqj, ?_⟩
      rw [← h9]
      exact hle

theorem splitTWOuter_inv (tour : List ℕ) (customers : List Customer)
    (dm : DistanceMatrix) (capacity : ℤ) :
    SplitInvTW tour customers dm capacity tour.length
      (splitTWOuter tour customers dm capacity tour.length) := by
  have key : ∀ k m st, m + k = tour.length →
      SplitInvTW tour customers dm capacity m st →
      SplitInvTW tour customers dm capacity tour.length
        ((List.range' m k).foldl
          (splitTWOuterStep tour customers dm capacity tour.length) st) := by
    intro k
    induction k with
    | zero =>
      intro m st hm hinv
      have hm2 : m = tour.length := by omega
      subst hm2
      simpa using hinv
    | succ k ihk =>
      intro m st hm hinv
      rw [List.range'_succ m k 1, List.foldl_cons]
      exact ihk (m + 1) _ (by omega)
        (splitTWOuterStep_inv tour customers dm capacity m st (by omega) hinv)
  have hinit : SplitInvTW tour customers dm capacity 0
      (some 0 :: List.replicate tour.length none,
        List.replicate (tour.length + 1) 0) := by
    refine ⟨by simp, by simp, rfl, ?_, ?_⟩
    · intro k hk1 hk2 q hq
      exfalso
      cases k with
      | zero => omega
      | succ k2 =>
        have hgd : ((some 0 : Option ℚ) :: List.replicate tour.length none).getD
            (k2 + 1) none = (List.replicate tour.length
              (none : Option ℚ)).getD k2 none := by
          simp [List.getD]
        rw [hgd, getD_replicate_none] at hq
        exact Option.noConfusion hq
    · intro _ i2 hi2
      omega
  have hkey := key tour.length 0 _ (by omega) hinit
  rw [splitTWOuter_eq_foldl, List.range_eq_range']
  exact hkey

/-- Every capacity- and window-feasible partition of a tour prefix bounds the
`split_tw` DP value at its end index. -/
theorem splitTW_min_aux (tour : List ℕ) (customers : List Customer)
    (dm : DistanceMatrix) (capacity : ℤ) (st : List (Option ℚ) × List ℕ)
    (hz : st.1.getD 0 none = some 0)
    (hc : splitComplTW tour customers dm capacity tour.length st) :
    ∀ (P : List (List ℕ)) (k : ℕ), k ≤ tour.length →
      P.flatten = tour.take k →
      (∀ r ∈ P, r ≠ [] ∧ routeLoad customers r ≤ capacity ∧
        (twSimRun customers dm r 0 0).isSome = true) →
      ∃ q, st.1.getD k none = some q ∧
        q ≤ (P.map (fun r => route_distance r 0 dm)).sum := by
  intro P
  induction P using List.reverseRecOn with
  | nil =>
    intro k hk hflat hmem
    have htk : tour.take k = [] := by simpa using hflat.symm
    have hk0 : k = 0 := by
      rcases List.take_eq_nil_iff.mp htk with h | h
      · exact h
      · rw [h] at hk
        simpa using hk
    subst hk0
    exact ⟨0, hz, by simp⟩
  | append_singleton P2 r ih =>
    intro k hk hflat hmem
    have hrne : r ≠ [] := (hmem r (by simp)).1
    have hflat2 : P2.flatten ++ r = tour.take k := by simpa using hflat
    have hlen : P2.flatten.length + r.length = k := by
      have h1 := congrArg List.length hflat2
      simp only [List.length_append, List.length_take] at h1
      omega
    have hrlen : 1 ≤ r.length := List.length_pos.mpr hrne
    have hk2k : P2.flatten.length < k := by omega
    have hA : P2.flatten = tour.take P2.flatten.length := by
      have h1 : (P2.flatten ++ r).take P2.flatten.length = P2.flatten :=
        List.take_left P2.flatten r
      rw [hflat2, List.take_take, min_eq_left (le_of_lt hk2k)] at h1
      exact h1.symm
    have hr : r = segN tour P2.flatten.length k := by
      have h1 : (P2.flatten ++ r).drop P2.flatten.length = r :=
        List.drop_left P2.flatten r
      rw [hflat2] at h1
      exact h1.symm
    obtain ⟨q2, hq2, hle2⟩ := ih P2.flatten.length (by omega) hA
      (fun r2 hr2 => hmem r2 (by simp [hr2]))
    have hfeas : SegFeasibleTW tour customers dm capacity P2.flatten.length k := by
      refine ⟨hk2k, ?_, ?_⟩
      · show routeLoad customers (segN tour P2.flatten.length k) ≤ capacity
        rw [← hr]
        exact (hmem r (by simp)).2.1
      · show (twSimRun customers dm (segN tour P2.flatten.length k) 0 0).isSome = true
        rw [← hr]
        exact (hmem r (by simp)).2.2
    obtain ⟨qk, hqk, hlek⟩ := hc P2.flatten.length (by omega) k hk2k hk hfeas q2 hq2
    refine ⟨qk, hqk, ?_⟩
    have hsum : ((P2 ++ [r]).map (fun r => route_distance r 0 dm)).sum =
        (P2.map (fun r => route_distance r 0 dm)).sum + route_distance r 0 dm := by
      simp
    rw [hsum]
    have hseg : segCost tour dm P2.flatten.length k = route_distance r 0 dm := by
      show route_distance (segN tour P2.flatten.length k) 0 dm = _
      rw [← hr]
    calc qk ≤ q2 + segCost tour dm P2.flatten.length k := hlek
      _ = q2 + route_distance r 0 dm := by rw [hseg]
      _ ≤ (P2.map (fun r => route_distance r 0 dm)).sum + route_distance r 0 dm :=
        add_le_add_right hle2 _

/-- The backtrack loop of `split_tw` decodes the `pred` chain into a feasible
partition of `tour.take j` whose total closed distance is `cost[j]`. -/
theorem splitBacktrackTW_spec (tour : List ℕ) (customers : List Customer)
    (dm : DistanceMatrix) (capacity : ℤ) (st : List (Option ℚ) × List ℕ)
    (hz : st.1.getD 0 none = some 0)
    (hchain : splitChainTW tour customers dm capacity tour.length st) :
    ∀ fuel j, j ≤ fuel → j ≤ tour.length → ∀ q, st.1.getD j none = some q →
      ∃ segs : List (List ℕ),
        (∀ acc, splitBacktrack tour st.2 fuel j acc = acc ++ segs) ∧
        segs.reverse.flatten = tour.take j ∧
        (∀ r ∈ segs, r ≠ [] ∧ routeLoad customers r ≤ capacity ∧
          (twSimRun customers dm r 0 0).isSome = true) ∧
        (segs.map (fun r => route_distance r 0 dm)).sum = q := by
  intro fuel
  induction fuel with
  | zero =>
    intro j hj hjn q hq
    have hj0 : j = 0 := by omega
    subst hj0
    rw [hz] at hq
    injection hq with h9
    exact ⟨[], fun acc => by simp [splitBacktrack], by simp, by simp,
      by simp [← h9]⟩
  | succ fuel ih =>
    intro j hj hjn q hq
    by_cases hj0 : j = 0
    · subst hj0
      rw [hz] at hq
      injection hq with h9
      exact ⟨[], fun acc => by simp [splitBacktrack, ← h9], by simp, by simp,
        by simp [← h9]⟩
    · obtain ⟨d1, d2, d3, qp, d4, d5⟩ := hchain j (by omega) hjn q hq
      set p := st.2.getD j 0 with hp
      obtain ⟨segs2, e1, e2, e3, e4⟩ := ih p (by omega) (by omega) qp d4
      refine ⟨segN tour p j :: segs2, ?_, ?_, ?_, ?_⟩
      · intro acc
        show splitBacktrack tour st.2 (fuel + 1) j acc = _
        simp only [splitBacktrack]
        rw [if_neg hj0, ← hp]
        rw [e1 (acc ++ [(tour.take j).drop p])]
        simp [segN, List.append_assoc]
      · simp only [List.reverse_cons, List.flatten_append, List.flatten_cons,
          List.flatten_nil, List.append_nil]
        rw [e2]
        exact (take_split tour p j (le_of_lt d1)).symm
      · intro r hr
        rcases List.mem_cons.mp hr with h | h
        · subst h
          exact ⟨mid_ne_nil tour p j d1 hjn, d3.2.1, d3.2.2⟩
        · exact e3 r h
      · simp only [List.map_cons, List.sum_cons]
        rw [e4, d5]
        exact add_comm _ _

theorem lastReachable_spec (cost : List (Option ℚ))
    (h0 : cost.getD 0 none = some 0) :
    ∀ n, lastReachable cost n ≤ n ∧
      ∃ q, cost.getD (lastReachable cost n) none = some q := by
  intro n
  induction n with
  | zero => exact ⟨le_refl 0, 0, h0⟩
  | succ n ihn =>
    cases hg : cost.getD (n + 1) none with
    | some q =>
      simp only [lastReachable, hg]
      exact ⟨le_refl _, q, rfl⟩
    | none =>
      simp only [lastReachable, hg]
      exact ⟨le_trans ihn.1 (by omega), ihn.2⟩

/-- C5: `split_tw` returns routes whose concatenation is a prefix of the
tour; every returned route is non-empty, within capacity, and passes the
forward timing simulation (arrival at most due at every windowed customer);
and, when demands are non-negative (the spec's data model) and some capacity-
and window-feasible partition of the whole tour exists, the concatenation is
the whole tour. -/
theorem C5_split_tw_contract (tour : List ℕ) (customers : List Customer)
    (dm : DistanceMatrix) (capacity : ℤ) :
    (∃ k, k ≤ tour.length ∧
      (split_tw tour customers dm capacity).routes.flatten = tour.take k) ∧
    (∀ r ∈ (split_tw tour customers dm capacity).routes,
      r ≠ [] ∧ routeLoad customers r ≤ capacity ∧
      (twSimRun customers dm r 0 0).isSome = true) ∧
    (DemNonneg tour customers →
      (∃ P : List (List ℕ), P.flatten = tour ∧
        ∀ r ∈ P, r ≠ [] ∧ routeLoad customers r ≤ capacity ∧
          (twSimRun customers dm r 0 0).isSome = true) →
      (split_tw tour customers dm capacity).routes.flatten = tour) := by
  by_cases hn : tour.length = 0
  · have ht : tour = [] := List.length_eq_zero.mp hn
    subst ht
    have hs : split_tw [] customers dm capacity = ⟨[], some 0⟩ := rfl
    refine ⟨⟨0, by omega, by rw [hs]; rfl⟩, by rw [hs]; simp, ?_⟩
    intro _ _
    rw [hs]
    rfl
  · obtain ⟨hl1, hl2, hz, hchain, hcompl⟩ :=
      splitTWOuter_inv tour customers dm capacity
    set stF := splitTWOuter tour customers dm capacity tour.length with hstF
    cases hgn : stF.1.getD tour.length none with
    | some cn =>
      have hs : split_tw tour customers dm capacity =
          ⟨(splitBacktrack tour stF.2 tour.length tour.length []).reverse,
            some cn⟩ := by
        simp only [split_tw]
        rw [if_neg hn, ← hstF, hgn]
      obtain ⟨segs, e1, e2, e3, e4⟩ := splitBacktrackTW_spec tour customers dm
        capacity stF hz hchain tour.length tour.length (le_refl _) (le_refl _)
        cn hgn
      have hroutes : (split_tw tour customers dm capacity).routes =
          segs.reverse := by
        rw [hs]
        show (splitBacktrack tour stF.2 tour.length tour.length []).reverse = _
        rw [e1 []]
        simp
      have hflat : (split_tw tour customers dm capacity).routes.flatten = tour := by
        rw [hroutes, e2, List.take_length]
      refine ⟨⟨tour.length, le_refl _, by rw [hflat, List.take_length]⟩, ?_,
        fun _ _ => hflat⟩
      intro r hr
      rw [hroutes] at hr
      exact e3 r (List.mem_reverse.mp hr)
    | none =>
      obtain ⟨hlle, q, hq⟩ := lastReachable_spec stF.1 hz tour.length
      have hs : split_tw tour customers dm capacity =
          ⟨(splitBacktrack tour stF.2 (lastReachable stF.1 tour.length)
              (lastReachable stF.1 tour.length) []).reverse,
            if 0 < lastReachable stF.1 tour.length
            then stF.1.getD (lastReachable stF.1 tour.length) none
            else some 0⟩ := by
        simp only [split_tw]
        rw [if_neg hn, ← hstF, hgn]
      obtain ⟨segs, e1, e2, e3, e4⟩ := splitBacktrackTW_spec tour customers dm
        capacity stF hz hchain (lastReachable stF.1 tour.length)
        (lastReachable stF.1 tour.length) (le_refl _) hlle q hq
      have hroutes : (split_tw tour customers dm capacity).routes =
          segs.reverse := by
        rw [hs]
        show (splitBacktrack tour stF.2 (lastReachable stF.1 tour.length)
          (lastReachable stF.1 tour.length) []).reverse = _
        rw [e1 []]
        simp
      refine ⟨⟨lastReachable stF.1 tour.length, hlle, by rw [hroutes]; exact e2⟩,
        ?_, ?_⟩
      · intro r hr
        rw [hroutes] at hr
        exact e3 r (List.mem_reverse.mp hr)
      · rintro hdem0 ⟨P, hP, hPm⟩
        exfalso
        obtain ⟨qn, hqn, _⟩ := splitTW_min_aux tour customers dm capacity stF hz
          (hcompl hdem0) P tour.length (le_refl _)
          (by rw [List.take_length]; exact hP) hPm
        rw [hgn] at hqn
        exact Option.noConfusion hqn

/- ### Time-window-aware nearest neighbor, src/constructive/nn_tw.rs -/

/-- One candidate check of the `for i in 1..n` scan (lines 94–120): skip if
visited, over capacity, or the window is already closed at arrival; else
keep the nearer of `i` and the incumbent. -/
def isNoneOrLt (best : Option (ℕ × ℚ)) (d : ℚ) : Bool :=
  match best with
  | none => true
  | some p => decide (d < p.2)

def nnTWScanStep (customers : List Customer) (dm : DistanceMatrix)
    (vehicle : Vehicle) (visited : List Bool) (current : ℕ) (current_time : ℚ)
    (current_load : ℤ) (best : Option (ℕ × ℚ)) (i : ℕ) : Option (ℕ × ℚ) :=
  if visited.getD i true then best
  else if current_load + (customers.getD i dfltCustomer).demand >
      vehicle.capacity then best
  else if twViolated (customers.getD i dfltCustomer)
      (current_time + dm.get current i) then best
  else if isNoneOrLt best (dm.get current i) then some (i, dm.get current i)
  else best

/-- The full candidate scan over customers `1..n`. -/
def nnTWScan (customers : List Customer) (dm : DistanceMatrix)
    (vehicle : Vehicle) (visited : List Bool) (current : ℕ) (current_time : ℚ)
    (current_load : ℤ) : Option (ℕ × ℚ) :=
  (List.range' 1 (customers.length - 1)).foldl
    (nnTWScanStep customers dm vehicle visited current current_time current_load)
    none

/-- `arrival + tw.waiting_time(arrival)` when the customer has a window,
plain arrival otherwise (lines 131–135). -/
def nnServiceStart (c : Customer) (arrival : ℚ) : ℚ :=
  match c.time_window with
  | some tw => arrival + tw.waiting_time arrival
  | none => arrival

/-- The inner `loop` of one vehicle's route construction (lines 91–143),
fueled: append the nearest feasible customer, advance the clock through
waiting and service, mark it visited. -/
def nnTWRouteLoop (customers : List Customer) (dm : DistanceMatrix)
    (vehicle : Vehicle) :
    ℕ → List Bool → ℕ → ℚ → ℤ → List ℕ → List Bool × List ℕ
  | 0, visited, _, _, _, route => (visited, route)
  | fuel + 1, visited, current, current_time, current_load, route =>
    match nnTWScan customers dm vehicle visited current current_time
      current_load with
    | none => (visited, route)
    | some (next, _) =>
      let cust := customers.getD next dfltCustomer
      let arrival := current_time + dm.get current next
      nnTWRouteLoop customers dm vehicle fuel (visited.set next true) next
        (nnServiceStart cust arrival + cust.service_duration)
        (current_load + cust.demand) (route ++ [next])

/-- `for (i, &v) in visited.iter().enumerate() { if !v && i > 0 {
add_unassigned(i) } }` (lines 75–79). -/
def addUnassignedAll (visited : List Bool) (solution : Solution) : Solution :=
  (List.range visited.length).foldl
    (fun sol i =>
      if visited.getD i true then sol
      else if i = 0 then sol
      else sol.add_unassigned i)
    solution

/-- The vehicle loop of `nearest_neighbor_tw` (lines 73–155): one route per
vehicle, break early when every customer is visited, and mark the leftovers
unassigned once the vehicles run out. -/
def nnTWVehicleLoop (customers : List Customer) (dm : DistanceMatrix) :
    List Vehicle → List Bool → Solution → Solution
  | [], visited, solution => addUnassignedAll visited solution
  | vehicle :: rest, visited, solution =>
    let pr := nnTWRouteLoop customers dm vehicle customers.length visited
      vehicle.depot_id 0 0 []
    let solution2 := if pr.2.isEmpty then solution
      else solution.add_route (build_route customers dm vehicle pr.2).1
    if (pr.1.drop 1).all (fun b => b) then solution2
    else nnTWVehicleLoop customers dm rest pr.1 solution2

/-- `nearest_neighbor_tw` from `src/constructive/nn_tw.rs`. -/
def nearest_neighbor_tw (customers : List Customer) (dm : DistanceMatrix)
    (vehicles : List Vehicle) : Solution :=
  let n := customers.length
  if n ≤ 1 then Solution.emptySol
  else
    let visited := (List.replicate n false).set 0 true
    let sol := nnTWVehicleLoop customers dm vehicles visited Solution.emptySol
    sol.set_total_cost sol.total_distance

/-- Any customer selected by the scan is a real non-depot index, unvisited,
and passed the window check at its arrival time. -/
theorem nnTWScan_spec (customers : List Customer) (dm : DistanceMatrix)
    (vehicle : Vehicle) (visited : List Bool) (current : ℕ) (current_time : ℚ)
    (current_load : ℤ) (next : ℕ) (d : ℚ)
    (h : nnTWScan customers dm vehicle visited current current_time
      current_load = some (next, d)) :
    1 ≤ next ∧ next < customers.length ∧ visited.getD next true = false ∧
    twViolated (customers.getD next dfltCustomer)
      (current_time + dm.get current next) = false := by
  have main : ∀ n2 d2,
      (List.range' 1 (customers.length - 1)).foldl
        (nnTWScanStep customers dm vehicle visited current current_time
          current_load) none = some (n2, d2) →
      1 ≤ n2 ∧ n2 < customers.length ∧ visited.getD n2 true = false ∧
      twViolated (customers.getD n2 dfltCustomer)
        (current_time + dm.get current n2) = false := by
    refine foldl_preserve
      (nnTWScanStep customers dm vehicle visited current current_time
        current_load)
      (fun best : Option (ℕ × ℚ) => ∀ n2 d2, best = some (n2, d2) →
        1 ≤ n2 ∧ n2 < customers.length ∧ visited.getD n2 true = false ∧
        twViolated (customers.getD n2 dfltCustomer)
          (current_time + dm.get current n2) = false)
      (List.range' 1 (customers.length - 1)) ?_ none ?_
    · intro b a ha hb n2 d2 hsome
      simp only [nnTWScanStep] at hsome
      by_cases h1 : visited.getD a true = true
      · rw [if_pos h1] at hsome
        exact hb n2 d2 hsome
      · rw [if_neg h1] at hsome
        by_cases h2 : current_load + (customers.getD a dfltCustomer).demand >
            vehicle.capacity
        · rw [if_pos h2] at hsome
          exact hb n2 d2 hsome
        · rw [if_neg h2] at hsome
          by_cases h3 : twViolated (customers.getD a dfltCustomer)
              (current_time + dm.get current a) = true
          · rw [if_pos h3] at hsome
            exact hb n2 d2 hsome
          · rw [if_neg h3] at hsome
            have hab : 1 ≤ a ∧ a < 1 + (customers.length - 1) :=
              List.mem_range'_1.mp ha
            have h1f : visited.getD a true = false := by simpa using h1
            have h3f : twViolated (customers.getD a dfltCustomer)
                (current_time + dm.get current a) = false := by simpa using h3
            by_cases h4 : isNoneOrLt b (dm.get current a) = true
            · rw [if_pos h4] at hsome
              injection hsome with h5
              have h6 : a = n2 := congrArg Prod.fst h5
              subst h6
              exact ⟨hab.1, by omega, h1f, h3f⟩
            · rw [if_neg h4] at hsome
              exact hb n2 d2 hsome
    · intro n2 d2 hx
      exact Option.noConfusion hx
  exact main next d h

/-- Under the triangle inequality and non-negative service durations, a
customer whose window closes before the depot-to-customer travel time is
never selected: the route loop keeps it unvisited and out of the route. -/
theorem nnTWRouteLoop_excl (customers : List Customer) (dm : DistanceMatrix)
    (vehicle : Vehicle) (c : ℕ) (tw : TimeWindow)
    (hcw : (customers.getD c dfltCustomer).time_window = some tw)
    (hsize : customers.length ≤ dm.size)
    (hdep : vehicle.depot_id < dm.size)
    (hdue : tw.due < dm.get vehicle.depot_id c)
    (htri : ∀ a b c2, a < dm.size → b < dm.size → c2 < dm.size →
      dm.get a c2 ≤ dm.get a b + dm.get b c2)
    (hserv : ∀ i, i < customers.length →
      0 ≤ (customers.getD i dfltCustomer).service_duration)
    (hc : c < dm.size) :
    ∀ fuel visited current current_time current_load route,
    current < dm.size →
    dm.get vehicle.depot_id c ≤ current_time + dm.get current c →
    visited.getD c true = false →
    c ∉ route →
    (nnTWRouteLoop customers dm vehicle fuel visited current current_time
      current_load route).1.getD c true = false ∧
    c ∉ (nnTWRouteLoop customers dm vehicle fuel visited current current_time
      current_load route).2 ∧
    (nnTWRouteLoop customers dm vehicle fuel visited current current_time
      current_load route).1.length = visited.length := by
  intro fuel
  induction fuel with
  | zero =>
    intro visited current current_time current_load route hcur hinv hvc hroute
    exact ⟨hvc, hroute, rfl⟩
  | succ fuel ih =>
    intro visited current current_time current_load route hcur hinv hvc hroute
    cases hscan : nnTWScan customers dm vehicle visited current current_time
      current_load with
    | none =>
      have hred : nnTWRouteLoop customers dm vehicle (fuel + 1) visited current
          current_time current_load route = (visited, route) := by
        simp only [nnTWRouteLoop, hscan]
      rw [hred]
      exact ⟨hvc, hroute, rfl⟩
    | some pr =>
      obtain ⟨next, d0⟩ := pr
      obtain ⟨s1, s2, s3, s4⟩ := nnTWScan_spec customers dm vehicle visited
        current current_time current_load next d0 hscan
      have hnextsz : next < dm.size := lt_of_lt_of_le s2 hsize
      have hnc : next ≠ c := by
        intro he
        subst he
        have h41 : twViolated (customers.getD next dfltCustomer)
            (current_time + dm.get current next) =
            decide (current_time + dm.get current next > tw.due) := by
          unfold twViolated
          rw [hcw]
        rw [hcw] at hcw
        rw [s4] at h41
        have h42 : ¬(current_time + dm.get current next > tw.due) :=
          of_decide_eq_false h41.symm
        have h43 : tw.due < current_time + dm.get current next :=
          lt_of_lt_of_le hdue hinv
        exact h42 h43
      have hred : nnTWRouteLoop customers dm vehicle (fuel + 1) visited current
          current_time current_load route =
          nnTWRouteLoop customers dm vehicle fuel (visited.set next true) next
            (nnServiceStart (customers.getD next dfltCustomer)
              (current_time + dm.get current next) +
              (customers.getD next dfltCustomer).service_duration)
            (current_load + (customers.getD next dfltCustomer).demand)
            (route ++ [next]) := by
        simp only [nnTWRouteLoop, hscan]
      rw [hred]
      have hss : current_time + dm.get current next ≤
          nnServiceStart (customers.getD next dfltCustomer)
            (current_time + dm.get current next) := by
        unfold nnServiceStart
        cases hw : (customers.getD next dfltCustomer).time_window with
        | none => exact le_refl _
        | some tw2 =>
          show current_time + dm.get current next ≤
            current_time + dm.get current next +
              tw2.waiting_time (current_time + dm.get current next)
          have := waiting_time_nonneg tw2 (current_time + dm.get current next)
          linarith
      have hserv2 := hserv next s2
      have hinv2 : dm.get vehicle.depot_id c ≤
          (nnServiceStart (customers.getD next dfltCustomer)
            (current_time + dm.get current next) +
            (customers.getD next dfltCustomer).service_duration) +
            dm.get next c := by
        have htr := htri current next c hcur hnextsz hc
        have h5 : dm.get vehicle.depot_id c ≤
            current_time + dm.get current next + dm.get next c := by
          calc dm.get vehicle.depot_id c ≤ current_time + dm.get current c :=
            hinv
          _ ≤ current_time + (dm.get current next + dm.get next c) := by
            linarith
          _ = current_time + dm.get current next + dm.get next c := by ring
        linarith
      refine ih (visited.set next true) next _ _ (route ++ [next]) hnextsz
        hinv2 ?_ ?_ |>.imp id (fun h => h.imp id ?_)
      · rw [getD_set_ne visited next c true true hnc]
        exact hvc
      · intro hmem
        rcases List.mem_append.mp hmem with h | h
        · exact hroute h
        · rw [List.mem_singleton] at h
          exact hnc h.symm
      · intro hlen
        rw [hlen, List.length_set]

theorem addUnassignedAll_routes (visited : List Bool) (sol : Solution) :
    (addUnassignedAll visited sol).routes = sol.routes := by
  have main : ∀ (l : List ℕ) (s : Solution), s.routes = sol.routes →
      (l.foldl (fun sol2 i =>
        if visited.getD i true then sol2
        else if i = 0 then sol2
        else sol2.add_unassigned i) s).routes = sol.routes := by
    intro l
    induction l with
    | nil => intro s hs; exact hs
    | cons a t ih =>
      intro s hs
      rw [List.foldl_cons]
      apply ih
      by_cases h1 : visited.getD a true = true
      · rw [if_pos h1]
        exact hs
      · rw [if_neg h1]
        by_cases h2 : a = 0
        · rw [if_pos h2]
          exact hs
        · rw [if_neg h2]
          exact hs
  exact main (List.range visited.length) sol rfl

theorem addUnassignedAll_mem (visited : List Bool) (sol : Solution) (c : ℕ)
    (hc1 : c ≠ 0) (hc2 : c < visited.length)
    (hcv : visited.getD c true = false) :
    c ∈ (addUnassignedAll visited sol).unassigned := by
  obtain ⟨l1, l2, hsplit⟩ :=
    List.append_of_mem (List.mem_range.mpr hc2)
  show c ∈ ((List.range visited.length).foldl (fun sol2 i =>
    if visited.getD i true then sol2
    else if i = 0 then sol2
    else sol2.add_unassigned i) sol).unassigned
  rw [hsplit, List.foldl_append, List.foldl_cons]
  have hstep : (if visited.getD c true then
        (l1.foldl (fun sol2 i =>
          if visited.getD i true then sol2
          else if i = 0 then sol2
          else sol2.add_unassigned i) sol)
      else if c = 0 then
        (l1.foldl (fun sol2 i =>
          if visited.getD i true then sol2
          else if i = 0 then sol2
          else sol2.add_unassigned i) sol)
      else (l1.foldl (fun sol2 i =>
        if visited.getD i true then sol2
        else if i = 0 then sol2
        else sol2.add_unassigned i) sol).add_unassigned c) =
      (l1.foldl (fun sol2 i =>
        if visited.getD i true then sol2
        else if i = 0 then sol2
        else sol2.add_unassigned i) sol).add_unassigned c := by
    rw [if_neg (by rw [hcv]; exact Bool.false_ne_true), if_neg hc1]
  rw [hstep]
  have main : ∀ (l : List ℕ) (s : Solution), c ∈ s.unassigned →
      c ∈ (l.foldl (fun sol2 i =>
        if visited.getD i true then sol2
        else if i = 0 then sol2
        else sol2.add_unassigned i) s).unassigned := by
    intro l
    induction l with
    | nil => intro s hs; exact hs
    | cons a t ih =>
      intro s hs
      rw [List.foldl_cons]
      apply ih
      by_cases h1 : visited.getD a true = true
      · rw [if_pos h1]
        exact hs
      · rw [if_neg h1]
        by_cases h2 : a = 0
        · rw [if_pos h2]
          exact hs
        · rw [if_neg h2]
          show c ∈ s.unassigned ++ [a]
          exact List.mem_append_left _ hs
  apply main
  show c ∈ _ ++ [c]
  exact List.mem_append_right _ (List.mem_singleton.mpr rfl)

theorem all_drop_one_false (l : List Bool) (c : ℕ) (hc1 : 1 ≤ c)
    (hc2 : c < l.length) (hl : l.getD c true = false) :
    (l.drop 1).all (fun b => b) = false := by
  cases l with
  | nil => simp at hc2
  | cons a t =>
    have hc2t : c - 1 < t.length := by
      simp only [List.length_cons] at hc2
      omega
    have hlt : t.getD (c - 1) true = false := by
      rw [show c = c - 1 + 1 by omega] at hl
      rw [List.getD_cons_succ] at hl
      exact hl
    have hmem : (false : Bool) ∈ t := by
      rw [List.getD_eq_getElem t true hc2t] at hlt
      rw [← hlt]
      exact List.getElem_mem hc2t
    show t.all (fun b => b) = false
    cases h3 : t.all (fun b => b) with
    | false => rfl
    | true =>
      exfalso
      have h4 := List.all_eq_true.mp h3 false hmem
      simp at h4

/-- Through the whole vehicle loop, an unreachable customer stays out of
every route and ends up in the unassigned list. -/
theorem nnTWVehicleLoop_excl (customers : List Customer) (dm : DistanceMatrix)
    (c : ℕ) (tw : TimeWindow)
    (hcw : (customers.getD c dfltCustomer).time_window = some tw)
    (hsize : customers.length ≤ dm.size)
    (htri : ∀ a b c2, a < dm.size → b < dm.size → c2 < dm.size →
      dm.get a c2 ≤ dm.get a b + dm.get b c2)
    (hserv : ∀ i, i < customers.length →
      0 ≤ (customers.getD i dfltCustomer).service_duration)
    (hc1 : 1 ≤ c) (hclen : c < customers.length) :
    ∀ (vehicles : List Vehicle) (visited : List Bool) (solution : Solution),
    (∀ v ∈ vehicles, v.depot_id < dm.size ∧ tw.due < dm.get v.depot_id c) →
    visited.getD c true = false →
    visited.length = customers.length →
    (∀ r ∈ solution.routes, c ∉ r.customer_ids) →
    (∀ r ∈ (nnTWVehicleLoop customers dm vehicles visited solution).routes,
      c ∉ r.customer_ids) ∧
    c ∈ (nnTWVehicleLoop customers dm vehicles visited solution).unassigned := by
  intro vehicles
  induction vehicles with
  | nil =>
    intro visited solution hveh hvc hvlen hroutes
    constructor
    · show ∀ r ∈ (addUnassignedAll visited solution).routes, c ∉ r.customer_ids
      rw [addUnassignedAll_routes]
      exact hroutes
    · exact addUnassignedAll_mem visited solution c (by omega) (by omega) hvc
  | cons vehicle rest ih =>
    intro visited solution hveh hvc hvlen hroutes
    have hvh := hveh vehicle (List.mem_cons_self vehicle rest)
    obtain ⟨e1, e2, e3⟩ := nnTWRouteLoop_excl customers dm vehicle c tw hcw
      hsize hvh.1 hvh.2 htri hserv (lt_of_lt_of_le hclen hsize)
      customers.length visited vehicle.depot_id 0 0 [] hvh.1
      (by rw [zero_add]) hvc (by simp)
    have hall : ((nnTWRouteLoop customers dm vehicle customers.length visited
        vehicle.depot_id 0 0 []).1.drop 1).all (fun b => b) = false :=
      all_drop_one_false _ c hc1 (by omega) e1
    have hsol2 : ∀ r ∈ (if (nnTWRouteLoop customers dm vehicle customers.length
          visited vehicle.depot_id 0 0 []).2.isEmpty then solution
        else solution.add_route (build_route customers dm vehicle
          (nnTWRouteLoop customers dm vehicle customers.length visited
            vehicle.depot_id 0 0 []).2).1).routes, c ∉ r.customer_ids := by
      by_cases hemp : (nnTWRouteLoop customers dm vehicle customers.length
          visited vehicle.depot_id 0 0 []).2.isEmpty = true
      · rw [if_pos hemp]
        exact hroutes
      · rw [if_neg hemp]
        intro r hr
        rcases List.mem_append.mp hr with h | h
        · exact hroutes r h
        · rw [List.mem_singleton] at h
          subst h
          rw [build_route_ids]
          exact e2
    have hred : nnTWVehicleLoop customers dm (vehicle :: rest) visited solution =
        nnTWVehicleLoop customers dm rest
          (nnTWRouteLoop customers dm vehicle customers.length visited
            vehicle.depot_id 0 0 []).1
          (if (nnTWRouteLoop customers dm vehicle customers.length visited
              vehicle.depot_id 0 0 []).2.isEmpty then solution
            else solution.add_route (build_route customers dm vehicle
              (nnTWRouteLoop customers dm vehicle customers.length visited
                vehicle.depot_id 0 0 []).2).1) := by
      simp only [nnTWVehicleLoop]
      rw [hall]
      rfl
    rw [hred]
    exact ih _ _ (fun v hv => hveh v (List.mem_cons_of_mem vehicle hv)) e1
      (by omega) hsol2

/-- Non-metric 3-location matrix: `d(0,2) = 100` but `d(0,1) + d(1,2) = 2`. -/
def C9dm : DistanceMatrix := ⟨[0, 1, 100, 1, 0, 1, 100, 1, 0], 3⟩

/-- Customer 2 closes its window (due 5) before the direct depot travel
time 100. -/
def C9custs : List Customer :=
  [dfltCustomer, Customer.new 1 0 0 0 0,
   (Customer.new 2 0 0 0 0).with_time_window ⟨0, 5⟩]

def C9vehs : List Vehicle := [Vehicle.new 0 100]

/-- On the non-metric matrix the claim fails: customer 2 has `due = 5 <
d(0,2) = 100`, yet it is reached through customer 1 (arrival 2) and ends up
in a route, not in the unassigned list. -/
theorem C9_counterexample :
    (C9custs.getD 2 dfltCustomer).time_window = some ⟨0, 5⟩ ∧
    C9dm.get 0 2 = 100 ∧ ((5 : ℚ) < 100) ∧
    (nearest_neighbor_tw C9custs C9dm C9vehs).routes.map Route.customer_ids
      = [[1, 2]] ∧
    (nearest_neighbor_tw C9custs C9dm C9vehs).unassigned = [] := by
  have h1 : nnTWScan C9custs C9dm (Vehicle.new 0 100)
      ((List.replicate 3 false).set 0 true) 0 0 0 = some (1, 1) := by
    norm_num [nnTWScan, nnTWScanStep, isNoneOrLt, twViolated, twAdjust,
      C9custs, C9dm, C9vehs, dfltCustomer, Customer.new, Customer.depot,
      Customer.with_time_window, TimeWindow.waiting_time, Vehicle.new,
      DistanceMatrix.get, List.range_succ, List.range_zero, List.range',
      List.getD, List.foldl]
  have h2 : nnTWScan C9custs C9dm (Vehicle.new 0 100)
      (((List.replicate 3 false).set 0 true).set 1 true) 1 1 0 =
      some (2, 1) := by
    norm_num [nnTWScan, nnTWScanStep, isNoneOrLt, twViolated, twAdjust,
      C9custs, C9dm, C9vehs, dfltCustomer, Customer.new, Customer.depot,
      Customer.with_time_window, TimeWindow.waiting_time, Vehicle.new,
      DistanceMatrix.get, List.range_succ, List.range_zero, List.range',
      List.getD, List.foldl]
  have h3 : nnTWScan C9custs C9dm (Vehicle.new 0 100)
      ((((List.replicate 3 false).set 0 true).set 1 true).set 2 true) 2 2 0 =
      none := by
    norm_num [nnTWScan, nnTWScanStep, isNoneOrLt, twViolated, twAdjust,
      C9custs, C9dm, C9vehs, dfltCustomer, Customer.new, Customer.depot,
      Customer.with_time_window, TimeWindow.waiting_time, Vehicle.new,
      DistanceMatrix.get, List.range_succ, List.range_zero, List.range',
      List.getD, List.foldl]
  have eT1 : nnServiceStart (C9custs.getD 1 dfltCustomer)
      ((0 : ℚ) + C9dm.get 0 1) +
      (C9custs.getD 1 dfltCustomer).service_duration = 1 := by
    norm_num [nnServiceStart, C9custs, C9dm, Customer.new, dfltCustomer,
      Customer.depot, DistanceMatrix.get, List.getD]
  have eL1 : (0 : ℤ) + (C9custs.getD 1 dfltCustomer).demand = 0 := by
    norm_num [C9custs, Customer.new, dfltCustomer, Customer.depot]
  have eT2 : nnServiceStart (C9custs.getD 2 dfltCustomer)
      ((1 : ℚ) + C9dm.get 1 2) +
      (C9custs.getD 2 dfltCustomer).service_duration = 2 := by
    norm_num [nnServiceStart, C9custs, C9dm, Customer.new, dfltCustomer,
      Customer.depot, Customer.with_time_window, TimeWindow.waiting_time,
      DistanceMatrix.get, List.getD]
  have eL2 : (0 : ℤ) + (C9custs.getD 2 dfltCustomer).demand = 0 := by
    norm_num [C9custs, Customer.new, dfltCustomer, Customer.depot,
      Customer.with_time_window]
  have hRL : nnTWRouteLoop C9custs C9dm (Vehicle.new 0 100) 3
      ((List.replicate 3 false).set 0 true) 0 0 0 [] =
      ((((List.replicate 3 false).set 0 true).set 1 true).set 2 true,
        [1, 2]) := by
    show nnTWRouteLoop C9custs C9dm (Vehicle.new 0 100) (2 + 1)
      ((List.replicate 3 false).set 0 true) 0 0 0 [] = _
    simp only [nnTWRouteLoop, h1, List.nil_append]
    rw [eT1, eL1]
    show nnTWRouteLoop C9custs C9dm (Vehicle.new 0 100) (1 + 1)
      (((List.replicate 3 false).set 0 true).set 1 true) 1 1 0 [1] = _
    simp only [nnTWRouteLoop, h2, List.cons_append, List.nil_append]
    rw [eT2, eL2]
    show nnTWRouteLoop C9custs C9dm (Vehicle.new 0 100) (0 + 1)
      ((((List.replicate 3 false).set 0 true).set 1 true).set 2 true) 2 2 0
      [1, 2] = _
    simp only [nnTWRouteLoop, h3]
  have eLen : C9custs.length = 3 := rfl
  have eDep : (Vehicle.new 0 100).depot_id = 0 := rfl
  have eAll : (((((List.replicate 3 false).set 0 true).set 1 true).set
      2 true).drop 1).all (fun b => b) = true := by decide
  have eEmp : ([1, 2] : List ℕ).isEmpty = false := by decide
  have hVL : nnTWVehicleLoop C9custs C9dm C9vehs
      ((List.replicate 3 false).set 0 true) Solution.emptySol =
      Solution.emptySol.add_route
        (build_route C9custs C9dm (Vehicle.new 0 100) [1, 2]).1 := by
    show nnTWVehicleLoop C9custs C9dm (Vehicle.new 0 100 :: [])
      ((List.replicate 3 false).set 0 true) Solution.emptySol = _
    simp only [nnTWVehicleLoop, eLen, eDep, hRL]
    norm_num [eAll, eEmp]
    intro hmem
    exact absurd hmem (by decide)
  have hTop : nearest_neighbor_tw C9custs C9dm C9vehs =
      (Solution.emptySol.add_route
        (build_route C9custs C9dm (Vehicle.new 0 100) [1, 2]).1).set_total_cost
        ((Solution.emptySol.add_route
          (build_route C9custs C9dm (Vehicle.new 0 100)
            [1, 2]).1).total_distance) := by
    simp only [nearest_neighbor_tw, eLen]
    rw [if_neg (by norm_num : ¬((3 : ℕ) ≤ 1))]
    simp only [hVL]
  refine ⟨by norm_num [C9custs, Customer.new, Customer.with_time_window],
    by norm_num [C9dm, DistanceMatrix.get, List.getD], by norm_num, ?_, ?_⟩
  · rw [hTop]
    show List.map Route.customer_ids
      [(build_route C9custs C9dm (Vehicle.new 0 100) [1, 2]).1] = [[1, 2]]
    rw [List.map_cons, List.map_nil, build_route_ids]
  · rw [hTop]
    rfl

theorem getD_replicate_false (n idx : ℕ) (h : idx < n) :
    (List.replicate n false).getD idx true = false := by
  simp [List.getD, List.getElem?_replicate, h]

/-- C9 (amended): under the triangle inequality on in-bounds entries,
non-negative service durations, and each vehicle's depot in bounds, a
customer whose window closes before the depot travel time (from every
vehicle's depot) is never placed in any route and ends up unassigned. -/
theorem C9_nn_tw_unreachable (customers : List Customer) (dm : DistanceMatrix)
    (vehicles : List Vehicle) (c : ℕ) (tw : TimeWindow)
    (hc1 : 1 ≤ c) (hclen : c < customers.length)
    (hcw : (customers.getD c dfltCustomer).time_window = some tw)
    (hsize : customers.length ≤ dm.size)
    (htri : ∀ a b c2, a < dm.size → b < dm.size → c2 < dm.size →
      dm.get a c2 ≤ dm.get a b + dm.get b c2)
    (hserv : ∀ i, i < customers.length →
      0 ≤ (customers.getD i dfltCustomer).service_duration)
    (hveh : ∀ v ∈ vehicles, v.depot_id < dm.size ∧
      tw.due < dm.get v.depot_id c) :
    (∀ r ∈ (nearest_neighbor_tw customers dm vehicles).routes,
      c ∉ r.customer_ids) ∧
    c ∈ (nearest_neighbor_tw customers dm vehicles).unassigned := by
  have hn : ¬(customers.length ≤ 1) := by omega
  have hred : nearest_neighbor_tw customers dm vehicles =
      (nnTWVehicleLoop customers dm vehicles
        ((List.replicate customers.length false).set 0 true)
        Solution.emptySol).set_total_cost
        ((nnTWVehicleLoop customers dm vehicles
          ((List.replicate customers.length false).set 0 true)
          Solution.emptySol).total_distance) := by
    simp only [nearest_neighbor_tw]
    rw [if_neg hn]
  rw [hred]
  have hmain := nnTWVehicleLoop_excl customers dm c tw hcw hsize htri hserv
    hc1 hclen vehicles ((List.replicate customers.length false).set 0 true)
    Solution.emptySol hveh
    (by
      rw [getD_set_ne _ 0 c true true (by omega)]
      exact getD_replicate_false customers.length c hclen)
    (by simp)
    (fun r hr => absurd hr (List.not_mem_nil r))
  exact ⟨hmain.1, hmain.2⟩

/-- Metric line instance for the C9 witness: `d(i,j) = |i - j|` on 3 nodes. -/
def C9Wdm : DistanceMatrix := ⟨[0, 1, 2, 1, 0, 1, 2, 1, 0], 3⟩

def C9Wcusts : List Customer :=
  [dfltCustomer, Customer.new 1 0 0 0 0,
   (Customer.new 2 0 0 0 0).with_time_window ⟨0, 1⟩]

def C9Wvehs : List Vehicle := [Vehicle.new 0 100]

theorem C9_nn_tw_unreachable_witness :
    ((C9Wcusts.getD 2 dfltCustomer).time_window = some ⟨0, 1⟩ ∧
     (∀ a b c2, a < C9Wdm.size → b < C9Wdm.size → c2 < C9Wdm.size →
       C9Wdm.get a c2 ≤ C9Wdm.get a b + C9Wdm.get b c2) ∧
     (∀ i, i < C9Wcusts.length →
       0 ≤ (C9Wcusts.getD i dfltCustomer).service_duration) ∧
     (∀ v ∈ C9Wvehs, v.depot_id < C9Wdm.size ∧
       (TimeWindow.due ⟨0, 1⟩) < C9Wdm.get v.depot_id 2)) ∧
    ((∀ r ∈ (nearest_neighbor_tw C9Wcusts C9Wdm C9Wvehs).routes,
        2 ∉ r.customer_ids) ∧
      2 ∈ (nearest_neighbor_tw C9Wcusts C9Wdm C9Wvehs).unassigned) := by
  have htri : ∀ a b c2, a < C9Wdm.size → b < C9Wdm.size → c2 < C9Wdm.size →
      C9Wdm.get a c2 ≤ C9Wdm.get a b + C9Wdm.get b c2 := by
    intro a b c2 ha hb hc2
    have ha3 : a < 3 := ha
    have hb3 : b < 3 := hb
    have hc3 : c2 < 3 := hc2
    interval_cases a <;> interval_cases b <;> interval_cases c2 <;>
      norm_num [C9Wdm, DistanceMatrix.get, List.getD]
  have hserv : ∀ i, i < C9Wcusts.length →
      0 ≤ (C9Wcusts.getD i dfltCustomer).service_duration := by
    intro i hi
    have hi3 : i < 3 := hi
    interval_cases i <;>
      norm_num [C9Wcusts, Customer.new, Customer.depot,
        Customer.with_time_window, dfltCustomer]
  have hveh : ∀ v ∈ C9Wvehs, v.depot_id < C9Wdm.size ∧
      (TimeWindow.due ⟨0, 1⟩) < C9Wdm.get v.depot_id 2 := by
    intro v hv
    simp only [C9Wvehs, List.mem_singleton] at hv
    subst hv
    refine ⟨by decide, ?_⟩
    norm_num [C9Wdm, Vehicle.new, DistanceMatrix.get, List.getD]
  exact ⟨⟨rfl, htri, hserv, hveh⟩,
    C9_nn_tw_unreachable C9Wcusts C9Wdm C9Wvehs 2 ⟨0, 1⟩ (by norm_num)
      (by decide) rfl (by decide) htri hserv hveh⟩

end URouting
